import Mathlib

/-!
# rpi-http-request: a shallow embedding of the HTTP client and its response parser

The development embeds `HttpResponse.cpp` and `HttpRequest.cpp`.

Modelling conventions.

* A byte (`char`) is a `Char`; a `std::string` is a `List Char` (`Str`).  A
  `const char*` is read up to its first NUL byte, which `cstr` makes explicit.
* `int` counters are mathematical integers.  `atoi` and `strtol` saturate at the
  bounds of a 32-bit `long` (the ILP32 target of the library); signed overflow of
  a counter is undefined behaviour in the source and is outside the model.
* An exception is an `Outcome.thrown`, which also carries the object as the
  `throw` left it.  A failed `assert` is `Outcome.aborted`.
* The pointer `data` of `processResponse` is its offset `pos` in the buffer, an
  integer that follows the pointer arithmetic of the source as on a flat address
  space, also below zero.  A turn of the loop that would use the pointer before
  the start of the buffer, and a `sprintf` or a read past the end of its
  buffer, are `Outcome.undefined`.
* The three callbacks are external.  Each invocation is appended to the ghost
  field `trace`; a null callback pointer is a `false` flag in `Callbacks`.
* The main loop of `processResponse` may fail to terminate, so its embedding
  takes a fuel argument and answers `none` when the fuel runs out.
-/

namespace RpiHttp

/-! ## Strings and the C library -/

/-- A `std::string`, or a byte buffer. -/
abbrev Str := List Char

/-- The NUL byte. -/
def NUL : Char := Char.ofNat 0

/-- View of a buffer as a C string: the bytes before the first NUL. -/
def cstr (s : Str) : Str := s.takeWhile (fun c => c != NUL)

/-- C `isspace` in the "C" locale: space, `\t`, `\n`, `\v`, `\f`, `\r`. -/
def isspace (c : Char) : Bool :=
  c == ' ' || c == '\t' || c == '\n' || c == Char.ofNat 11 || c == Char.ofNat 12 || c == '\r'

/-- C `tolower` in the "C" locale: only `A`..`Z` change. -/
def tolower (c : Char) : Char := c.toLower

/-- Lower-case a whole string (`std::transform(.., ::tolower)`). -/
def lower (s : Str) : Str := s.map tolower

/-- The test `0 == strcasecmp(a, b)` on two C strings. -/
def strcaseeq (a b : Str) : Bool := lower (cstr a) == lower (cstr b)

/-- Value of a digit character in the given base, as `strtol` reads it. -/
def digitOf (base : Nat) (c : Char) : Option Nat :=
  if '0' ≤ c ∧ c ≤ '9' then
    (if c.toNat - 48 < base then some (c.toNat - 48) else none)
  else if 'a' ≤ c ∧ c ≤ 'z' then
    (if c.toNat - 97 + 10 < base then some (c.toNat - 97 + 10) else none)
  else if 'A' ≤ c ∧ c ≤ 'Z' then
    (if c.toNat - 65 + 10 < base then some (c.toNat - 65 + 10) else none)
  else none

/-- Accumulate the longest run of leading digits. -/
def accDigits (base : Nat) : Nat → Str → Nat
  | acc, [] => acc
  | acc, c :: cs =>
    match digitOf base c with
    | some d => accDigits base (acc * base + d) cs
    | none => acc

/-- Largest value of a 32-bit `long`. -/
def LONG_MAX : Int := 2147483647

/-- Smallest value of a 32-bit `long`. -/
def LONG_MIN : Int := -2147483648

/-- Saturation of `strtol` at the bounds of `long`. -/
def clampLong (v : Int) : Int :=
  if v > LONG_MAX then LONG_MAX else if v < LONG_MIN then LONG_MIN else v

/-- Optional sign of a number: the flag says whether it is negative. -/
def takeSign (s : Str) : Bool × Str :=
  match s with
  | c :: t => if c = '-' then (true, t) else if c = '+' then (false, t) else (false, c :: t)
  | [] => (false, [])

/-- Optional `0x` / `0X` of a hexadecimal number, dropped when a digit follows. -/
def takeHexMark (s : Str) : Str :=
  match s with
  | z :: x :: d :: t =>
    if z = '0' ∧ (x = 'x' ∨ x = 'X') ∧ (digitOf 16 d).isSome then d :: t else s
  | _ => s

/-- C `strtol(s, NULL, base)` for base 10 or 16: leading white space, an optional
sign, for base 16 an optional `0x`, then the longest run of digits; no digits
give 0. -/
def strtol (s : Str) (base : Nat) : Int :=
  let s1 := (cstr s).dropWhile isspace
  let sg := takeSign s1
  let s2 := if base = 16 then takeHexMark sg.2 else sg.2
  let n : Int := (accDigits base 0 s2 : Nat)
  clampLong (if sg.1 then -n else n)

/-- C `atoi(s)`, which is `(int) strtol(s, NULL, 10)`. -/
def atoi (s : Str) : Int := strtol s 10

/-! ## Exceptions and outcomes -/

/-- The exception class: a message of at most 255 bytes. -/
structure HttpException where
  message : Str
deriving DecidableEq, Repr

/-- Result of `vsnprintf` into the 256-byte message buffer. -/
def HttpException.mk256 (msg : Str) : HttpException := ⟨msg.take 255⟩

/-- The exception `"Invalid HTTP Status: (%s)"`. -/
def invalidStatusError (data : Str) : HttpException :=
  HttpException.mk256 ("Invalid HTTP Status: (".toList ++ cstr data ++ ")".toList)

/-- The exception `"Invalid HTTP Version: (%s)"`. -/
def invalidVersionError (versionStr : Str) : HttpException :=
  HttpException.mk256 ("Invalid HTTP Version: (".toList ++ cstr versionStr ++ ")".toList)

/-- The exception `"Invalid State: in connectionClosed()"`. -/
def invalidStateError : HttpException :=
  HttpException.mk256 "Invalid State: in connectionClosed()".toList

/-- The exception `"Request already started."`. -/
def alreadyStartedError : HttpException :=
  HttpException.mk256 "Request already started.".toList

/-- The exception `"addHeader() failed"`. -/
def addHeaderError : HttpException :=
  HttpException.mk256 "addHeader() failed".toList

/-- How a call ends: normally with the object and a result, by an exception
with the object as the `throw` left it, by a failed `assert` that ends the
program, or in undefined behaviour. -/
inductive Outcome (σ : Type) (α : Type) where
  | ok (s : σ) (a : α)
  | thrown (e : HttpException) (s : σ)
  | aborted
  | undefined
deriving DecidableEq, Repr

/-! ## The response -/

/-- The parser states of `HttpResponse`. -/
inductive ResponseState where
  | StatusLine
  | Header
  | Body
  | ChunkLength
  | ChunkComplete
  | Trailer
  | Complete
deriving DecidableEq, Repr

/-- One invocation of a callback. -/
inductive Event where
  | headersReady
  | receiveData (data : Str) (sizeOfData : Int)
  | responseComplete
deriving DecidableEq, Repr

/-- The callback pointers of the request: `true` when the pointer is not null. -/
structure Callbacks where
  _headersReady : Bool
  _receiveData : Bool
  _responseComplete : Bool
deriving DecidableEq, Repr

/-- The header map `std::map<std::string, std::string>`. -/
abbrev HeaderMap := List (Str × Str)

/-- The lookup `map.find(k)`. -/
def mapFind : HeaderMap → Str → Option Str
  | [], _ => none
  | (k', v) :: t, k => if k' = k then some v else mapFind t k

/-- The assignment `map[k] = v`. -/
def mapInsert (m : HeaderMap) (k v : Str) : HeaderMap :=
  (k, v) :: m.filter (fun p => p.1 != k)

/-- The fields of `HttpResponse`, with the callbacks reached through `_request`
and the ghost `trace` of the callbacks invoked so far. -/
structure HttpResponse where
  _state : ResponseState
  _request : Callbacks
  _method : Str
  _status : Int
  _reason : Str
  _version : Int
  _versionStr : Str
  _headers : HeaderMap
  _currHeader : Str
  _autoClose : Bool
  _bytesRead : Int
  _contentLength : Int
  _chunked : Bool
  _chunkLength : Int
  trace : List Event
deriving DecidableEq, Repr

/-- Status code 100. -/
def Continue : Int := 100

/-- Status code 204. -/
def NoContent : Int := 204

/-- Status code 304. -/
def NotModified : Int := 304

/-- The constructor `HttpResponse(method, request)`. -/
def HttpResponse.new (method : Str) (request : Callbacks) : HttpResponse :=
  { _state := .StatusLine, _request := request, _method := cstr method, _status := 0,
    _reason := [], _version := 0, _versionStr := [], _headers := [], _currHeader := [],
    _autoClose := false, _bytesRead := 0, _contentLength := -1, _chunked := false,
    _chunkLength := 0, trace := [] }

namespace HttpResponse

/-- Accessor `getStatus()`. -/
def getStatus (r : HttpResponse) : Int := r._status

/-- Accessor `getReason()`, a C string. -/
def getReason (r : HttpResponse) : Str := cstr r._reason

/-- Accessor `completed()`. -/
def completed (r : HttpResponse) : Bool := r._state == .Complete

/-- Accessor `autoClose()`. -/
def autoClose (r : HttpResponse) : Bool := r._autoClose

/-- Lookup `getHeader(name)`: the name is lower-cased, the result is a C string
or `none` for the null pointer. -/
def getHeader (r : HttpResponse) (name : Str) : Option Str :=
  (mapFind r._headers (lower (cstr name))).map cstr

/-- Callback `complete()`: the state becomes `Complete` and the completion
callback is invoked when it is set. -/
def complete (r : HttpResponse) : HttpResponse :=
  { r with _state := .Complete,
           trace := if r._request._responseComplete then r.trace ++ [Event.responseComplete]
                    else r.trace }

/-- Close notification `connectionClosed()`. -/
def connectionClosed (r : HttpResponse) : Outcome HttpResponse Unit :=
  if r._state = .Complete then .ok r ()
  else if r._state = .Body ∧ r._chunked = false ∧ r._contentLength = -1 then .ok (complete r) ()
  else .thrown invalidStateError r

/-- Header commit `addHeader()`: split `_currHeader` at its first colon. -/
def addHeader (r : HttpResponse) : HttpResponse :=
  if r._currHeader = [] then r
  else
    let headerPair := cstr r._currHeader
    let name := lower (headerPair.takeWhile (fun c => c != ':'))
    let afterName := headerPair.dropWhile (fun c => c != ':')
    let afterColon := afterName.drop 1
    let value := afterColon.dropWhile (fun c => c == '\t' || c == ' ')
    { r with _headers := mapInsert r._headers name value, _currHeader := [] }

/-- Helper `isAutoClose()`. -/
def isAutoClose (r : HttpResponse) : Bool :=
  if r._version = 11 then
    match getHeader r "connection".toList with
    | some conn => strcaseeq conn "close".toList
    | none => false
  else
    match getHeader r "keep-alive".toList with
    | some _ => false
    | none => true

/-- First statements of `initBody()`: `_autoClose = isAutoClose()` and
`_contentLength = -1`. -/
def resetLength (r : HttpResponse) : HttpResponse :=
  { r with _autoClose := isAutoClose r, _contentLength := -1 }

/-- The `transfer-encoding` test of `initBody()`. -/
def readTransferEncoding (r : HttpResponse) : HttpResponse :=
  match getHeader r "transfer-encoding".toList with
  | some transferEncoding =>
    if strcaseeq transferEncoding "chunked".toList then
      { r with _chunked := true, _chunkLength := -1 }
    else { r with _chunked := false }
  | none => { r with _chunked := false }

/-- The `content-length` test of `initBody()`. -/
def readContentLength (r : HttpResponse) : HttpResponse :=
  match getHeader r "content-length".toList with
  | some length => if r._chunked = false then { r with _contentLength := atoi length } else r
  | none => r

/-- The condition "these situations have no body" of `initBody()`. -/
def hasNoBody (r : HttpResponse) : Prop :=
  (r._status ≥ 100 ∧ r._status < 200) ∨ r._status = NoContent ∨ r._status = NotModified ∨
    r._method = "HEAD".toList

instance (r : HttpResponse) : Decidable (hasNoBody r) := by
  unfold hasNoBody
  exact inferInstance

/-- The no-body statement of `initBody()`. -/
def applyNoBodyRule (r : HttpResponse) : HttpResponse :=
  if hasNoBody r then { r with _contentLength := 0 } else r

/-- The statement of `initBody()` that turns `_autoClose` on for a body without
chunks and without a length. -/
def defaultAutoClose (r : HttpResponse) : HttpResponse :=
  if r._autoClose = false ∧ r._chunked = false ∧ r._contentLength = -1 then
    { r with _autoClose := true }
  else r

/-- The headers-ready callback of `initBody()`. -/
def notifyHeadersReady (r : HttpResponse) : HttpResponse :=
  if r._request._headersReady then { r with trace := r.trace ++ [Event.headersReady] } else r

/-- The last statement of `initBody()`: the next state. -/
def enterBody (r : HttpResponse) : HttpResponse :=
  if r._chunked then { r with _state := .ChunkLength } else { r with _state := .Body }

/-- Body set-up `initBody()`, its statements in source order. -/
def initBody (r : HttpResponse) : HttpResponse :=
  enterBody (notifyHeadersReady (defaultAutoClose (applyNoBodyRule
    (readContentLength (readTransferEncoding (resetLength r))))))

/-- The three tokens of a status line as `processStatusLine` cuts them: version,
status and reason, separated by runs of spaces. -/
def statusTokens (data : Str) : Str × Str × Str :=
  let c1 := (cstr data).dropWhile (fun c => c == ' ')
  let c2 := (c1.dropWhile (fun c => c != ' ')).dropWhile (fun c => c == ' ')
  let c3 := (c2.dropWhile (fun c => c != ' ')).dropWhile (fun c => c == ' ')
  (c1.takeWhile (fun c => c != ' '), c2.takeWhile (fun c => c != ' '), c3)

/-- Line handler `processStatusLine(data)`: the version and the reason are
appended to their fields, the status is assigned. -/
def processStatusLine (r : HttpResponse) (data : Str) : Outcome HttpResponse Unit :=
  let tok := statusTokens data
  let r1 := { r with _versionStr := r._versionStr ++ tok.1, _status := atoi tok.2.1,
                     _reason := r._reason ++ tok.2.2 }
  if r1._status < 100 ∨ r1._status > 999 then .thrown (invalidStatusError data) r1
  else if r1._versionStr = "HTTP:/1.0".toList then
    .ok { r1 with _version := 10, _state := .Header, _currHeader := [] } ()
  else if r1._versionStr.take 7 = "HTTP/1.".toList then
    .ok { r1 with _version := 11, _state := .Header, _currHeader := [] } ()
  else .thrown (invalidVersionError r1._versionStr) r1

/-- Line handler `processHeader(data)`. -/
def processHeader (r : HttpResponse) (data : Str) : HttpResponse :=
  if data = [] then
    let r1 := addHeader r
    if r1._status = Continue then { r1 with _state := .StatusLine } else initBody r1
  else
    match cstr data with
    | c :: rest =>
      if isspace c then
        { r with _currHeader := r._currHeader ++ [' '] ++ rest.dropWhile isspace }
      else { addHeader r with _currHeader := c :: rest }
    | [] => { addHeader r with _currHeader := [] }

/-- Line handler `processTrailer(data)`. -/
def processTrailer (r : HttpResponse) (_data : Str) : HttpResponse := complete r

/-- Data callback: the callee sees `sizeOfData` bytes at `data`. -/
def deliver (r : HttpResponse) (data : Str) (sizeOfData : Int) : HttpResponse :=
  if r._request._receiveData then
    { r with trace := r.trace ++ [Event.receiveData (data.take sizeOfData.toNat) sizeOfData] }
  else r

/-- Body handler `processData(data, byteCount)`; the result is `bytesProcessed`. -/
def processData (r : HttpResponse) (data : Str) (byteCount : Int) : HttpResponse × Int :=
  let bytesProcessed :=
    if r._contentLength ≠ -1 ∧ byteCount > r._contentLength - r._bytesRead then
      r._contentLength - r._bytesRead
    else byteCount
  let r1 := deliver r data bytesProcessed
  let r2 := { r1 with _bytesRead := r1._bytesRead + bytesProcessed }
  if r2._contentLength ≠ -1 ∧ r2._bytesRead = r2._contentLength then (complete r2, bytesProcessed)
  else (r2, bytesProcessed)

/-- Line handler `processChunkLength(data)`. -/
def processChunkLength (r : HttpResponse) (data : Str) : HttpResponse :=
  let r1 := { r with _chunkLength := strtol data 16 }
  if r1._chunkLength = 0 then { r1 with _state := .Trailer } else { r1 with _state := .Body }

/-- Body handler `processChunkedData(data, byteCount)`; the result is
`bytesProcessed`. -/
def processChunkedData (r : HttpResponse) (data : Str) (byteCount : Int) : HttpResponse × Int :=
  let bytesProcessed := if byteCount > r._chunkLength then r._chunkLength else byteCount
  let r1 := deliver r data bytesProcessed
  let r2 := { r1 with _bytesRead := r1._bytesRead + bytesProcessed }
  let r3 := { r2 with _chunkLength := r2._chunkLength - bytesProcessed }
  if r3._chunkLength = 0 then ({ r3 with _state := .ChunkComplete }, bytesProcessed)
  else (r3, bytesProcessed)

/-- The `switch (_state)` run when the line loop meets a newline. -/
def dispatchLine (r : HttpResponse) (singleLine : Str) : Outcome HttpResponse Unit :=
  match r._state with
  | .StatusLine => processStatusLine r singleLine
  | .Header => .ok (processHeader r singleLine) ()
  | .ChunkLength => .ok (processChunkLength r singleLine) ()
  | .ChunkComplete => .ok { r with _state := .ChunkLength } ()
  | .Trailer => .ok (processTrailer r singleLine) ()
  | _ => .ok r ()

/-- The inner loop `while (byteCount > 0)` of a line state, over the bytes at
`data`: it ends after the first newline, or when the bytes run out.  The result
is the line buffer and the number of bytes read. -/
def lineLoop (r : HttpResponse) : Str → Str → Nat → Outcome HttpResponse (Str × Nat)
  | [], singleLine, n => .ok r (singleLine, n)
  | c :: rest, singleLine, n =>
    if c ≠ '\n' then
      lineLoop r rest (if c ≠ '\r' then singleLine ++ [c] else singleLine) (n + 1)
    else
      match dispatchLine r singleLine with
      | .ok r1 _ => .ok r1 ([], n + 1)
      | .thrown e r1 => .thrown e r1
      | .aborted => .aborted
      | .undefined => .undefined

/-- Whether the state is one of the five line-oriented states. -/
def isLineState (s : ResponseState) : Bool :=
  s == .StatusLine || s == .Header || s == .ChunkLength || s == .ChunkComplete || s == .Trailer

/-- The outer loop `while (byteCount > 0 && _state != Complete)` of
`processResponse`.  `pos` is the offset of the pointer `data` from the start of
the buffer `buf`, so that `byteCount` is `buf.length - pos`; the value returned,
`sizeOfData - byteCount`, is the final offset. -/
def mainLoop (buf : Str) : Nat → HttpResponse → Int → Str → Option (Outcome HttpResponse Int)
  | 0, _, _, _ => none
  | fuel + 1, r, pos, singleLine =>
    let byteCount : Int := (buf.length : Int) - pos
    if byteCount > 0 ∧ r._state ≠ .Complete then
      if pos < 0 then some .undefined
      else if isLineState r._state then
        match lineLoop r (buf.drop pos.toNat) singleLine 0 with
        | .ok r1 (singleLine1, n) => mainLoop buf fuel r1 (pos + n) singleLine1
        | .thrown e r1 => some (.thrown e r1)
        | .aborted => some .aborted
        | .undefined => some .undefined
      else if r._state = .Body then
        let res :=
          if r._chunked then processChunkedData r (buf.drop pos.toNat) byteCount
          else processData r (buf.drop pos.toNat) byteCount
        mainLoop buf fuel res.1 (pos + res.2) singleLine
      else mainLoop buf fuel r pos singleLine
    else some (.ok r pos)

/-- Entry point `processResponse(data, sizeOfData)` with `sizeOfData` the length
of `data`.  `none` means that the fuel did not suffice. -/
def processResponse (fuel : Nat) (r : HttpResponse) (data : Str) :
    Option (Outcome HttpResponse Int) :=
  mainLoop data fuel r 0 []

end HttpResponse

/-! ## The request builder and connection driver -/

/-- The builder states of `HttpRequest`. -/
inductive RequestState where
  | Idle
  | InProgress
deriving DecidableEq, Repr

/-- The operating system as one call sequence sees it: whether the host
resolves, what `socket()` and `connect()` answer, whether `::send` accepts the
bytes, and the text of `strerror(errno)` after a failure. -/
structure Net where
  resolves : Bool
  socketResult : Int
  connectOk : Bool
  sendOk : Bool
  strerror : Str
deriving DecidableEq, Repr

/-- The fields of `HttpRequest`, with the ghost `wire` of the bytes accepted by
the socket so far and the ghost `events` of the callbacks that the responses of
this connection have invoked, in order. -/
structure HttpRequest where
  _callbacks : Callbacks
  _state : RequestState
  _host : Str
  _port : Int
  _socket : Int
  _currRequest : List Str
  _pendingResponses : List HttpResponse
  wire : Str
  events : List Event
deriving DecidableEq, Repr

/-- Size of the buffer of the request line. -/
def MaxRequestSize : Nat := 512

/-- Size of the receive buffer. -/
def MaxSocketRecvSize : Nat := 2048

/-- The constructor `HttpRequest(host, port)`. -/
def HttpRequest.new (host : Str) (port : Int) : HttpRequest :=
  { _callbacks := ⟨false, false, false⟩, _state := .Idle, _host := cstr host, _port := port,
    _socket := -1, _currRequest := [], _pendingResponses := [], wire := [], events := [] }

/-- Sequencing of two calls: the second runs when the first returns normally. -/
def Outcome.andThen {σ α β : Type} (o : Outcome σ α) (f : σ → α → Outcome σ β) : Outcome σ β :=
  match o with
  | .ok s a => f s a
  | .thrown e s => .thrown e s
  | .aborted => .aborted
  | .undefined => .undefined

/-- The exception of `socketError(context)`: `"%s: %s"` with `strerror(errno)`. -/
def socketError (net : Net) (context : Str) : HttpException :=
  HttpException.mk256 (cstr context ++ ": ".toList ++ cstr net.strerror)

/-- The exception `"Invalid IP Address or Hostname."`. -/
def invalidAddressError : HttpException :=
  HttpException.mk256 "Invalid IP Address or Hostname.".toList

/-- The output of `sprintf(.., "%d", v)`. -/
def formatInt (v : Int) : Str :=
  if v < 0 then '-' :: Nat.toDigits 10 v.natAbs else Nat.toDigits 10 v.natAbs

namespace HttpRequest

/-- Registration `initCallbacks(..)`; the pending responses reach the callbacks
through their reference to the request. -/
def initCallbacks (q : HttpRequest) (cb : Callbacks) : HttpRequest :=
  { q with _callbacks := cb,
           _pendingResponses := q._pendingResponses.map (fun r => { r with _request := cb }) }

/-- Query `responsesPending()`. -/
def responsesPending (q : HttpRequest) : Bool := !q._pendingResponses.isEmpty

/-- Connection set-up `initSocket()`. -/
def initSocket (net : Net) (q : HttpRequest) : Outcome HttpRequest Unit :=
  if net.resolves = false then .thrown invalidAddressError q
  else
    let q1 := { q with _socket := net.socketResult }
    if q1._socket < 0 then .thrown (socketError net "socket()".toList) q1
    else if net.connectOk = false then .thrown (socketError net "connect()".toList) q1
    else .ok q1 ()

/-- Transmission `send(data, sizeOfData)`: the socket is opened on first use and
the loop runs until `sizeOfData` bytes are sent. -/
def send (net : Net) (q : HttpRequest) (data : Str) (sizeOfData : Int) :
    Outcome HttpRequest Unit :=
  (if q._socket < 0 then initSocket net q else .ok q ()).andThen fun q1 _ =>
    if sizeOfData > 0 then
      if sizeOfData > data.length then .undefined
      else if net.sendOk then .ok { q1 with wire := q1.wire ++ data.take sizeOfData.toNat } ()
      else .thrown (socketError net "send()".toList) q1
    else .ok q1 ()

/-- Builder step `addHeader(name, value)` with a string value. -/
def addHeader (q : HttpRequest) (name value : Str) : Outcome HttpRequest Unit :=
  if q._state ≠ .InProgress then .thrown addHeaderError q
  else .ok { q with _currRequest := q._currRequest ++ [cstr name ++ ": ".toList ++ cstr value] } ()

/-- Builder step `addHeader(name, numericValue)` with an `int` value. -/
def addHeaderInt (q : HttpRequest) (name : Str) (numericValue : Int) : Outcome HttpRequest Unit :=
  addHeader q name (formatInt numericValue)

/-- Builder step `initRequest(method, url)`; the request line is formatted into
a buffer of `MaxRequestSize` bytes. -/
def initRequest (q : HttpRequest) (method url : Str) : Outcome HttpRequest Unit :=
  if q._state ≠ .Idle then .thrown alreadyStartedError q
  else
    let q1 := { q with _state := .InProgress }
    let request := cstr method ++ " ".toList ++ cstr url ++ " HTTP/1.1".toList
    if request.length + 1 > MaxRequestSize then .undefined
    else
      let q2 := { q1 with _currRequest := q1._currRequest ++ [request] }
      (addHeader q2 "Host".toList q2._host).andThen fun q3 _ =>
        (addHeader q3 "Accept-Encoding".toList "identity".toList).andThen fun q4 _ =>
          .ok { q4 with _pendingResponses :=
                  q4._pendingResponses ++ [HttpResponse.new method q4._callbacks] } ()

/-- The loop of `sendHeaders()` that joins the lines, each followed by CRLF. -/
def joinLines : List Str → Str
  | [] => []
  | l :: ls => l ++ "\r\n".toList ++ joinLines ls

/-- Builder step `sendHeaders()`; the `assert` ends the program when the
builder is not in progress. -/
def sendHeaders (net : Net) (q : HttpRequest) : Outcome HttpRequest Unit :=
  if q._state ≠ .InProgress then .aborted
  else
    let q1 := { q with _state := .Idle }
    let q2 := { q1 with _currRequest := q1._currRequest ++ [[]] }
    let msg := joinLines q2._currRequest
    let q3 := { q2 with _currRequest := [] }
    send net q3 msg msg.length

/-- The loop of `sendRequest` that adds the caller's headers in order. -/
def addHeaders (q : HttpRequest) : List (Str × Str) → Outcome HttpRequest Unit
  | [] => .ok q ()
  | (name, value) :: rest => (addHeader q name value).andThen fun q1 _ => addHeaders q1 rest

/-- Whole request `sendRequest(method, url, headers, body, sizeOfBody)`.  A null
`headers` or `body` pointer is `none`; the header array is given as its
name/value pairs. -/
def sendRequest (net : Net) (q : HttpRequest) (method url : Str)
    (headers : Option (List (Str × Str))) (body : Option Str) (sizeOfBody : Int) :
    Outcome HttpRequest Unit :=
  let hasContentLength : Bool :=
    match headers with
    | some hs => hs.any (fun h => strcaseeq h.1 "content-length".toList)
    | none => false
  (initRequest q method url).andThen fun q1 _ =>
    (if body.isSome ∧ hasContentLength = false then
        addHeaderInt q1 "Content-Length".toList sizeOfBody
      else .ok q1 ()).andThen fun q2 _ =>
      (match headers with
        | some hs => addHeaders q2 hs
        | none => .ok q2 ()).andThen fun q3 _ =>
        (sendHeaders net q3).andThen fun q4 _ =>
          match body with
          | some b => send net q4 b sizeOfBody
          | none => .ok q4 ()

/-- Teardown `cleanUp()`: the socket is closed when it is open, and every pending
response is deleted. -/
def cleanUp (q : HttpRequest) : HttpRequest :=
  { q with _socket := -1, _pendingResponses := [] }

/-- The callbacks that a call on a response has invoked: what its trace gained. -/
def newEvents (before after : HttpResponse) : List Event :=
  after.trace.drop before.trace.length

/-- The loop `while (totalBytesProcessed < bytesReceived && !_pendingResponses.empty())`
of `processRequest` over the received bytes `data`: the head response parses the
bytes from offset `totalBytesProcessed` and is deleted when it has completed.
`inner` is the fuel of each `processResponse` call. -/
def dispatchLoop (inner : Nat) (data : Str) :
    Nat → HttpRequest → Int → Option (Outcome HttpRequest Unit)
  | 0, _, _ => none
  | fuel + 1, q, totalBytesProcessed =>
    match q._pendingResponses with
    | [] => some (.ok q ())
    | response :: rest =>
      if totalBytesProcessed < (data.length : Int) then
        if totalBytesProcessed < 0 then some .undefined
        else
          match HttpResponse.processResponse inner response
              (data.drop totalBytesProcessed.toNat) with
          | none => none
          | some (.ok r1 bytesHandled) =>
            dispatchLoop inner data fuel
              { q with events := q.events ++ newEvents response r1,
                       _pendingResponses := if HttpResponse.completed r1 then rest
                                            else r1 :: rest }
              (totalBytesProcessed + bytesHandled)
          | some (.thrown e r1) =>
            some (.thrown e { q with events := q.events ++ newEvents response r1,
                                     _pendingResponses := r1 :: rest })
          | some .aborted => some .aborted
          | some .undefined => some .undefined
      else some (.ok q ())

end HttpRequest

/-- What one `processRequest` step meets on the socket: the answer of `select()`,
whether the socket is then readable, and the answer of `recv()`, `none` for a
failure and else the bytes received, at most `MaxSocketRecvSize` of them, none
at the end of the stream. -/
structure SocketStep where
  selectResult : Int
  readable : Bool
  received : Option Str
deriving DecidableEq, Repr

namespace HttpRequest

/-- Driver step `processRequest()`.  `outer` is the fuel of the dispatch loop,
`inner` that of each `processResponse` call. -/
def processRequest (outer inner : Nat) (net : Net) (io : SocketStep) (q : HttpRequest) :
    Option (Outcome HttpRequest Unit) :=
  match q._pendingResponses with
  | [] => some (.ok q ())
  | response :: rest =>
    if io.selectResult < 0 then some (.thrown (socketError net "select()".toList) q)
    else if io.readable = false then some (.ok q ())
    else
      match io.received with
      | none => some (.thrown (socketError net "recv()".toList) q)
      | some data =>
        if data = [] then
          match HttpResponse.connectionClosed response with
          | .ok r1 _ =>
            some (.ok (cleanUp { q with events := q.events ++ newEvents response r1,
                                        _pendingResponses := rest }) ())
          | .thrown e r1 => some (.thrown e { q with _pendingResponses := r1 :: rest })
          | .aborted => some .aborted
          | .undefined => some .undefined
        else dispatchLoop inner data outer q 0

end HttpRequest

/-! ## Vocabulary of the properties -/

/-- All three callbacks registered. -/
def allCallbacks : Callbacks := ⟨true, true, true⟩

/-- A buffer that is a C string: it holds no NUL byte. -/
def IsCString (s : Str) : Prop := NUL ∉ s

/-- The line terminator CRLF. -/
def CRLF : Str := ['\r', '\n']

/-- The characters that `Nat.toDigits` produces for a base up to 16. -/
def hexChars : Str := "0123456789abcdef".toList

/-- Decimal rendering, as `%d` prints a non-negative number. -/
def decimal (n : Nat) : Str := Nat.toDigits 10 n

/-- Hexadecimal rendering in lower case, without mark or leading zero. -/
def hex (n : Nat) : Str := Nat.toDigits 16 n

/-- A transport on which every call succeeds, `socket()` answering 3. -/
def workingNet : Net := ⟨true, 3, true, true, []⟩

/-- The transport conditions under which `send` transmits: the socket is open
or can be opened, and `::send` accepts the bytes. -/
def TransportWorks (net : Net) (q : HttpRequest) : Prop :=
  (0 ≤ q._socket ∨ (net.resolves = true ∧ 0 ≤ net.socketResult ∧ net.connectOk = true)) ∧
    net.sendOk = true

/-- Whether `sendRequest` adds its own `Content-Length` line: the body is not
null and no caller header is named `content-length`, ignoring case. -/
def addsContentLength (headers : Option (List (Str × Str))) (body : Option Str) : Bool :=
  body.isSome && !((headers.getD []).any (fun h => strcaseeq h.1 "content-length".toList))

/-- The wire format of a request as the specification words it: request line,
`Host`, `Accept-Encoding`, the automatic `Content-Length` when it applies, the
caller's headers in order, an empty line, the body. -/
def specRequestBytes (host method url : Str) (headers : Option (List (Str × Str)))
    (body : Option Str) (sizeOfBody : Int) : Str :=
  method ++ " ".toList ++ url ++ " HTTP/1.1".toList ++ CRLF ++
  ("Host: ".toList ++ host ++ CRLF) ++
  ("Accept-Encoding: identity".toList ++ CRLF) ++
  (if addsContentLength headers body then
    "Content-Length: ".toList ++ formatInt sizeOfBody ++ CRLF else []) ++
  ((headers.getD []).map (fun h => h.1 ++ ": ".toList ++ h.2 ++ CRLF)).flatten ++
  CRLF ++ body.getD []

/-- The text that a run of continuation lines appends to a header. -/
def foldedText (conts : List (Str × Str)) : Str :=
  (conts.map (fun p => ' ' :: p.2)).flatten

/-- A response that has read its status line and is reading header lines. -/
def headerPhase : HttpResponse :=
  { HttpResponse.new "GET".toList allCallbacks with _state := .Header }

/-- A response with status 204 whose headers announce five bytes of body. -/
def noContentResponse : HttpResponse :=
  { headerPhase with _status := 204,
                     _headers := [("content-length".toList, "5".toList)] }

/-- A response that reads a body which only the close of the connection ends. -/
def closeDelimitedBody : HttpResponse :=
  { HttpResponse.new "GET".toList allCallbacks with _state := .Body, _status := 200 }

/-- A response that is complete. -/
def completedResponse : HttpResponse :=
  { HttpResponse.new "GET".toList allCallbacks with _state := .Complete, _status := 200 }

/-- A connection whose builder is idle. -/
def idleRequest : HttpRequest := HttpRequest.new "h".toList 80

/-- A connection whose builder has started a request. -/
def busyRequest : HttpRequest :=
  { idleRequest with _state := .InProgress,
                     _currRequest := ["GET / HTTP/1.1".toList, "Host: h".toList,
                       "Accept-Encoding: identity".toList],
                     _pendingResponses := [HttpResponse.new "GET".toList ⟨false, false, false⟩] }

/-- A new response to a `GET` request, all callbacks registered. -/
def freshGet : HttpResponse := HttpResponse.new "GET".toList allCallbacks

/-- A complete message with three bytes of body. -/
def smallMessage : Str := "HTTP/1.1 200 OK\r\nContent-Length: 3\r\n\r\nabc".toList

/-- A message whose `Content-Length` is negative. -/
def negativeLengthMessage : Str := "HTTP/1.1 200 OK\r\nContent-Length: -100\r\n\r\nabc".toList

/-- An interim `100 Continue` block. -/
def continueBlock : Str := "HTTP/1.1 100 Continue\r\n\r\n".toList

/-- The pointer `data` stands at offset `pos` of `buf`, before the bytes `rest`. -/
def HttpResponse.Cursor (buf : Str) (pos : Int) (rest : Str) : Prop :=
  ∃ pre : Str, buf = pre ++ rest ∧ pos = pre.length

/-- A chunk on the wire: its length in hexadecimal, CRLF, its bytes, CRLF. -/
def encodeChunk (c : Str) : Str := hex c.length ++ CRLF ++ c ++ CRLF

/-- The chunked encoding of a list of chunks, ended by the zero chunk and an
empty trailer. -/
def chunkedEncoding (chunks : List Str) : Str :=
  (chunks.map encodeChunk).flatten ++ ("0".toList ++ CRLF ++ CRLF)

/-- A response in the chunked phase: state `ChunkLength`, chunked flag set. -/
def chunkedPhase : HttpResponse :=
  { freshGet with _state := .ChunkLength, _chunked := true, _status := 200 }

/-- The response after one more chunk has been delivered. -/
def afterChunk (r : HttpResponse) (c : Str) : HttpResponse :=
  { r with _chunkLength := 0, _bytesRead := r._bytesRead + c.length,
           trace := r.trace ++ [Event.receiveData c c.length] }

/-- The lower-case name of the `Transfer-Encoding` header. -/
def transferEncodingKey : Str := "transfer-encoding".toList

/-- A well-formed header field: a non-empty name without colon, NUL or white
space, and a value without line feed. -/
def WellFormedHeader (h : Str × Str) : Prop :=
  h.1 ≠ [] ∧ (∀ c ∈ h.1, c ≠ ':' ∧ c ≠ NUL ∧ isspace c = false) ∧ '\n' ∉ h.2

/-- A header field on the wire: `Name: Value` CRLF. -/
def headerLine (h : Str × Str) : Str := h.1 ++ ": ".toList ++ h.2 ++ CRLF

/-- A message with a `Content-Length` body: status line of version 1.1, header
fields, the `Content-Length` field last, the blank line, the body. -/
def contentLengthMessage (status : Nat) (reason : Str) (headers : List (Str × Str))
    (body : Str) : Str :=
  "HTTP/1.1 ".toList ++ decimal status ++ " ".toList ++ reason ++ CRLF ++
  (headers.map headerLine).flatten ++
  headerLine ("Content-Length".toList, decimal body.length) ++ CRLF ++ body

/-- The pending header text `_currHeader` is empty or has a name, free of colon
and NUL, that is not `transfer-encoding`. -/
def PendingHeaderOk (ch : Str) : Prop :=
  ch = [] ∨ ∃ name x, ch = name ++ ':' :: x ∧ ':' ∉ name ∧ IsCString name ∧ IsCString x ∧
    lower name ≠ transferEncodingKey

/-- A response that reads the header block of a message: what the status line
left, no callback invoked yet, and no `transfer-encoding` header stored or
pending. -/
def ReadingHeaders (r : HttpResponse) (method : Str) (cb : Callbacks) (status : Int) : Prop :=
  r._state = .Header ∧ r._method = method ∧ r._request = cb ∧ r._status = status ∧
    r.trace = [] ∧ r._bytesRead = 0 ∧ mapFind r._headers transferEncodingKey = none ∧
    PendingHeaderOk r._currHeader

/-- The object that a call leaves behind, on normal return or by a `throw`. -/
def Outcome.leaves {σ α : Type} (o : Outcome σ α) (s : σ) : Prop :=
  (∃ a, o = .ok s a) ∨ (∃ e, o = .thrown e s)

/-- The builder invariant: an Idle builder has no buffered line. -/
def IdleBufferEmpty (q : HttpRequest) : Prop := q._state = .Idle → q._currRequest = []

/-- Whether the headers hold `Transfer-Encoding` with the value `chunked`,
ignoring case: the test of `initBody()`. -/
def chunkedHeader (r : HttpResponse) : Bool :=
  match HttpResponse.getHeader r "transfer-encoding".toList with
  | some transferEncoding => strcaseeq transferEncoding "chunked".toList
  | none => false

/-- Whether the headers hold `Connection` with the value `close`, ignoring case. -/
def connectionCloseHeader (r : HttpResponse) : Bool :=
  match HttpResponse.getHeader r "connection".toList with
  | some conn => strcaseeq conn "close".toList
  | none => false

/-- The value that `initBody()` leaves in `_contentLength`: 0 under a no-body
rule, else -1 for a chunked body, else what `atoi` reads in `Content-Length`,
else -1. -/
def bodyLength (r : HttpResponse) : Int :=
  if HttpResponse.hasNoBody r then 0
  else if chunkedHeader r then -1
  else
    match HttpResponse.getHeader r "content-length".toList with
    | some length => atoi length
    | none => -1

/-- A complete message whose status line carries the version token `HTTP/1.0`. -/
def http10Message : Str := "HTTP/1.0 200 OK\r\nContent-Length: 3\r\n\r\nabc".toList

/-- A message whose `Content-Length` reads as -1. -/
def sentinelLengthMessage : Str := "HTTP/1.1 200 OK\r\nContent-Length: -1\r\n\r\n".toList

/-- A `204 No Content` message: a status line and the blank line. -/
def noContentMessage : Str := "HTTP/1.1 204 No Content\r\n\r\n".toList

/-- A message with `Content-Length: 0`, up to and including the blank line. -/
def zeroLengthMessage : Str := "HTTP/1.1 200 OK\r\nContent-Length: 0\r\n\r\n".toList

/-- A new response to a `HEAD` request, all callbacks registered. -/
def freshHead : HttpResponse := HttpResponse.new "HEAD".toList allCallbacks

/-- A chunked message that carries the five bytes `hello` in one chunk. -/
def chunkedHello : Str :=
  "HTTP/1.1 200 OK\r\nTransfer-Encoding: chunked\r\n\r\n5\r\nhello\r\n0\r\n\r\n".toList

/-- The number of body bytes handed to the data callback in a trace. -/
def deliveredBytes : List Event → Int
  | [] => 0
  | Event.receiveData _ sizeOfData :: rest => sizeOfData + deliveredBytes rest
  | _ :: rest => deliveredBytes rest

/-- The key of an accumulated header text: its prefix before the first colon, in
lower case. -/
def headerKey (t : Str) : Str := lower (t.takeWhile (fun c => c != ':'))

/-- The value of an accumulated header text: what follows the first colon,
without its leading tabs and spaces; empty when there is no colon. -/
def headerValue (t : Str) : Str :=
  ((t.dropWhile (fun c => c != ':')).drop 1).dropWhile (fun c => c == '\t' || c == ' ')

/-- A line that starts a header: its first character is not white space. -/
def StartsHeader (line : Str) : Prop := ∃ c t, line = c :: t ∧ isspace c = false

/-- A response whose pending header text is `Content-Type: text/html`. -/
def pendingContentType : HttpResponse :=
  { headerPhase with _currHeader := "Content-Type: text/html".toList,
                     _headers := [("content-type".toList, "text/plain".toList)] }

/-- A response that reads a close-delimited body and has read two bytes of it. -/
def closeDelimitedAfterTwo : HttpResponse :=
  { closeDelimitedBody with _bytesRead := 2, trace := [Event.headersReady,
                                                       Event.receiveData "ab".toList 2] }

/-- A response whose headers hold both `Transfer-Encoding: Chunked` and
`Content-Length: 5`. -/
def chunkedWithLength : HttpResponse :=
  { headerPhase with _status := 200, _version := 11,
                     _headers := [("transfer-encoding".toList, "Chunked".toList),
                                  ("content-length".toList, "5".toList)] }

/-- A connection with an open socket and three responses awaited, none of which
has received a byte. -/
def threePending : HttpRequest :=
  { idleRequest with _callbacks := allCallbacks, _socket := 3,
                     _pendingResponses := [freshGet, freshGet, freshGet] }

/-- A connection with an open socket whose first awaited response reads a body
that only the close of the connection ends. -/
def closeDelimitedPending : HttpRequest :=
  { idleRequest with _callbacks := allCallbacks, _socket := 3,
                     _pendingResponses := [closeDelimitedBody, freshGet] }

/-- A step of the socket in which `recv` reports the end of the stream. -/
def endOfStream : SocketStep := ⟨1, true, some []⟩

/-- A call on a response: `processResponse` with some bytes, or
`connectionClosed`. -/
inductive Call where
  | processResponse (data : Str)
  | connectionClosed
deriving DecidableEq, Repr

/-- A sequence of calls on a response, up to the first exception: the response
as the last call, or the `throw`, left it.  `none` when a call runs out of fuel
or into undefined behaviour. -/
def runCalls (fuel : Nat) : List Call → HttpResponse → Option HttpResponse
  | [], r => some r
  | .processResponse data :: calls, r =>
    match HttpResponse.processResponse fuel r data with
    | some (.ok r1 _) => runCalls fuel calls r1
    | some (.thrown _ r1) => some r1
    | _ => none
  | .connectionClosed :: calls, r =>
    match HttpResponse.connectionClosed r with
    | .ok r1 _ => runCalls fuel calls r1
    | .thrown _ r1 => some r1
    | _ => none

/-- Whether an event is a call of the data callback. -/
def Event.isData : Event → Bool
  | .receiveData _ _ => true
  | _ => false

/-- A trace without its first event when that is headers-ready. -/
def dropHeadersReady : List Event → List Event
  | Event.headersReady :: rest => rest
  | other => other

/-- Whether a trace is empty or the single event complete. -/
def atMostComplete : List Event → Bool
  | [] => true
  | [Event.responseComplete] => true
  | _ => false

/-- The form of a trace: at most one headers-ready, then data events, then at
most one complete. -/
def traceForm (t : List Event) : Bool :=
  atMostComplete ((dropHeadersReady t).dropWhile Event.isData)

/-- The headers-ready event, if that callback is registered. -/
def headersReadyEvents (cb : Callbacks) : List Event :=
  if cb._headersReady then [Event.headersReady] else []

/-- The complete event, if that callback is registered. -/
def completeEvents (cb : Callbacks) : List Event :=
  if cb._responseComplete then [Event.responseComplete] else []

/-- The trace of a response that reads its body: headers-ready, then data. -/
def MidShape (cb : Callbacks) (t : List Event) : Prop :=
  ∃ ds, (∀ e ∈ ds, Event.isData e = true) ∧ t = headersReadyEvents cb ++ ds

/-- The trace of a complete response: headers-ready, data, complete. -/
def DoneShape (cb : Callbacks) (t : List Event) : Prop :=
  ∃ ds, (∀ e ∈ ds, Event.isData e = true) ∧
    t = headersReadyEvents cb ++ ds ++ completeEvents cb

/-- The trace that goes with each state. -/
def expectedTrace (cb : Callbacks) (s : ResponseState) (t : List Event) : Prop :=
  match s with
  | .StatusLine => t = []
  | .Header => t = []
  | .Complete => DoneShape cb t
  | _ => MidShape cb t

/-- The invariant of the callbacks: the callbacks are those of the request and
the trace is the one that goes with the state. -/
def TraceInv (cb : Callbacks) (r : HttpResponse) : Prop :=
  r._request = cb ∧ expectedTrace cb r._state r.trace

/-- The start of a message: status line of version 1.1 and header fields. -/
def messageHead (status : Nat) (reason : Str) (headers : List (Str × Str)) : Str :=
  "HTTP/1.1 ".toList ++ decimal status ++ " ".toList ++ reason ++ CRLF ++
  (headers.map headerLine).flatten

/-- The end of a message with a `Content-Length` body: that field, the blank
line, the body. -/
def sizedTail (body : Str) : Str :=
  headerLine ("Content-Length".toList, decimal body.length) ++ CRLF ++ body

/-- The end of a chunked message: the `Transfer-Encoding: chunked` field, the
blank line, the chunks. -/
def chunkedTail (chunks : List Str) : Str :=
  headerLine ("Transfer-Encoding".toList, "chunked".toList) ++ CRLF ++ chunkedEncoding chunks

/-- How the body of a message is framed: by `Content-Length`, or in chunks. -/
inductive Framing where
  | sized (body : Str)
  | chunked (chunks : List Str)
deriving DecidableEq, Repr

/-- A message of the server: status, reason phrase, header fields other than
the one that frames the body, and the body. -/
structure Message where
  status : Nat
  reason : Str
  headers : List (Str × Str)
  framing : Framing
deriving DecidableEq, Repr

/-- The bytes of a message on the wire. -/
def Message.bytes (m : Message) : Str :=
  messageHead m.status m.reason m.headers ++
    (match m.framing with
     | .sized body => sizedTail body
     | .chunked chunks => chunkedTail chunks)

/-- The events that a message is to produce: headers-ready, the body (one data
event, or one per chunk), complete. -/
def Message.events (m : Message) : List Event :=
  match m.framing with
  | .sized body => [Event.headersReady, Event.receiveData body body.length,
                    Event.responseComplete]
  | .chunked chunks =>
    [Event.headersReady] ++ chunks.map (fun c => Event.receiveData c c.length) ++
      [Event.responseComplete]

/-- The turns of the main loop that a message takes. -/
def Message.turns (m : Message) : Nat :=
  match m.framing with
  | .sized _ => m.headers.length + 5
  | .chunked chunks => m.headers.length + 3 * chunks.length + 6

/-- A complete well-formed message in answer to a request of the given method:
status in [200, 999] other than 204 and 304, method other than `HEAD`, a reason
phrase on one line, well-formed header fields none of which is
`Transfer-Encoding`, and a body of 1 to 2^31 - 1 bytes or chunks of that size. -/
def WellFormedMessage (method : Str) (m : Message) : Prop :=
  cstr method ≠ "HEAD".toList ∧
  (200 ≤ m.status ∧ m.status ≤ 999 ∧ m.status ≠ 204 ∧ m.status ≠ 304) ∧
  '\n' ∉ m.reason ∧
  (∀ h ∈ m.headers, WellFormedHeader h ∧ lower h.1 ≠ transferEncodingKey) ∧
  (match m.framing with
   | .sized body => 1 ≤ body.length ∧ body.length < 2 ^ 31
   | .chunked chunks => ∀ c ∈ chunks, c ≠ [] ∧ c.length < 2 ^ 31)

/-- The message `200 OK` with the body `abc`. -/
def abcMessage : Message := ⟨200, "OK".toList, [], .sized "abc".toList⟩

/-- The message `200 OK` with the chunks `Wiki` and `pedia`. -/
def wikiMessage : Message := ⟨200, "OK".toList, [], .chunked ["Wiki".toList, "pedia".toList]⟩

/-- A response in state `Header` with status 100 and a pending header text. -/
def continuePending : HttpResponse :=
  { headerPhase with _status := 100, _currHeader := "A: b".toList }

/-- A `100 Continue` block followed by the status line of the final response. -/
def continueThenOk : Str := "HTTP/1.1 100 Continue\r\n\r\nHTTP/1.1 200 OK\r\n".toList

/-- A response in state `Trailer` with one header stored. -/
def trailerPhase : HttpResponse :=
  { chunkedPhase with _state := .Trailer,
                      _headers := [("transfer-encoding".toList, "chunked".toList)] }

/-- A chunked message whose first chunk-size line reads `-5`, followed by one
more byte. -/
def negativeChunkMessage : Str :=
  "HTTP/1.1 200 OK\r\nTransfer-Encoding: chunked\r\n\r\n-5\nX".toList

/-- A response with another trace. -/
def withTrace (r : HttpResponse) (t : List Event) : HttpResponse := { r with trace := t }

/-- A fragment of a message: a whole line, given without its line feed, or a
part of the data of the body or of a chunk, marked when it is the last part of
that data. -/
inductive Fragment where
  | line (text : Str)
  | data (bytes : Str) (last : Bool)
deriving DecidableEq, Repr

/-- The bytes of a fragment on the wire. -/
def Fragment.wire : Fragment → Str
  | .line text => text ++ ['\n']
  | .data bytes _ => bytes

/-- The bytes of a list of fragments. -/
def wireOf (fs : List Fragment) : Str := (fs.map Fragment.wire).flatten

/-- What the `Body` branch of the main loop does when exactly the bytes `d` are
left in the buffer: `processChunkedData` or `processData` on them. -/
def bodyStep (r : HttpResponse) (d : Str) : HttpResponse × Int :=
  if r._chunked then HttpResponse.processChunkedData r d d.length
  else HttpResponse.processData r d d.length

/-- The data `d` is all that is left of the body or of the chunk. -/
def ExactFit (r : HttpResponse) (d : Str) : Prop :=
  if r._chunked then r._chunkLength = d.length
  else r._contentLength ≠ -1 ∧ r._contentLength - r._bytesRead = d.length

instance (r : HttpResponse) (d : Str) : Decidable (ExactFit r d) := by
  unfold ExactFit
  exact inferInstance

/-- The data `d` is less than what is left of the body or of the chunk. -/
def PartFit (r : HttpResponse) (d : Str) : Prop :=
  if r._chunked then (d.length : Int) < r._chunkLength
  else r._contentLength ≠ -1 ∧ (d.length : Int) < r._contentLength - r._bytesRead

instance (r : HttpResponse) (d : Str) : Decidable (PartFit r d) := by
  unfold PartFit
  exact inferInstance

/-- The run of a response over fragments, one handler call per fragment: a line
goes to the handler of the state, which has to be a line state; data goes to
the data handler in state `Body`, and has to be what is left of the body or
chunk (last part) or less (any other part).  `none` when a fragment does not
fit the state or the status line is refused. -/
def runFragments : HttpResponse → List Fragment → Option HttpResponse
  | r, [] => some r
  | r, .line text :: rest =>
    if HttpResponse.isLineState r._state = true ∧ '\n' ∉ text then
      match HttpResponse.dispatchLine r (text.filter (fun c => c != '\r')) with
      | .ok r1 _ => runFragments r1 rest
      | _ => none
    else none
  | r, .data d last :: rest =>
    if r._state = .Body ∧ d ≠ [] ∧ (if last then ExactFit r d else PartFit r d) then
      runFragments (bodyStep r d).1 rest
    else none

/-- A list of fragments that can be one piece of input: a part of data that is
not the last of its body or chunk ends the piece. -/
def Grouped : List Fragment → Prop
  | [] => True
  | .line _ :: rest => Grouped rest
  | .data _ last :: rest => (last = true ∨ rest = []) ∧ Grouped rest

/-- Successive `processResponse` calls, one per piece of input; the result is
the response after the last call and the sum of the values returned.  `none`
when a call throws, runs out of fuel or into undefined behaviour. -/
def feedPieces (fuel : Nat) : HttpResponse → List Str → Option (HttpResponse × Int)
  | r, [] => some (r, 0)
  | r, piece :: rest =>
    match HttpResponse.processResponse fuel r piece with
    | some (.ok r1 n) =>
      match feedPieces fuel r1 rest with
      | some (r2, total) => some (r2, n + total)
      | none => none
    | _ => none

/-- The fragments `fs` are the fragments `atoms` with each data fragment cut
into one or more non-empty parts. -/
inductive Refines : List Fragment → List Fragment → Prop where
  | nil : Refines [] []
  | line (text : Str) {fs atoms : List Fragment} :
    Refines fs atoms → Refines (.line text :: fs) (.line text :: atoms)
  | whole (d : Str) {fs atoms : List Fragment} :
    Refines fs atoms → Refines (.data d true :: fs) (.data d true :: atoms)
  | cut (d1 d2 : Str) {fs atoms : List Fragment} :
    d1 ≠ [] → d2 ≠ [] → Refines fs (.data d2 true :: atoms) →
    Refines (.data d1 false :: fs) (.data (d1 ++ d2) true :: atoms)

/-- The number of headers-ready events in a trace. -/
def countHeadersReady (t : List Event) : Nat := t.count Event.headersReady

/-- The number of complete events in a trace. -/
def countComplete (t : List Event) : Nat := t.count Event.responseComplete

/-- The data that the data events of a trace delivered, in order. -/
def deliveredData : List Event → Str
  | [] => []
  | Event.receiveData data _ :: rest => data ++ deliveredData rest
  | _ :: rest => deliveredData rest

/-- Two responses that differ in the trace at most, and there only in how the
data is divided among the data events. -/
def SameButData (r1 r2 : HttpResponse) : Prop :=
  r1 = withTrace r2 r1.trace ∧
  countHeadersReady r1.trace = countHeadersReady r2.trace ∧
  countComplete r1.trace = countComplete r2.trace ∧
  deliveredData r1.trace = deliveredData r2.trace

/-- The data event for the data `d`, if that callback is registered. -/
def dataEvents (r : HttpResponse) (d : Str) : List Event :=
  if r._request._receiveData then [Event.receiveData d d.length] else []

/-- The response after the data `d` has been delivered and counted. -/
def afterData (r : HttpResponse) (d : Str) : HttpResponse :=
  { r with trace := r.trace ++ dataEvents r d,
           _bytesRead := r._bytesRead + d.length,
           _chunkLength := if r._chunked then r._chunkLength - d.length else r._chunkLength }

/-- The end of the data: a chunk is followed by its line end, a body of known
length is complete. -/
def finishData (r : HttpResponse) : HttpResponse :=
  if r._chunked then { r with _state := .ChunkComplete } else HttpResponse.complete r

/-- The fragment of a header field: the line `Name: Value` with its CR. -/
def headerFragment (h : Str × Str) : Fragment := .line (h.1 ++ ": ".toList ++ h.2 ++ ['\r'])

/-- The fragments of a chunk: the size line, the data, the line end. -/
def chunkFragments (c : Str) : List Fragment :=
  [.line (hex c.length ++ ['\r']), .data c true, .line ['\r']]

/-- The fragments of a message, the data uncut: the status line, the header
fields, the field that frames the body, the blank line, and the body or the
chunks with the zero chunk and the empty trailer. -/
def Message.atoms (m : Message) : List Fragment :=
  .line ("HTTP/1.1 ".toList ++ decimal m.status ++ " ".toList ++ m.reason ++ ['\r']) ::
    (m.headers.map headerFragment ++
      (match m.framing with
       | .sized body =>
         [headerFragment ("Content-Length".toList, decimal body.length), .line ['\r'],
          .data body true]
       | .chunked chunks =>
         [headerFragment ("Transfer-Encoding".toList, "chunked".toList), .line ['\r']] ++
           ((chunks.map chunkFragments).flatten ++ [.line ['0', '\r'], .line ['\r']])))

/-- A split of `abcMessage` in three pieces: after the status line, and inside
the body after its first byte. -/
def abcSplit : List (List Fragment) :=
  [[.line "HTTP/1.1 200 OK\r".toList],
   [.line "Content-Length: 3\r".toList, .line "\r".toList, .data "a".toList false],
   [.data "bc".toList true]]

/-- The bytes of `zeroLengthMessage` in two pieces, cut after the status line. -/
def zeroLengthPieces : List Str :=
  ["HTTP/1.1 200 OK\r\n".toList, "Content-Length: 0\r\n\r\n".toList]

/-! ## Numbers and C strings -/

theorem digitChar_mem_hexChars : ∀ d, d < 16 → Nat.digitChar d ∈ hexChars := by decide

theorem digitOf_digitChar_10 : ∀ d, d < 10 → digitOf 10 (Nat.digitChar d) = some d := by decide

theorem digitOf_digitChar_16 : ∀ d, d < 16 → digitOf 16 (Nat.digitChar d) = some d := by decide

theorem hexChars_plain : ∀ c ∈ hexChars, c ≠ NUL ∧ isspace c = false ∧ c ≠ '-' ∧ c ≠ '+' ∧
    c ≠ 'x' ∧ c ≠ 'X' ∧ c ≠ '\n' ∧ c ≠ '\r' ∧ c ≠ ' ' ∧ c ≠ ':' := by decide

theorem accDigits_append_digit (b : Nat) (hb : ∀ d, d < b → digitOf b (Nat.digitChar d) = some d)
    (pre : Str) (d : Nat) (hd : d < b) (rest : Str) (acc n : Nat)
    (h : ∀ acc rest, accDigits b acc (pre ++ rest) = accDigits b (acc * b ^ pre.length + n) rest) :
    accDigits b acc ((pre ++ [Nat.digitChar d]) ++ rest) =
      accDigits b (acc * b ^ (pre ++ [Nat.digitChar d]).length + (n * b + d)) rest := by
  rw [List.append_assoc, h]
  simp only [List.singleton_append, accDigits, hb d hd, List.length_append, List.length_singleton]
  congr 1
  ring

theorem toDigitsCore_spec (b : Nat) (hb2 : 2 ≤ b) (hb16 : b ≤ 16)
    (hb : ∀ d, d < b → digitOf b (Nat.digitChar d) = some d) :
    ∀ (fuel n : Nat) (ds : Str), n < fuel →
      ∃ pre, Nat.toDigitsCore b fuel n ds = pre ++ ds ∧ pre ≠ [] ∧
        (∀ c ∈ pre, c ∈ hexChars) ∧
        ∀ acc rest, accDigits b acc (pre ++ rest) = accDigits b (acc * b ^ pre.length + n) rest := by
  intro fuel
  induction fuel with
  | zero => intro n ds h; omega
  | succ fuel ih =>
    intro n ds hn
    have hmod : n % b < b := Nat.mod_lt _ (by omega)
    unfold Nat.toDigitsCore
    simp only []
    by_cases h0 : n / b = 0
    · rw [if_pos h0]
      have hnb : n < b := (Nat.div_eq_zero_iff (by omega)).mp h0
      refine ⟨[Nat.digitChar (n % b)], rfl, by simp, ?_, ?_⟩
      · intro c hc
        rw [List.mem_singleton] at hc
        rw [hc]
        exact digitChar_mem_hexChars _ (by omega)
      · intro acc rest
        rw [Nat.mod_eq_of_lt hnb]
        simp only [List.singleton_append, accDigits, hb _ hnb, List.length_singleton, pow_one]
        rfl
    · rw [if_neg h0]
      have hlt : n / b < fuel := by
        have : n / b < n := Nat.div_lt_self (by
          rcases Nat.eq_zero_or_pos n with h | h
          · rw [h] at h0; simp at h0
          · exact h) (by omega)
        omega
      obtain ⟨pre, hpre, _, hchars, hacc⟩ := ih (n / b) (Nat.digitChar (n % b) :: ds) hlt
      refine ⟨pre ++ [Nat.digitChar (n % b)], by simp [hpre], by simp, ?_, ?_⟩
      · intro c hc
        rw [List.mem_append, List.mem_singleton] at hc
        rcases hc with hc | hc
        · exact hchars c hc
        · rw [hc]; exact digitChar_mem_hexChars _ (by omega)
      · intro acc rest
        rw [accDigits_append_digit b hb pre (n % b) hmod rest acc (n / b) hacc]
        rw [Nat.div_add_mod' n b]

theorem toDigits_spec (b : Nat) (hb2 : 2 ≤ b) (hb16 : b ≤ 16)
    (hb : ∀ d, d < b → digitOf b (Nat.digitChar d) = some d) (n : Nat) :
    Nat.toDigits b n ≠ [] ∧ (∀ c ∈ Nat.toDigits b n, c ∈ hexChars) ∧
      accDigits b 0 (Nat.toDigits b n) = n := by
  obtain ⟨pre, hpre, hne, hchars, hacc⟩ := toDigitsCore_spec b hb2 hb16 hb (n + 1) n [] (by omega)
  have e : Nat.toDigits b n = pre := by
    unfold Nat.toDigits
    rw [hpre, List.append_nil]
  rw [e]
  refine ⟨hne, hchars, ?_⟩
  have := hacc 0 []
  simpa [accDigits] using this

theorem cstr_eq_self {s : Str} (h : ∀ c ∈ s, c ≠ NUL) : cstr s = s := by
  unfold cstr
  rw [List.takeWhile_eq_self_iff]
  intro c hc
  simpa using h c hc

theorem cstr_cstr (s : Str) : cstr (cstr s) = cstr s := by
  apply cstr_eq_self
  intro c hc
  have := List.mem_takeWhile_imp hc
  simpa using this

/-- Shape of a string of digits as `strtol` sees it. -/
theorem strtol_digits (b : Nat) (s : Str) (hne : s ≠ []) (hchars : ∀ c ∈ s, c ∈ hexChars) :
    strtol s b = clampLong (accDigits b 0 s : Nat) := by
  obtain ⟨c, t, rfl⟩ := List.exists_cons_of_ne_nil hne
  have hc := hexChars_plain c (hchars c (List.mem_cons_self _ _))
  have hnul : cstr (c :: t) = c :: t :=
    cstr_eq_self (fun x hx => (hexChars_plain x (hchars x hx)).1)
  unfold strtol
  simp only [hnul]
  have hdw : List.dropWhile isspace (c :: t) = c :: t := by
    simp [List.dropWhile, hc.2.1]
  rw [hdw]
  have hsign : takeSign (c :: t) = (false, c :: t) := by
    simp [takeSign, hc.2.2.1, hc.2.2.2.1]
  rw [hsign]
  have hmark : takeHexMark (c :: t) = c :: t := by
    rcases t with _ | ⟨x, _ | ⟨d, t⟩⟩
    · rfl
    · rfl
    · have hx := hexChars_plain x (hchars x (by simp))
      simp [takeHexMark, hx.2.2.2.2.1, hx.2.2.2.2.2.1]
  simp only [hmark, ite_self, Bool.false_eq_true, if_false]

theorem atoi_decimal (n : Nat) (h : n < 2147483648) : atoi (decimal n) = n := by
  obtain ⟨hne, hchars, hacc⟩ := toDigits_spec 10 (by omega) (by omega) digitOf_digitChar_10 n
  unfold atoi decimal
  rw [strtol_digits 10 _ hne hchars, hacc]
  unfold clampLong LONG_MAX LONG_MIN
  rw [if_neg (by omega), if_neg (by omega)]

theorem strtol_hex (n : Nat) (h : n < 2147483648) : strtol (hex n) 16 = n := by
  obtain ⟨hne, hchars, hacc⟩ := toDigits_spec 16 (by omega) (by omega) digitOf_digitChar_16 n
  unfold hex
  rw [strtol_digits 16 _ hne hchars, hacc]
  unfold clampLong LONG_MAX LONG_MIN
  rw [if_neg (by omega), if_neg (by omega)]

theorem formatInt_isCString (v : Int) : cstr (formatInt v) = formatInt v := by
  apply cstr_eq_self
  intro c hc
  have hd : ∀ c ∈ Nat.toDigits 10 v.natAbs, c ≠ NUL := fun c hc =>
    (hexChars_plain c ((toDigits_spec 10 (by omega) (by omega) digitOf_digitChar_10 _).2.1 c hc)).1
  unfold formatInt at hc
  split at hc
  · rw [List.mem_cons] at hc
    rcases hc with hc | hc
    · rw [hc]; decide
    · exact hd c hc
  · exact hd c hc

theorem cstr_of_isCString {s : Str} (h : IsCString s) : cstr s = s :=
  cstr_eq_self (fun _ hc hcn => h (hcn ▸ hc))

/-! ## The request builder -/

namespace HttpRequest

theorem joinLines_append (a b : List Str) : joinLines (a ++ b) = joinLines a ++ joinLines b := by
  induction a with
  | nil => rfl
  | cons l ls ih => simp [joinLines, ih]

theorem joinLines_map (f : Str × Str → Str) (hs : List (Str × Str)) :
    joinLines (hs.map f) = (hs.map (fun h => f h ++ CRLF)).flatten := by
  induction hs with
  | nil => rfl
  | cons h t ih => simp [joinLines, ih, CRLF]

theorem strcaseeq_cstr (a b : Str) : strcaseeq (cstr a) b = strcaseeq a b := by
  unfold strcaseeq
  rw [cstr_cstr]

theorem addsContentLength_cstr (headers : Option (List (Str × Str))) (body : Option Str) :
    addsContentLength (headers.map (fun hs => hs.map (fun h => (cstr h.1, cstr h.2)))) body =
      addsContentLength headers body := by
  rcases headers with _ | hs
  · rfl
  · simp [addsContentLength, List.any_map, Function.comp_def, strcaseeq_cstr]

theorem contentLength_condition (headers : Option (List (Str × Str))) (body : Option Str) :
    (body.isSome ∧ (match headers with
        | some hs => hs.any (fun h => strcaseeq h.1 "content-length".toList)
        | none => false) = false) ↔ addsContentLength headers body = true := by
  rcases headers with _ | hs <;> simp [addsContentLength]

theorem addHeaders_inProgress (hs : List (Str × Str)) :
    ∀ q : HttpRequest, q._state = .InProgress →
      addHeaders q hs = .ok { q with _currRequest := (q._currRequest ++
        (hs.map (fun h => cstr h.1 ++ ": ".toList ++ cstr h.2))) } () := by
  induction hs with
  | nil => intro q _; simp [addHeaders]
  | cons h t ih =>
    intro q hq
    obtain ⟨name, value⟩ := h
    simp only [addHeaders, addHeader, hq, ne_eq, not_true_eq_false, if_false, Outcome.andThen]
    rw [ih]
    · simp
    · rfl

theorem send_all (net : Net) (q : HttpRequest) (data : Str) (h : TransportWorks net q) :
    send net q data data.length =
      .ok { q with _socket := if q._socket < 0 then net.socketResult else q._socket,
                   wire := q.wire ++ data } () := by
  obtain ⟨hs, hsend⟩ := h
  unfold send
  by_cases hneg : q._socket < 0
  · have h3 : net.resolves = true ∧ 0 ≤ net.socketResult ∧ net.connectOk = true := by
      rcases hs with h0 | h3
      · omega
      · exact h3
    obtain ⟨hr, hsock, hconn⟩ := h3
    have hsock2 : ¬ net.socketResult < 0 := by omega
    rcases data with _ | ⟨c, t⟩
    · simp [hneg, initSocket, hr, hsock2, hconn, Outcome.andThen]
    · simp [hneg, initSocket, hr, hsock2, hconn, Outcome.andThen, hsend]
  · rcases data with _ | ⟨c, t⟩
    · simp [hneg, Outcome.andThen]
    · simp [hneg, Outcome.andThen, hsend]

theorem initRequest_idle (q : HttpRequest) (method url : Str) (hidle : q._state = .Idle)
    (hlen : (cstr method).length + (cstr url).length + 10 < MaxRequestSize) :
    initRequest q method url =
      .ok { q with _state := .InProgress,
                   _currRequest := (q._currRequest ++
                     [cstr method ++ " ".toList ++ cstr url ++ " HTTP/1.1".toList,
                      "Host: ".toList ++ cstr q._host,
                      "Accept-Encoding: identity".toList]),
                   _pendingResponses :=
                     (q._pendingResponses ++ [HttpResponse.new method q._callbacks]) } () := by
  have hfit : ¬ ((cstr method ++ " ".toList ++ cstr url ++ " HTTP/1.1".toList).length + 1 >
      MaxRequestSize) := by
    simp only [List.length_append]
    have h1 : " ".toList.length = 1 := by decide
    have h2 : " HTTP/1.1".toList.length = 9 := by decide
    have h3 : MaxRequestSize = 512 := rfl
    omega
  have c1 : cstr "Host".toList = "Host".toList := by decide
  have c2 : cstr "Accept-Encoding".toList = "Accept-Encoding".toList := by decide
  have c3 : cstr "identity".toList = "identity".toList := by decide
  unfold initRequest
  simp only [hidle, ne_eq, not_true_eq_false, if_false, hfit]
  simp only [addHeader, Outcome.andThen, ne_eq, not_true_eq_false, if_false, c1, c2, c3]
  simp

/-- The transport conditions depend on the socket only. -/
theorem transportWorks_of_socket (net : Net) (q q3 : HttpRequest) (hnet : TransportWorks net q)
    (h3 : q3._socket = q._socket) : TransportWorks net q3 := by
  unfold TransportWorks at hnet ⊢
  rw [h3]
  exact hnet

/-- The transport conditions hold again once `send` has opened the socket. -/
theorem transportWorks_after_send (net : Net) (q q3 : HttpRequest) (hnet : TransportWorks net q)
    (h3 : q3._socket = (if q._socket < 0 then net.socketResult else q._socket)) :
    TransportWorks net q3 := by
  unfold TransportWorks at hnet ⊢
  refine ⟨?_, hnet.2⟩
  rw [h3]
  by_cases hneg : q._socket < 0
  · rw [if_pos hneg]
    rcases hnet.1 with h0 | h1
    · omega
    · exact Or.inl h1.2.1
  · rw [if_neg hneg]
    exact Or.inl (by omega)

theorem sendHeaders_inProgress (net : Net) (q : HttpRequest) (h : q._state = .InProgress)
    (hnet : TransportWorks net q) :
    sendHeaders net q =
      .ok { q with _state := .Idle, _currRequest := [],
                   _socket := if q._socket < 0 then net.socketResult else q._socket,
                   wire := q.wire ++ joinLines (q._currRequest ++ [[]]) } () := by
  unfold sendHeaders
  simp only [h, ne_eq, not_true_eq_false, if_false]
  exact send_all net { q with _state := .Idle, _currRequest := [] } _ hnet

theorem addHeaderInt_inProgress (q : HttpRequest) (name : Str) (v : Int)
    (h : q._state = .InProgress) :
    addHeaderInt q name v =
      .ok { q with _currRequest := (q._currRequest ++
        [cstr name ++ ": ".toList ++ cstr (formatInt v)]) } () := by
  simp [addHeaderInt, addHeader, h]

theorem sendRequest_general (net : Net) (q : HttpRequest) (method url : Str)
    (headers : Option (List (Str × Str))) (body : Option Str) (sizeOfBody : Int)
    (hidle : q._state = .Idle) (hbuf : q._currRequest = [])
    (hnet : TransportWorks net q)
    (hlen : (cstr method).length + (cstr url).length + 10 < MaxRequestSize)
    (hsize : ∀ b, body = some b → sizeOfBody = b.length) :
    ∃ q2, sendRequest net q method url headers body sizeOfBody = .ok q2 () ∧
      q2.wire = q.wire ++ specRequestBytes (cstr q._host) (cstr method) (cstr url)
        (headers.map (fun hs => hs.map (fun h => (cstr h.1, cstr h.2)))) body sizeOfBody ∧
      q2._state = .Idle ∧ q2._currRequest = [] ∧
      q2._pendingResponses = q._pendingResponses ++ [HttpResponse.new method q._callbacks] := by
  -- after `initRequest`
  obtain ⟨q1, e1, s1, k1, w1, p1, c1⟩ : ∃ q1, initRequest q method url = .ok q1 () ∧
      q1._state = .InProgress ∧ q1._socket = q._socket ∧ q1.wire = q.wire ∧
      q1._pendingResponses = q._pendingResponses ++ [HttpResponse.new method q._callbacks] ∧
      q1._currRequest = [cstr method ++ " ".toList ++ cstr url ++ " HTTP/1.1".toList,
        "Host: ".toList ++ cstr q._host, "Accept-Encoding: identity".toList] :=
    ⟨_, initRequest_idle q method url hidle hlen, rfl, rfl, rfl, rfl, by simp [hbuf]⟩
  -- after the automatic `Content-Length`
  obtain ⟨q2, e2, s2, k2, w2, p2, c2⟩ : ∃ q2,
      (if body.isSome ∧ (match headers with
            | some hs => hs.any (fun h => strcaseeq h.1 "content-length".toList)
            | none => false) = false then
          addHeaderInt q1 "Content-Length".toList sizeOfBody
        else .ok q1 ()) = .ok q2 () ∧
      q2._state = .InProgress ∧ q2._socket = q._socket ∧ q2.wire = q.wire ∧
      q2._pendingResponses = q1._pendingResponses ∧
      q2._currRequest = q1._currRequest ++
        (if addsContentLength (headers.map (fun hs => hs.map (fun h => (cstr h.1, cstr h.2)))) body
          then ["Content-Length: ".toList ++ formatInt sizeOfBody] else []) := by
    rw [addsContentLength_cstr]
    have hname : cstr "Content-Length".toList = "Content-Length".toList := by decide
    by_cases hcl : addsContentLength headers body = true
    · rw [if_pos ((contentLength_condition headers body).2 hcl), if_pos hcl,
        addHeaderInt_inProgress q1 _ _ s1, hname, formatInt_isCString]
      exact ⟨_, rfl, s1, k1, w1, rfl, rfl⟩
    · rw [if_neg (fun h => hcl ((contentLength_condition headers body).1 h)), if_neg hcl]
      exact ⟨q1, rfl, s1, k1, w1, rfl, by simp⟩
  -- after the caller's headers
  obtain ⟨q3, e3, s3, k3, w3, p3, c3⟩ : ∃ q3,
      (match headers with
        | some hs => addHeaders q2 hs
        | none => .ok q2 ()) = .ok q3 () ∧
      q3._state = .InProgress ∧ q3._socket = q._socket ∧ q3.wire = q.wire ∧
      q3._pendingResponses = q2._pendingResponses ∧
      q3._currRequest = q2._currRequest ++
        (headers.getD []).map (fun h => cstr h.1 ++ ": ".toList ++ cstr h.2) := by
    rcases headers with _ | hs
    · exact ⟨q2, rfl, s2, k2, w2, rfl, by simp⟩
    · exact ⟨_, addHeaders_inProgress hs q2 s2, s2, k2, w2, rfl, rfl⟩
  -- after `sendHeaders`
  obtain ⟨q4, e4, s4, k4, w4, p4, c4⟩ : ∃ q4, sendHeaders net q3 = .ok q4 () ∧
      q4._state = .Idle ∧
      q4._socket = (if q._socket < 0 then net.socketResult else q._socket) ∧
      q4.wire = q.wire ++ joinLines (q3._currRequest ++ [[]]) ∧
      q4._pendingResponses = q3._pendingResponses ∧ q4._currRequest = [] :=
    ⟨_, sendHeaders_inProgress net q3 s3 (transportWorks_of_socket net q q3 hnet k3), rfl, by simp [k3],
      by simp [w3], rfl, rfl⟩
  -- after the body
  obtain ⟨q5, e5, s5, w5, p5, c5⟩ : ∃ q5,
      (match body with
        | some b => send net q4 b sizeOfBody
        | none => .ok q4 ()) = .ok q5 () ∧
      q5._state = .Idle ∧ q5.wire = q4.wire ++ body.getD [] ∧
      q5._pendingResponses = q4._pendingResponses ∧ q5._currRequest = [] := by
    rcases body with _ | b
    · exact ⟨q4, rfl, s4, by simp, rfl, c4⟩
    · rw [hsize b rfl]
      exact ⟨_, send_all net q4 b (transportWorks_after_send net q q4 hnet k4), s4, rfl, rfl, c4⟩
  refine ⟨q5, ?_, ?_, s5, c5, ?_⟩
  · unfold sendRequest
    simp only [e1, Outcome.andThen, e2, e3, e4, e5]
  · rw [w5, w4, c3, c2, c1, addsContentLength_cstr]
    unfold specRequestBytes
    rw [addsContentLength_cstr]
    simp only [joinLines_append, joinLines_map]
    generalize addsContentLength headers body = flag
    rcases headers with _ | hs <;> cases flag <;>
      simp [joinLines, CRLF, List.map_map, Function.comp_def]
  · rw [p5, p4, p3, p2, p1]

theorem map_cstr_pairs (hs : List (Str × Str))
    (h : ∀ p ∈ hs, IsCString p.1 ∧ IsCString p.2) :
    hs.map (fun p => (cstr p.1, cstr p.2)) = hs := by
  induction hs with
  | nil => rfl
  | cons p t ih =>
    have hp := h p (List.mem_cons_self _ _)
    rw [List.map_cons, ih (fun x hx => h x (List.mem_cons_of_mem _ hx)),
      cstr_of_isCString hp.1, cstr_of_isCString hp.2]

theorem andThen_leaves {σ α β : Type} (o : Outcome σ α) (f : σ → α → Outcome σ β) (s : σ)
    (h : (o.andThen f).leaves s) :
    (∃ e, o = .thrown e s) ∨ (∃ s1 a, o = .ok s1 a ∧ (f s1 a).leaves s) := by
  cases o with
  | ok s1 a => exact Or.inr ⟨s1, a, rfl, h⟩
  | thrown e s1 =>
    rcases h with ⟨a, h⟩ | ⟨e2, h⟩
    · exact absurd h (by simp [Outcome.andThen])
    · simp only [Outcome.andThen, Outcome.thrown.injEq] at h
      exact Or.inl ⟨e, by rw [h.2]⟩
  | aborted =>
    rcases h with ⟨a, h⟩ | ⟨e2, h⟩ <;> exact absurd h (by simp [Outcome.andThen])
  | undefined =>
    rcases h with ⟨a, h⟩ | ⟨e2, h⟩ <;> exact absurd h (by simp [Outcome.andThen])

theorem idleBufferEmpty_new (host : Str) (port : Int) :
    IdleBufferEmpty (HttpRequest.new host port) := fun _ => rfl

theorem initSocket_buffer (net : Net) (q q1 : HttpRequest) (h : (initSocket net q).leaves q1) :
    q1._state = q._state ∧ q1._currRequest = q._currRequest := by
  unfold initSocket at h
  split at h
  · rcases h with ⟨a, h⟩ | ⟨e, h⟩
    · exact absurd h (by simp)
    · simp only [Outcome.thrown.injEq] at h
      rw [← h.2]; exact ⟨rfl, rfl⟩
  · simp only [] at h
    split at h
    · rcases h with ⟨a, h⟩ | ⟨e, h⟩
      · exact absurd h (by simp)
      · simp only [Outcome.thrown.injEq] at h
        rw [← h.2]; exact ⟨rfl, rfl⟩
    · split at h
      · rcases h with ⟨a, h⟩ | ⟨e, h⟩
        · exact absurd h (by simp)
        · simp only [Outcome.thrown.injEq] at h
          rw [← h.2]; exact ⟨rfl, rfl⟩
      · rcases h with ⟨a, h⟩ | ⟨e, h⟩
        · simp only [Outcome.ok.injEq] at h
          rw [← h.1]; exact ⟨rfl, rfl⟩
        · exact absurd h (by simp)

theorem send_buffer (net : Net) (q q1 : HttpRequest) (data : Str) (n : Int)
    (h : (send net q data n).leaves q1) :
    q1._state = q._state ∧ q1._currRequest = q._currRequest := by
  unfold send at h
  rcases andThen_leaves _ _ _ h with ⟨e, he⟩ | ⟨s1, a, he, hf⟩
  · split at he
    · exact initSocket_buffer net q q1 (Or.inr ⟨e, he⟩)
    · exact absurd he (by simp)
  · have h1 : s1._state = q._state ∧ s1._currRequest = q._currRequest := by
      split at he
      · exact initSocket_buffer net q s1 (Or.inl ⟨a, he⟩)
      · simp only [Outcome.ok.injEq] at he
        rw [← he.1]; exact ⟨rfl, rfl⟩
    split at hf
    · split at hf
      · rcases hf with ⟨a, h⟩ | ⟨e, h⟩ <;> exact absurd h (by simp)
      · split at hf
        · rcases hf with ⟨a, h⟩ | ⟨e, h⟩
          · simp only [Outcome.ok.injEq] at h
            rw [← h.1]; exact h1
          · exact absurd h (by simp)
        · rcases hf with ⟨a, h⟩ | ⟨e, h⟩
          · exact absurd h (by simp)
          · simp only [Outcome.thrown.injEq] at h
            rw [← h.2]; exact h1
    · rcases hf with ⟨a, h⟩ | ⟨e, h⟩
      · simp only [Outcome.ok.injEq] at h
        rw [← h.1]; exact h1
      · exact absurd h (by simp)

/-- The builder operations keep the invariant that an Idle builder has an empty
line buffer, whether they return or throw. -/
theorem idleBufferEmpty_preserved (net : Net) (q q1 : HttpRequest) (hq : IdleBufferEmpty q) :
    (∀ method url, (initRequest q method url).leaves q1 → IdleBufferEmpty q1) ∧
    (∀ name value, (addHeader q name value).leaves q1 → IdleBufferEmpty q1) ∧
    (∀ name v, (addHeaderInt q name v).leaves q1 → IdleBufferEmpty q1) ∧
    ((sendHeaders net q).leaves q1 → IdleBufferEmpty q1) ∧
    (∀ data n, (send net q data n).leaves q1 → IdleBufferEmpty q1) := by
  have hadd : ∀ (q0 : HttpRequest) name value, IdleBufferEmpty q0 →
      (addHeader q0 name value).leaves q1 → IdleBufferEmpty q1 := by
    intro q0 name value h0 h
    unfold addHeader at h
    split at h
    · rcases h with ⟨a, h⟩ | ⟨e, h⟩
      · exact absurd h (by simp)
      · simp only [Outcome.thrown.injEq] at h
        rw [← h.2]; exact h0
    · rename_i hs
      rcases h with ⟨a, h⟩ | ⟨e, h⟩
      · simp only [Outcome.ok.injEq] at h
        rw [← h.1]
        intro hidle
        have hs1 : q0._state = .InProgress := by simpa using hs
        have hs2 : q0._state = .Idle := hidle
        rw [hs1] at hs2
        cases hs2
      · exact absurd h (by simp)
  refine ⟨?_, fun name value => hadd q name value hq, fun name v => hadd q name _ hq, ?_, ?_⟩
  · intro method url h
    unfold initRequest at h
    split at h
    · rcases h with ⟨a, h⟩ | ⟨e, h⟩
      · exact absurd h (by simp)
      · simp only [Outcome.thrown.injEq] at h
        rw [← h.2]; exact hq
    · simp only [addHeader, ne_eq, not_true_eq_false, if_false, Outcome.andThen] at h
      split at h
      · rcases h with ⟨a, h⟩ | ⟨e, h⟩ <;> exact absurd h (by simp)
      · rcases h with ⟨a, h⟩ | ⟨e, h⟩
        · simp only [Outcome.ok.injEq] at h
          rw [← h.1]
          intro hidle
          exact absurd hidle (by simp)
        · exact absurd h (by simp)
  · intro h
    unfold sendHeaders at h
    split at h
    · rcases h with ⟨a, h⟩ | ⟨e, h⟩ <;> exact absurd h (by simp)
    · have := send_buffer net _ q1 _ _ h
      intro _
      exact this.2
  · intro data n h
    have := send_buffer net q q1 data n h
    intro hidle
    rw [this.2]
    exact hq (by rw [← this.1]; exact hidle)

end HttpRequest

/-! ## The response: field lemmas -/

namespace HttpResponse

@[simp] theorem enterBody_contentLength (r : HttpResponse) :
    (enterBody r)._contentLength = r._contentLength := by
  unfold enterBody; split <;> rfl

@[simp] theorem notifyHeadersReady_contentLength (r : HttpResponse) :
    (notifyHeadersReady r)._contentLength = r._contentLength := by
  unfold notifyHeadersReady; split <;> rfl

@[simp] theorem defaultAutoClose_contentLength (r : HttpResponse) :
    (defaultAutoClose r)._contentLength = r._contentLength := by
  unfold defaultAutoClose; split <;> rfl

@[simp] theorem readContentLength_status (r : HttpResponse) :
    (readContentLength r)._status = r._status := by
  unfold readContentLength; split <;> (try split) <;> rfl

@[simp] theorem readContentLength_method (r : HttpResponse) :
    (readContentLength r)._method = r._method := by
  unfold readContentLength; split <;> (try split) <;> rfl

@[simp] theorem readTransferEncoding_status (r : HttpResponse) :
    (readTransferEncoding r)._status = r._status := by
  unfold readTransferEncoding; split <;> (try split) <;> rfl

@[simp] theorem readTransferEncoding_method (r : HttpResponse) :
    (readTransferEncoding r)._method = r._method := by
  unfold readTransferEncoding; split <;> (try split) <;> rfl

theorem hasNoBody_framing (r : HttpResponse) :
    hasNoBody (readContentLength (readTransferEncoding (resetLength r))) ↔ hasNoBody r := by
  simp [hasNoBody, resetLength]

@[simp] theorem enterBody_headers (r : HttpResponse) : (enterBody r)._headers = r._headers := by
  unfold enterBody; split <;> rfl

@[simp] theorem notifyHeadersReady_headers (r : HttpResponse) :
    (notifyHeadersReady r)._headers = r._headers := by
  unfold notifyHeadersReady; split <;> rfl

@[simp] theorem defaultAutoClose_headers (r : HttpResponse) :
    (defaultAutoClose r)._headers = r._headers := by
  unfold defaultAutoClose; split <;> rfl

@[simp] theorem applyNoBodyRule_headers (r : HttpResponse) :
    (applyNoBodyRule r)._headers = r._headers := by
  unfold applyNoBodyRule; split <;> rfl

@[simp] theorem readContentLength_headers (r : HttpResponse) :
    (readContentLength r)._headers = r._headers := by
  unfold readContentLength; split <;> (try split) <;> rfl

@[simp] theorem readTransferEncoding_headers (r : HttpResponse) :
    (readTransferEncoding r)._headers = r._headers := by
  unfold readTransferEncoding; split <;> (try split) <;> rfl

@[simp] theorem initBody_headers (r : HttpResponse) : (initBody r)._headers = r._headers := by
  simp [initBody, resetLength]

/-- A line that is not a continuation commits the pending header. -/
theorem processHeader_commit (r : HttpResponse) (next : Str)
    (h : ∀ c, (cstr next).head? = some c → isspace c = false) :
    (processHeader r next)._headers = (addHeader r)._headers := by
  unfold processHeader
  by_cases he : next = []
  · rw [if_pos he]
    simp only []
    split
    · rfl
    · exact initBody_headers _
  · rw [if_neg he]
    rcases hc : cstr next with _ | ⟨c, rest⟩
    · rfl
    · have := h c (by rw [hc]; rfl)
      simp [this]

theorem isspace_ne_NUL {c : Char} (h : isspace c = true) : c ≠ NUL := by
  intro hc
  rw [hc] at h
  exact absurd h (by decide)

/-- A header line that starts a new header. -/
theorem processHeader_start (r : HttpResponse) (line : Str) (c : Char) (t : Str)
    (hline : line = c :: t) (hnul : IsCString line) (hc : isspace c = false) :
    processHeader r line = { addHeader r with _currHeader := line } := by
  subst hline
  unfold processHeader
  rw [if_neg (by simp), cstr_of_isCString hnul]
  simp [hc]

theorem dropWhile_isspace_append (ws W : Str) (hws : ∀ c ∈ ws, isspace c = true)
    (hW : ∀ c, W.head? = some c → isspace c = false) :
    (ws ++ W).dropWhile isspace = W := by
  induction ws with
  | nil =>
    rcases W with _ | ⟨c, t⟩
    · rfl
    · simp [List.dropWhile, hW c rfl]
  | cons a ws ih =>
    simp only [List.cons_append, List.dropWhile, hws a (List.mem_cons_self _ _)]
    exact ih (fun c hc => hws c (List.mem_cons_of_mem _ hc))

/-- A continuation line is folded into the pending header. -/
theorem processHeader_continuation (r : HttpResponse) (ws W : Str) (hne : ws ≠ [])
    (hws : ∀ c ∈ ws, isspace c = true) (hnul : IsCString W)
    (hW : ∀ c, W.head? = some c → isspace c = false) :
    processHeader r (ws ++ W) = { r with _currHeader := r._currHeader ++ ' ' :: W } := by
  obtain ⟨a, ws, rfl⟩ := List.exists_cons_of_ne_nil hne
  have hcs : cstr (a :: ws ++ W) = a :: (ws ++ W) := by
    apply cstr_eq_self
    intro c hc
    rcases List.mem_append.mp hc with h | h
    · exact isspace_ne_NUL (hws c h)
    · intro hcn
      exact hnul (hcn ▸ h)
  unfold processHeader
  rw [if_neg (by simp), hcs]
  simp only [hws a (List.mem_cons_self _ _), if_true]
  rw [dropWhile_isspace_append ws W (fun c hc => hws c (List.mem_cons_of_mem _ hc)) hW]
  simp

theorem processHeader_continuations (conts : List (Str × Str))
    (h : ∀ p ∈ conts, p.1 ≠ [] ∧ (∀ c ∈ p.1, isspace c = true) ∧ IsCString p.2 ∧
      (∀ c, p.2.head? = some c → isspace c = false)) :
    ∀ r : HttpResponse, (conts.map (fun p => p.1 ++ p.2)).foldl processHeader r =
      { r with _currHeader := r._currHeader ++ foldedText conts } := by
  induction conts with
  | nil => intro r; simp [foldedText]
  | cons p t ih =>
    intro r
    obtain ⟨h1, h2, h3, h4⟩ := h p (List.mem_cons_self _ _)
    rw [List.map_cons, List.foldl_cons, processHeader_continuation r p.1 p.2 h1 h2 h3 h4,
      ih (fun x hx => h x (List.mem_cons_of_mem _ hx))]
    simp [foldedText]

theorem mapFind_mapInsert (m : HeaderMap) (k v : Str) : mapFind (mapInsert m k v) k = some v := by
  simp [mapInsert, mapFind]

/-- Commit of a pending header of the form name, colon, text. -/
theorem addHeader_pair (r : HttpResponse) (N X : Str) (hcolon : ':' ∉ N)
    (hnulN : IsCString N) (hnulX : IsCString X) (h : r._currHeader = N ++ ':' :: X) :
    (addHeader r)._headers =
      mapInsert r._headers (lower N) (X.dropWhile (fun c => c == '\t' || c == ' ')) := by
  have hcs : cstr (N ++ ':' :: X) = N ++ ':' :: X := by
    apply cstr_eq_self
    intro c hc
    rcases List.mem_append.mp hc with h | h
    · intro hcn; exact hnulN (hcn ▸ h)
    · rcases List.mem_cons.mp h with h | h
      · rw [h]; decide
      · intro hcn; exact hnulX (hcn ▸ h)
  have htw : (N ++ ':' :: X).takeWhile (fun c => c != ':') = N := by
    rw [List.takeWhile_append_of_pos]
    · simp [List.takeWhile]
    · intro c hc
      simp only [bne_iff_ne, ne_eq]
      intro hcn
      exact hcolon (hcn ▸ hc)
  have hdw : (N ++ ':' :: X).dropWhile (fun c => c != ':') = ':' :: X := by
    rw [List.dropWhile_append_of_pos]
    · simp [List.dropWhile]
    · intro c hc
      simp only [bne_iff_ne, ne_eq]
      intro hcn
      exact hcolon (hcn ▸ hc)
  unfold addHeader
  rw [if_neg (by rw [h]; simp)]
  simp only [h, hcs, htw, hdw, List.drop_succ_cons, List.drop_zero]

theorem mapFind_eq_none (m : HeaderMap) (k : Str) (h : ∀ p ∈ m, p.1 ≠ k) : mapFind m k = none := by
  induction m with
  | nil => rfl
  | cons p t ih =>
    obtain ⟨k1, v⟩ := p
    have h1 : k1 ≠ k := h (k1, v) (List.mem_cons_self _ _)
    simp only [mapFind, if_neg h1]
    exact ih (fun x hx => h x (List.mem_cons_of_mem _ hx))

theorem isCString_append {a b : Str} (ha : IsCString a) (hb : IsCString b) :
    IsCString (a ++ b) := by
  unfold IsCString at *
  simp [ha, hb]

theorem isCString_foldedText (conts : List (Str × Str)) (h : ∀ p ∈ conts, IsCString p.2) :
    IsCString (foldedText conts) := by
  induction conts with
  | nil => simp [foldedText, IsCString]
  | cons p t ih =>
    have hp := h p (List.mem_cons_self _ _)
    have ht := ih (fun x hx => h x (List.mem_cons_of_mem _ hx))
    unfold IsCString foldedText at *
    simp only [List.map_cons, List.flatten_cons, List.mem_append, List.mem_cons, not_or]
    exact ⟨⟨by decide, hp⟩, ht⟩

theorem isCString_dropWhile (p : Char → Bool) {s : Str} (h : IsCString s) :
    IsCString (s.dropWhile p) := by
  unfold IsCString at *
  intro hm
  exact h ((List.dropWhile_sublist p).subset hm)

/-- The header value that the lines `N: V` and the continuations leave in the map. -/
theorem folded_header_value (r : HttpResponse) (N V : Str) (conts : List (Str × Str))
    (next N' : Str)
    (hcolon : ':' ∉ N) (hN : IsCString N) (hNsp : ∀ c, N.head? = some c → isspace c = false)
    (hV : IsCString V)
    (hconts : ∀ p ∈ conts, p.1 ≠ [] ∧ (∀ c ∈ p.1, isspace c = true) ∧ IsCString p.2 ∧
      (∀ c, p.2.head? = some c → isspace c = false))
    (hnext : ∀ c, (cstr next).head? = some c → isspace c = false)
    (hN' : IsCString N') (hcase : lower N' = lower N) :
    getHeader (processHeader
        (((N ++ ": ".toList ++ V) :: conts.map (fun p => p.1 ++ p.2)).foldl processHeader r)
        next) N' =
      some ((V ++ foldedText conts).dropWhile (fun c => c == '\t' || c == ' ')) := by
  have hfold : IsCString (foldedText conts) :=
    isCString_foldedText conts (fun p hp => (hconts p hp).2.2.1)
  have hVf : IsCString (V ++ foldedText conts) := isCString_append hV hfold
  have hline : IsCString (N ++ ": ".toList ++ V) :=
    isCString_append (isCString_append hN (by unfold IsCString; decide)) hV
  obtain ⟨c, t, hct, hc⟩ : ∃ c t, N ++ ": ".toList ++ V = c :: t ∧ isspace c = false := by
    rcases N with _ | ⟨c, t⟩
    · exact ⟨':', ' ' :: V, rfl, by decide⟩
    · exact ⟨c, t ++ ": ".toList ++ V, rfl, hNsp c rfl⟩
  rw [List.foldl_cons, processHeader_start r _ c t hct hline hc,
    processHeader_continuations conts hconts]
  unfold getHeader
  rw [processHeader_commit _ next hnext,
    addHeader_pair _ N (' ' :: (V ++ foldedText conts)) hcolon hN
      (isCString_append (a := [' ']) (by unfold IsCString; decide) hVf) (by simp),
    cstr_of_isCString hN', hcase, mapFind_mapInsert]
  simp only [Option.map_some', List.dropWhile_cons, Bool.or_true, beq_self_eq_true, if_true]
  rw [cstr_of_isCString (isCString_dropWhile _ hVf)]

theorem cstr_append_left {a : Str} (b : Str) (h : ∀ c ∈ a, c ≠ NUL) :
    cstr (a ++ b) = a ++ cstr b := by
  unfold cstr
  rw [List.takeWhile_append_of_pos]
  intro c hc
  simpa using h c hc

@[simp] theorem addHeader_state (r : HttpResponse) : (addHeader r)._state = r._state := by
  unfold addHeader; split <;> rfl

@[simp] theorem addHeader_method (r : HttpResponse) : (addHeader r)._method = r._method := by
  unfold addHeader; split <;> rfl

@[simp] theorem addHeader_request (r : HttpResponse) : (addHeader r)._request = r._request := by
  unfold addHeader; split <;> rfl

@[simp] theorem addHeader_status (r : HttpResponse) : (addHeader r)._status = r._status := by
  unfold addHeader; split <;> rfl

@[simp] theorem addHeader_trace (r : HttpResponse) : (addHeader r).trace = r.trace := by
  unfold addHeader; split <;> rfl

@[simp] theorem addHeader_bytesRead (r : HttpResponse) :
    (addHeader r)._bytesRead = r._bytesRead := by
  unfold addHeader; split <;> rfl

@[simp] theorem addHeader_currHeader (r : HttpResponse) : (addHeader r)._currHeader = [] := by
  unfold addHeader
  split
  · assumption
  · rfl

theorem mapFind_filter_ne (m : HeaderMap) (k k' : Str) (h : k ≠ k') :
    mapFind (m.filter (fun p => p.1 != k)) k' = mapFind m k' := by
  induction m with
  | nil => rfl
  | cons p t ih =>
    obtain ⟨a, v⟩ := p
    by_cases ha : a = k
    · subst ha
      simp only [List.filter, bne_self_eq_false, mapFind, if_neg h]
      exact ih
    · have hb : (a != k) = true := by simpa using ha
      simp only [List.filter, hb, mapFind]
      split
      · rfl
      · exact ih

theorem mapFind_mapInsert_ne (m : HeaderMap) (k v k' : Str) (h : k ≠ k') :
    mapFind (mapInsert m k v) k' = mapFind m k' := by
  unfold mapInsert
  rw [mapFind, if_neg h, mapFind_filter_ne m k k' h]

/-- Commit of a pending header keeps `transfer-encoding` out of the map. -/
theorem addHeader_keeps_out (r : HttpResponse)
    (hm : mapFind r._headers transferEncodingKey = none) (hp : PendingHeaderOk r._currHeader) :
    mapFind (addHeader r)._headers transferEncodingKey = none := by
  rcases hp with h | ⟨name, x, h, hcolon, hn, hx, hne⟩
  · unfold addHeader
    rw [if_pos h]
    exact hm
  · rw [addHeader_pair r name x hcolon hn hx h, mapFind_mapInsert_ne _ _ _ _ hne]
    exact hm

/-- A line that starts a header, whatever follows its first NUL. -/
theorem processHeader_new (r : HttpResponse) (line : Str) (c : Char) (t : Str)
    (hline : cstr line = c :: t) (hc : isspace c = false) :
    processHeader r line = { addHeader r with _currHeader := c :: t } := by
  have hne : line ≠ [] := by
    intro e
    rw [e] at hline
    exact absurd hline (by simp [cstr])
  unfold processHeader
  rw [if_neg hne, hline]
  simp [hc]

/-- A well-formed header line keeps the response reading headers and becomes
the pending header. -/
theorem processHeader_field (r : HttpResponse) (method : Str) (cb : Callbacks) (status : Int)
    (name value : Str) (hne : name ≠ [])
    (hname : ∀ c ∈ name, c ≠ ':' ∧ c ≠ NUL ∧ isspace c = false)
    (hkey : lower name ≠ transferEncodingKey)
    (hinv : ReadingHeaders r method cb status) :
    ReadingHeaders (processHeader r (name ++ ": ".toList ++ value)) method cb status ∧
      (processHeader r (name ++ ": ".toList ++ value))._currHeader =
        name ++ ':' :: ' ' :: cstr value := by
  obtain ⟨h1, h2, h3, h4, h5, h6, h7, h8⟩ := hinv
  obtain ⟨c, t, rfl⟩ := List.exists_cons_of_ne_nil hne
  have hcs : cstr (c :: t ++ ": ".toList ++ value) = c :: (t ++ ':' :: ' ' :: cstr value) := by
    have e : c :: t ++ ": ".toList ++ value = (c :: t ++ ": ".toList) ++ value := rfl
    rw [e, cstr_append_left]
    · simp
    · intro x hx
      rcases List.mem_append.mp hx with h | h
      · exact (hname x h).2.1
      · simp only [String.toList, List.mem_cons, List.mem_singleton, List.not_mem_nil,
          or_false] at h
        rcases h with h | h <;> rw [h] <;> decide
  rw [processHeader_new r _ c _ hcs (hname c (List.mem_cons_self _ _)).2.2]
  refine ⟨⟨?_, ?_, ?_, ?_, ?_, ?_, ?_, ?_⟩, rfl⟩
  · simpa using h1
  · simpa using h2
  · simpa using h3
  · simpa using h4
  · simpa using h5
  · simpa using h6
  · exact addHeader_keeps_out r h7 h8
  · refine Or.inr ⟨c :: t, ' ' :: cstr value, rfl, ?_, ?_, ?_, hkey⟩
    · intro h; exact (hname _ h).1 rfl
    · intro h; exact (hname _ h).2.1 rfl
    · unfold IsCString
      intro h
      rcases List.mem_cons.mp h with h | h
      · exact absurd h (by decide)
      · have := List.mem_takeWhile_imp h
        simp at this

/-- The result of `initBody` on a response whose headers hold a content length
and no transfer encoding, outside the no-body rules. -/
theorem initBody_content_length (r : HttpResponse) (l : Str)
    (hte : mapFind r._headers transferEncodingKey = none)
    (hcl : mapFind r._headers "content-length".toList = some l) (hl : IsCString l)
    (hnb : ¬ hasNoBody r) (hcb : r._request._headersReady = true) (hlen : atoi l ≠ -1) :
    initBody r = { r with _autoClose := isAutoClose r, _contentLength := atoi l,
                          _chunked := false, trace := r.trace ++ [Event.headersReady],
                          _state := .Body } := by
  have k1 : lower (cstr "transfer-encoding".toList) = transferEncodingKey := by decide
  have k2 : lower (cstr "content-length".toList) = "content-length".toList := by decide
  have e2 : readTransferEncoding (resetLength r) =
      { r with _autoClose := isAutoClose r, _contentLength := -1, _chunked := false } := by
    unfold readTransferEncoding getHeader resetLength
    simp only [k1, hte, Option.map_none']
  have e3 : readContentLength (readTransferEncoding (resetLength r)) =
      { r with _autoClose := isAutoClose r, _contentLength := atoi l, _chunked := false } := by
    rw [e2]
    unfold readContentLength getHeader
    simp only [k2, hcl, Option.map_some', cstr_of_isCString hl, if_true]
  have e4 : applyNoBodyRule (readContentLength (readTransferEncoding (resetLength r))) =
      { r with _autoClose := isAutoClose r, _contentLength := atoi l, _chunked := false } := by
    unfold applyNoBodyRule
    rw [if_neg (fun h => hnb ((hasNoBody_framing r).1 h)), e3]
  unfold initBody
  rw [e4]
  unfold defaultAutoClose
  rw [if_neg (fun h => hlen h.2.2)]
  unfold notifyHeadersReady
  simp only [hcb, if_true]
  unfold enterBody
  simp only [Bool.false_eq_true, if_false]

/-- The data handler on a body that arrives whole. -/
theorem processData_whole (r : HttpResponse) (body : Str)
    (hlen : r._contentLength = body.length) (hpos : 0 < body.length) (hread : r._bytesRead = 0)
    (hcb1 : r._request._receiveData = true) (hcb2 : r._request._responseComplete = true) :
    processData r body body.length =
      ({ r with trace := r.trace ++ [Event.receiveData body body.length,
                  Event.responseComplete],
                _bytesRead := body.length, _state := .Complete }, (body.length : Int)) := by
  have hbp : (if r._contentLength ≠ -1 ∧ (body.length : Int) > r._contentLength - r._bytesRead
      then r._contentLength - r._bytesRead else (body.length : Int)) = body.length := by
    rw [hlen, hread]
    split <;> omega
  unfold processData
  simp only [hbp]
  unfold deliver
  simp only [hcb1, if_true, Int.toNat_natCast, List.take_length, hread, zero_add, hlen]
  rw [if_pos ⟨by omega, trivial⟩]
  unfold complete
  simp [hcb2]

theorem decimal_plain (n : Nat) : decimal n ≠ [] ∧ (∀ c ∈ decimal n, c ∈ hexChars) :=
  ⟨(toDigits_spec 10 (by omega) (by omega) digitOf_digitChar_10 n).1,
    (toDigits_spec 10 (by omega) (by omega) digitOf_digitChar_10 n).2.1⟩

/-- The first two tokens of a status line of version 1.1 with a status in digits. -/
theorem statusTokens_simple (d x : Str) (hd : d ≠ []) (hchars : ∀ c ∈ d, c ∈ hexChars) :
    (statusTokens ("HTTP/1.1 ".toList ++ d ++ ' ' :: x)).1 = "HTTP/1.1".toList ∧
    (statusTokens ("HTTP/1.1 ".toList ++ d ++ ' ' :: x)).2.1 = d := by
  have hcs : cstr ("HTTP/1.1 ".toList ++ d ++ ' ' :: x) =
      "HTTP/1.1 ".toList ++ (d ++ ' ' :: cstr x) := by
    have e : "HTTP/1.1 ".toList ++ d ++ ' ' :: x = ("HTTP/1.1 ".toList ++ d ++ [' ']) ++ x := by
      simp
    rw [e, cstr_append_left]
    · simp
    · intro c hc
      simp only [List.mem_append, List.mem_singleton] at hc
      rcases hc with (h | h) | h
      · revert c; decide
      · exact (hexChars_plain c (hchars c h)).1
      · rw [h]; decide
  obtain ⟨c, t, rfl⟩ := List.exists_cons_of_ne_nil hd
  have hc : c ≠ ' ' := (hexChars_plain c (hchars c (List.mem_cons_self _ _))).2.2.2.2.2.2.2.2.1
  have hb : (c == ' ') = false := by simpa using hc
  have htw : List.takeWhile (fun c => c != ' ') (c :: t ++ ' ' :: cstr x) = c :: t := by
    rw [List.takeWhile_append_of_pos]
    · simp [List.takeWhile]
    · intro y hy
      simpa using (hexChars_plain y (hchars y hy)).2.2.2.2.2.2.2.2.1
  unfold statusTokens
  rw [hcs]
  constructor
  · rfl
  · have hdrop : List.dropWhile (fun c => c == ' ')
        (List.dropWhile (fun c => c != ' ')
          (List.dropWhile (fun c => c == ' ') ("HTTP/1.1 ".toList ++ (c :: t ++ ' ' :: cstr x)))) =
        c :: t ++ ' ' :: cstr x := by
      simp [List.dropWhile, hb]
    simp only [hdrop, htw]

/-- The status line of a well-formed message on a new response. -/
theorem processStatusLine_fresh (method : Str) (cb : Callbacks) (status : Nat) (x : Str)
    (hstatus : 100 ≤ status ∧ status ≤ 999) :
    ∃ r1, processStatusLine (HttpResponse.new method cb)
        ("HTTP/1.1 ".toList ++ decimal status ++ ' ' :: x) = .ok r1 () ∧
      ReadingHeaders r1 (cstr method) cb status := by
  obtain ⟨hne, hchars⟩ := decimal_plain status
  obtain ⟨t1, t2⟩ := statusTokens_simple (decimal status) x hne hchars
  have hat : atoi (decimal status) = status := atoi_decimal status (by omega)
  unfold processStatusLine
  simp only [t1, t2, hat, HttpResponse.new, List.nil_append]
  rw [if_neg (by omega), if_neg (by decide), if_pos (by decide)]
  exact ⟨_, rfl, rfl, rfl, rfl, rfl, rfl, rfl, rfl, Or.inl rfl⟩

end HttpResponse

/-! ## The response: body set-up in closed form -/

namespace HttpResponse

theorem framing_eq (r : HttpResponse) :
    readContentLength (readTransferEncoding (resetLength r)) =
      { r with _autoClose := isAutoClose r,
               _contentLength := if chunkedHeader r then -1
                 else (match getHeader r "content-length".toList with
                   | some length => atoi length
                   | none => -1),
               _chunked := chunkedHeader r,
               _chunkLength := if chunkedHeader r then -1 else r._chunkLength } := by
  unfold readContentLength readTransferEncoding resetLength chunkedHeader getHeader
  dsimp only
  generalize mapFind r._headers (lower (cstr "transfer-encoding".toList)) = te
  cases te with
  | none =>
    dsimp only [Option.map]
    generalize mapFind r._headers (lower (cstr "content-length".toList)) = cl
    cases cl <;> rfl
  | some te =>
    dsimp only [Option.map]
    generalize strcaseeq (cstr te) "chunked".toList = b
    cases b
    · simp only [Bool.false_eq_true, if_false]
      generalize mapFind r._headers (lower (cstr "content-length".toList)) = cl
      cases cl <;> rfl
    · simp only [if_true]
      generalize mapFind r._headers (lower (cstr "content-length".toList)) = cl
      cases cl <;> rfl

theorem bodyLength_noBody (r : HttpResponse) (h : hasNoBody r) : bodyLength r = 0 := by
  unfold bodyLength
  rw [if_pos h]

theorem bodyLength_body (r : HttpResponse) (h : ¬hasNoBody r) :
    bodyLength r = if chunkedHeader r then -1
      else (match getHeader r "content-length".toList with
        | some length => atoi length
        | none => -1) := by
  unfold bodyLength
  rw [if_neg h]

theorem applyNoBodyRule_noBody (s : HttpResponse) (h : hasNoBody s) :
    applyNoBodyRule s = { s with _contentLength := 0 } := by
  unfold applyNoBodyRule
  rw [if_pos h]

theorem applyNoBodyRule_body (s : HttpResponse) (h : ¬hasNoBody s) : applyNoBodyRule s = s := by
  unfold applyNoBodyRule
  rw [if_neg h]

theorem defaultAutoClose_eq (s : HttpResponse) :
    defaultAutoClose s =
      { s with _autoClose := s._autoClose || (!s._chunked && decide (s._contentLength = -1)) } := by
  unfold defaultAutoClose
  cases h1 : s._autoClose <;> cases h2 : s._chunked <;>
    by_cases h3 : s._contentLength = -1 <;> simp [h3] <;> (cases s; simp_all)

theorem notifyHeadersReady_eq (s : HttpResponse) :
    notifyHeadersReady s =
      { s with trace := if s._request._headersReady then s.trace ++ [Event.headersReady]
                        else s.trace } := by
  unfold notifyHeadersReady
  cases s._request._headersReady <;> rfl

theorem enterBody_eq (s : HttpResponse) :
    enterBody s = { s with _state := if s._chunked then .ChunkLength else .Body } := by
  unfold enterBody
  cases s._chunked <;> rfl

/-- The response that `initBody()` leaves, field by field. -/
theorem initBody_eq (r : HttpResponse) :
    initBody r =
      { r with _autoClose := isAutoClose r || (!chunkedHeader r && decide (bodyLength r = -1)),
               _contentLength := bodyLength r,
               _chunked := chunkedHeader r,
               _chunkLength := if chunkedHeader r then -1 else r._chunkLength,
               trace := if r._request._headersReady then r.trace ++ [Event.headersReady]
                        else r.trace,
               _state := if chunkedHeader r then .ChunkLength else .Body } := by
  have hnb := hasNoBody_framing r
  unfold initBody
  by_cases hn : hasNoBody r
  · rw [applyNoBodyRule_noBody _ (hnb.2 hn), framing_eq, defaultAutoClose_eq,
      notifyHeadersReady_eq, enterBody_eq, bodyLength_noBody r hn]
  · rw [applyNoBodyRule_body _ (fun h => hn (hnb.1 h)), framing_eq, defaultAutoClose_eq,
      notifyHeadersReady_eq, enterBody_eq, bodyLength_body r hn]

end HttpResponse

/-! ## The response: header commit -/

namespace HttpResponse

theorem addHeader_nonempty (r : HttpResponse) (hc : IsCString r._currHeader)
    (hne : r._currHeader ≠ []) :
    addHeader r = { r with _headers := mapInsert r._headers (headerKey r._currHeader)
                                         (headerValue r._currHeader),
                           _currHeader := [] } := by
  unfold addHeader
  rw [if_neg hne]
  simp only [cstr_of_isCString hc]
  rfl

theorem filter_mapInsert_length (m : HeaderMap) (k v : Str) :
    ((mapInsert m k v).filter (fun p => p.1 == k)).length = 1 := by
  unfold mapInsert
  have h : (m.filter (fun p => p.1 != k)).filter (fun p => p.1 == k) = [] := by
    rw [List.filter_filter, List.filter_eq_nil_iff]
    intro p _
    by_cases e : p.1 = k <;> simp [e]
  simp [List.filter_cons, h]

theorem headerValue_no_colon (t : Str) (h : ':' ∉ t) : headerValue t = [] := by
  unfold headerValue
  have : t.dropWhile (fun c => c != ':') = [] := by
    rw [List.dropWhile_eq_nil_iff]
    intro c hc
    have : c ≠ ':' := fun e => h (e ▸ hc)
    simpa using this
  rw [this]
  rfl

theorem isCString_headerValue {t : Str} (h : IsCString t) : IsCString (headerValue t) := by
  unfold headerValue
  apply isCString_dropWhile
  intro hm
  exact isCString_dropWhile _ h (List.mem_of_mem_drop hm)

/-- Two header lines with the same key: the lookup gives the value of the
later one. -/
theorem later_header_wins (r : HttpResponse) (l1 l2 name : Str)
    (h2 : IsCString l2) (hn : IsCString name) (s2 : StartsHeader l2)
    (k2 : headerKey l2 = lower name) :
    getHeader (processHeader (processHeader (processHeader r l1) l2) []) name =
      some (headerValue l2) := by
  obtain ⟨c2, t2, e2, w2⟩ := s2
  have hne2 : l2 ≠ [] := by rw [e2]; simp
  unfold getHeader
  rw [processHeader_commit _ [] (by intro c hc; simp [cstr] at hc),
    processHeader_start _ l2 c2 t2 e2 h2 w2]
  rw [addHeader_nonempty _ h2 hne2]
  simp only [cstr_of_isCString hn, ← k2, mapFind_mapInsert, Option.map,
    cstr_of_isCString (isCString_headerValue h2)]

end HttpResponse

namespace HttpResponse

theorem isCString_cstr (s : Str) : IsCString (cstr s) := by
  intro hm
  have := List.mem_takeWhile_imp hm
  simp at this

/-- The accumulated header text stays a C string: `processHeader` only appends
C strings to it. -/
theorem processHeader_isCString (r : HttpResponse) (line : Str)
    (h : IsCString r._currHeader) : IsCString (processHeader r line)._currHeader := by
  have hnil : IsCString ([] : Str) := by unfold IsCString; simp
  unfold processHeader
  by_cases he : line = []
  · rw [if_pos he]
    simp only []
    split
    · show IsCString (addHeader r)._currHeader
      rw [addHeader_currHeader]
      exact hnil
    · rw [initBody_eq]
      show IsCString (addHeader r)._currHeader
      rw [addHeader_currHeader]
      exact hnil
  · rw [if_neg he]
    have hl := isCString_cstr line
    rcases hcs : cstr line with _ | ⟨c, rest⟩
    · exact hnil
    · rw [hcs] at hl
      by_cases hsp : isspace c = true
      · simp only [hsp, if_true]
        intro hm
        rcases List.mem_append.mp hm with hm | hm
        · rcases List.mem_append.mp hm with hm | hm
          · exact h hm
          · simp [NUL] at hm
        · exact hl (List.mem_cons_of_mem _ ((List.dropWhile_sublist _).subset hm))
      · simp only [hsp]
        exact hl

end HttpResponse

/-! ## The response: data of unknown length -/

namespace HttpResponse

/-- The data handler on a body whose length is unknown: all the bytes are
handed over and nothing else changes. -/
theorem processData_unknown (r : HttpResponse) (data : Str) (hl : r._contentLength = -1) :
    processData r data data.length =
      ({ r with trace := if r._request._receiveData
                  then r.trace ++ [Event.receiveData data data.length] else r.trace,
                _bytesRead := r._bytesRead + data.length }, (data.length : Int)) := by
  have hbp : (if r._contentLength ≠ -1 ∧ (data.length : Int) > r._contentLength - r._bytesRead
      then r._contentLength - r._bytesRead else (data.length : Int)) = data.length :=
    if_neg (fun h => h.1 hl)
  unfold processData
  simp only [hbp]
  unfold deliver
  cases hcb : r._request._receiveData
  · simp only [Bool.false_eq_true, if_false]
    rw [if_neg (fun h => h.1 hl)]
  · simp only [if_true, Int.toNat_natCast, List.take_length]
    rw [if_neg (fun h => h.1 hl)]

end HttpResponse

/-! ## The response: the invariant of the callbacks -/

namespace HttpResponse

theorem midShape_start (cb : Callbacks) : MidShape cb (headersReadyEvents cb) :=
  ⟨[], by simp, by simp⟩

theorem midShape_data {cb : Callbacks} {t : List Event} (h : MidShape cb t) (d : Str) (n : Int) :
    MidShape cb (t ++ [Event.receiveData d n]) := by
  obtain ⟨ds, hds, ht⟩ := h
  refine ⟨ds ++ [Event.receiveData d n], ?_, by rw [ht, List.append_assoc]⟩
  intro e he
  rcases List.mem_append.mp he with he | he
  · exact hds e he
  · rw [List.mem_singleton.mp he]
    rfl

theorem midShape_done {cb : Callbacks} {t : List Event} (h : MidShape cb t) :
    DoneShape cb (t ++ completeEvents cb) := by
  obtain ⟨ds, hds, ht⟩ := h
  exact ⟨ds, hds, by rw [ht]⟩

/-- The states in which a body is being read. -/
theorem expectedTrace_mid (cb : Callbacks) (s : ResponseState) (t : List Event)
    (h : s = .Body ∨ s = .ChunkLength ∨ s = .ChunkComplete ∨ s = .Trailer) :
    expectedTrace cb s t ↔ MidShape cb t := by
  rcases h with h | h | h | h <;> subst h <;> exact Iff.rfl

theorem deliver_request (r : HttpResponse) (data : Str) (n : Int) :
    (deliver r data n)._request = r._request := by
  unfold deliver; split <;> rfl

theorem deliver_state (r : HttpResponse) (data : Str) (n : Int) :
    (deliver r data n)._state = r._state := by
  unfold deliver; split <;> rfl

theorem deliver_shape (cb : Callbacks) (r : HttpResponse) (data : Str) (n : Int)
    (h : MidShape cb r.trace) : MidShape cb (deliver r data n).trace := by
  unfold deliver
  split
  · exact midShape_data h _ _
  · exact h

theorem complete_inv (cb : Callbacks) (r : HttpResponse) (hreq : r._request = cb)
    (h : MidShape cb r.trace) : TraceInv cb (complete r) := by
  refine ⟨hreq, ?_⟩
  show DoneShape cb (complete r).trace
  have := midShape_done h
  unfold complete completeEvents at *
  rw [hreq]
  simp only []
  split
  · rename_i hc
    rw [if_pos hc] at this
    exact this
  · rename_i hc
    rw [if_neg hc, List.append_nil] at this
    exact this

theorem leaves_ok {σ α : Type} {s s1 : σ} {a : α} (h : (Outcome.ok s a).leaves s1) : s1 = s := by
  rcases h with ⟨b, h⟩ | ⟨e, h⟩
  · cases h; rfl
  · exact Outcome.noConfusion h

theorem leaves_thrown {σ α : Type} {s s1 : σ} {e : HttpException}
    (h : (Outcome.thrown e s : Outcome σ α).leaves s1) : s1 = s := by
  rcases h with ⟨b, h⟩ | ⟨e1, h⟩
  · exact Outcome.noConfusion h
  · cases h; rfl

theorem processStatusLine_inv (cb : Callbacks) (r r1 : HttpResponse) (line : Str)
    (hs : r._state = .StatusLine) (hi : TraceInv cb r)
    (h : (processStatusLine r line).leaves r1) : TraceInv cb r1 := by
  obtain ⟨hreq, hsh⟩ := hi
  rw [hs] at hsh
  have ht : r.trace = [] := hsh
  unfold processStatusLine at h
  simp only [] at h
  split at h
  · rw [leaves_thrown h]
    exact ⟨hreq, by show expectedTrace cb r._state r.trace; rw [hs]; exact ht⟩
  · split at h
    · rw [leaves_ok h]
      exact ⟨hreq, ht⟩
    · split at h
      · rw [leaves_ok h]
        exact ⟨hreq, ht⟩
      · rw [leaves_thrown h]
        exact ⟨hreq, by show expectedTrace cb r._state r.trace; rw [hs]; exact ht⟩

theorem processHeader_inv (cb : Callbacks) (r : HttpResponse) (line : Str)
    (hs : r._state = .Header) (hi : TraceInv cb r) : TraceInv cb (processHeader r line) := by
  obtain ⟨hreq, hsh⟩ := hi
  rw [hs] at hsh
  have ht : r.trace = [] := hsh
  unfold processHeader
  by_cases he : line = []
  · rw [if_pos he]
    simp only []
    split
    · exact ⟨by show (addHeader r)._request = cb; rw [addHeader_request]; exact hreq,
        by show (addHeader r).trace = []; rw [addHeader_trace]; exact ht⟩
    · rw [initBody_eq]
      refine ⟨by show (addHeader r)._request = cb; rw [addHeader_request]; exact hreq, ?_⟩
      have hm : MidShape cb (if (addHeader r)._request._headersReady = true
          then (addHeader r).trace ++ [Event.headersReady] else (addHeader r).trace) := by
        rw [addHeader_request, addHeader_trace, ht, hreq]
        exact midShape_start cb
      cases hc : chunkedHeader (addHeader r)
      · exact hm
      · exact hm
  · rw [if_neg he]
    rcases cstr line with _ | ⟨c, rest⟩
    · exact ⟨by show (addHeader r)._request = cb; rw [addHeader_request]; exact hreq,
        by show expectedTrace cb (addHeader r)._state (addHeader r).trace
           rw [addHeader_state, addHeader_trace, hs]; exact ht⟩
    · simp only []
      split
      · exact ⟨hreq, by show expectedTrace cb r._state r.trace; rw [hs]; exact ht⟩
      · exact ⟨by show (addHeader r)._request = cb; rw [addHeader_request]; exact hreq,
          by show expectedTrace cb (addHeader r)._state (addHeader r).trace
             rw [addHeader_state, addHeader_trace, hs]; exact ht⟩

theorem dispatchLine_inv (cb : Callbacks) (r r1 : HttpResponse) (line : Str)
    (hi : TraceInv cb r) (h : (dispatchLine r line).leaves r1) : TraceInv cb r1 := by
  unfold dispatchLine at h
  cases hs : r._state <;> rw [hs] at h <;> simp only [] at h
  · exact processStatusLine_inv cb r r1 line hs hi h
  · rw [leaves_ok h]
    exact processHeader_inv cb r line hs hi
  · rw [leaves_ok h]
    exact hi
  · rw [leaves_ok h]
    obtain ⟨hreq, hsh⟩ := hi
    rw [hs] at hsh
    unfold processChunkLength
    simp only []
    split
    · exact ⟨hreq, hsh⟩
    · exact ⟨hreq, hsh⟩
  · rw [leaves_ok h]
    obtain ⟨hreq, hsh⟩ := hi
    rw [hs] at hsh
    exact ⟨hreq, hsh⟩
  · rw [leaves_ok h]
    obtain ⟨hreq, hsh⟩ := hi
    rw [hs] at hsh
    exact complete_inv cb r hreq hsh
  · rw [leaves_ok h]
    exact hi

theorem lineLoop_inv (cb : Callbacks) (r r1 : HttpResponse) (hi : TraceInv cb r) :
    ∀ (data sl : Str) (n : Nat), (lineLoop r data sl n).leaves r1 → TraceInv cb r1 := by
  intro data
  induction data with
  | nil =>
    intro sl n h
    rw [lineLoop] at h
    rw [leaves_ok h]
    exact hi
  | cons c rest ih =>
    intro sl n h
    rw [lineLoop] at h
    split at h
    · exact ih _ _ h
    · cases hd : dispatchLine r sl with
      | ok r2 u =>
        rw [hd] at h
        simp only [] at h
        rw [leaves_ok h]
        exact dispatchLine_inv cb r r2 sl hi (by rw [hd]; exact Or.inl ⟨u, rfl⟩)
      | thrown e r2 =>
        rw [hd] at h
        simp only [] at h
        rw [leaves_thrown h]
        exact dispatchLine_inv cb r r2 sl hi (by rw [hd]; exact Or.inr ⟨e, rfl⟩)
      | aborted =>
        rw [hd] at h
        rcases h with ⟨a, h⟩ | ⟨e, h⟩ <;> exact Outcome.noConfusion h
      | undefined =>
        rw [hd] at h
        rcases h with ⟨a, h⟩ | ⟨e, h⟩ <;> exact Outcome.noConfusion h

theorem processData_inv (cb : Callbacks) (r : HttpResponse) (data : Str) (n : Int)
    (hs : r._state = .Body) (hi : TraceInv cb r) : TraceInv cb (processData r data n).1 := by
  obtain ⟨hreq, hsh⟩ := hi
  rw [hs] at hsh
  have hm : MidShape cb r.trace := hsh
  unfold processData
  simp only []
  generalize (if r._contentLength ≠ -1 ∧ n > r._contentLength - r._bytesRead
    then r._contentLength - r._bytesRead else n) = bp
  have hq : (deliver r data bp)._request = cb := by rw [deliver_request]; exact hreq
  have hd := deliver_shape cb r data bp hm
  split
  · exact complete_inv cb _ hq hd
  · refine ⟨hq, ?_⟩
    show expectedTrace cb (deliver r data bp)._state (deliver r data bp).trace
    rw [deliver_state, hs]
    exact hd

theorem processChunkedData_inv (cb : Callbacks) (r : HttpResponse) (data : Str) (n : Int)
    (hs : r._state = .Body) (hi : TraceInv cb r) :
    TraceInv cb (processChunkedData r data n).1 := by
  obtain ⟨hreq, hsh⟩ := hi
  rw [hs] at hsh
  have hm : MidShape cb r.trace := hsh
  unfold processChunkedData
  simp only []
  generalize (if n > r._chunkLength then r._chunkLength else n) = bp
  have hq : (deliver r data bp)._request = cb := by rw [deliver_request]; exact hreq
  have hd := deliver_shape cb r data bp hm
  split
  · exact ⟨hq, hd⟩
  · refine ⟨hq, ?_⟩
    show expectedTrace cb (deliver r data bp)._state (deliver r data bp).trace
    rw [deliver_state, hs]
    exact hd

/-- The main loop keeps the invariant of the callbacks, on return and on a
`throw`. -/
theorem mainLoop_inv (cb : Callbacks) (buf : Str) :
    ∀ (fuel : Nat) (r : HttpResponse) (pos : Int) (sl : Str) (o : Outcome HttpResponse Int)
      (r1 : HttpResponse), TraceInv cb r → mainLoop buf fuel r pos sl = some o →
      o.leaves r1 → TraceInv cb r1 := by
  intro fuel
  induction fuel with
  | zero =>
    intro r pos sl o r1 _ h
    rw [mainLoop] at h
    exact Option.noConfusion h
  | succ fuel ih =>
    intro r pos sl o r1 hi h hl
    rw [mainLoop] at h
    simp only [] at h
    split at h
    · split at h
      · cases h
        rcases hl with ⟨a, h⟩ | ⟨e, h⟩ <;> exact Outcome.noConfusion h
      · split at h
        · cases hd : lineLoop r (buf.drop pos.toNat) sl 0 with
          | ok r2 u =>
            rw [hd] at h
            simp only [] at h
            exact ih r2 _ _ o r1
              (lineLoop_inv cb r r2 hi _ _ _ (by rw [hd]; exact Or.inl ⟨u, rfl⟩)) h hl
          | thrown e r2 =>
            rw [hd] at h
            simp only [] at h
            cases h
            rw [leaves_thrown hl]
            exact lineLoop_inv cb r r2 hi _ _ _ (by rw [hd]; exact Or.inr ⟨e, rfl⟩)
          | aborted =>
            rw [hd] at h
            simp only [] at h
            cases h
            rcases hl with ⟨a, h⟩ | ⟨e, h⟩ <;> exact Outcome.noConfusion h
          | undefined =>
            rw [hd] at h
            simp only [] at h
            cases h
            rcases hl with ⟨a, h⟩ | ⟨e, h⟩ <;> exact Outcome.noConfusion h
        · split at h
          · rename_i hs
            refine ih _ _ _ o r1 ?_ h hl
            split
            · exact processChunkedData_inv cb r _ _ hs hi
            · exact processData_inv cb r _ _ hs hi
          · exact ih r pos sl o r1 hi h hl
    · cases h
      rw [leaves_ok hl]
      exact hi

theorem connectionClosed_inv (cb : Callbacks) (r r1 : HttpResponse) (hi : TraceInv cb r)
    (h : (connectionClosed r).leaves r1) : TraceInv cb r1 := by
  unfold connectionClosed at h
  split at h
  · rw [leaves_ok h]
    exact hi
  · split at h
    · rename_i hb
      rw [leaves_ok h]
      obtain ⟨hreq, hsh⟩ := hi
      rw [hb.1] at hsh
      exact complete_inv cb r hreq hsh
    · rw [leaves_thrown h]
      exact hi

/-- Every sequence of calls keeps the invariant of the callbacks. -/
theorem runCalls_inv (cb : Callbacks) (fuel : Nat) :
    ∀ (calls : List Call) (r r1 : HttpResponse), TraceInv cb r →
      runCalls fuel calls r = some r1 → TraceInv cb r1 := by
  intro calls
  induction calls with
  | nil =>
    intro r r1 hi h
    rw [runCalls] at h
    cases h
    exact hi
  | cons call calls ih =>
    intro r r1 hi h
    cases call with
    | processResponse data =>
      rw [runCalls] at h
      cases hp : processResponse fuel r data with
      | none =>
        rw [hp] at h
        exact Option.noConfusion h
      | some o =>
        rw [hp] at h
        unfold processResponse at hp
        cases o with
        | ok r2 n =>
          simp only [] at h
          exact ih r2 r1 (mainLoop_inv cb data fuel r 0 [] _ r2 hi hp (Or.inl ⟨n, rfl⟩)) h
        | thrown e r2 =>
          simp only [] at h
          rw [← Option.some.inj h]
          exact mainLoop_inv cb data fuel r 0 [] _ r2 hi hp (Or.inr ⟨e, rfl⟩)
        | aborted => exact Option.noConfusion h
        | undefined => exact Option.noConfusion h
    | connectionClosed =>
      rw [runCalls] at h
      cases hp : connectionClosed r with
      | ok r2 u =>
        rw [hp] at h
        simp only [] at h
        exact ih r2 r1 (connectionClosed_inv cb r r2 hi (by rw [hp]; exact Or.inl ⟨u, rfl⟩)) h
      | thrown e r2 =>
        rw [hp] at h
        simp only [] at h
        rw [← Option.some.inj h]
        exact connectionClosed_inv cb r r2 hi (by rw [hp]; exact Or.inr ⟨e, rfl⟩)
      | aborted =>
        rw [hp] at h
        exact Option.noConfusion h
      | undefined =>
        rw [hp] at h
        exact Option.noConfusion h

end HttpResponse

/-! ## The main loop of `processResponse` -/

namespace HttpResponse

theorem Cursor.start (buf : Str) : Cursor buf 0 buf := ⟨[], rfl, rfl⟩

theorem Cursor.advance {buf : Str} {pos : Int} {xs ys : Str} (h : Cursor buf pos (xs ++ ys))
    (k : Int) (hk : k = xs.length) : Cursor buf (pos + k) ys := by
  obtain ⟨pre, hb, hp⟩ := h
  exact ⟨pre ++ xs, by rw [hb, List.append_assoc], by rw [hp, hk, List.length_append]; push_cast; rfl⟩

theorem Cursor.next_line {buf : Str} {pos : Int} {line rest : Str}
    (h : Cursor buf pos (line ++ '\n' :: rest)) :
    Cursor buf (pos + ((line.length + 1 : Nat) : Int)) rest := by
  have h2 : Cursor buf pos ((line ++ ['\n']) ++ rest) := by
    rw [List.append_assoc]
    exact h
  exact h2.advance _ (by simp)

theorem Cursor.nonneg {buf : Str} {pos : Int} {rest : Str} (h : Cursor buf pos rest) :
    ¬ pos < 0 := by
  obtain ⟨pre, _, hp⟩ := h
  omega

theorem Cursor.byteCount {buf : Str} {pos : Int} {rest : Str} (h : Cursor buf pos rest) :
    (buf.length : Int) - pos = rest.length := by
  obtain ⟨pre, hb, hp⟩ := h
  rw [hb, hp, List.length_append]
  push_cast
  omega

theorem Cursor.drop {buf : Str} {pos : Int} {rest : Str} (h : Cursor buf pos rest) :
    buf.drop pos.toNat = rest := by
  obtain ⟨pre, hb, hp⟩ := h
  rw [hb, hp, Int.toNat_natCast, List.drop_left]

theorem Cursor.end_eq {buf : Str} {pos : Int} (h : Cursor buf pos []) : pos = buf.length := by
  have := h.byteCount
  simp only [List.length_nil, Nat.cast_zero] at this
  omega

theorem lineLoop_line (r : HttpResponse) (line rest : Str) (h : '\n' ∉ line) :
    ∀ (sl : Str) (n : Nat), lineLoop r (line ++ '\n' :: rest) sl n =
      match dispatchLine r (sl ++ line.filter (fun c => c != '\r')) with
      | .ok r1 _ => .ok r1 ([], n + line.length + 1)
      | .thrown e r1 => .thrown e r1
      | .aborted => .aborted
      | .undefined => .undefined := by
  induction line with
  | nil =>
    intro sl n
    simp [lineLoop]
  | cons c t ih =>
    intro sl n
    have hc : c ≠ '\n' := fun e => h (e ▸ List.mem_cons_self _ _)
    have ht : '\n' ∉ t := fun e => h (List.mem_cons_of_mem _ e)
    rw [List.cons_append, lineLoop, if_pos hc, ih ht]
    by_cases hr : c = '\r'
    · subst hr
      simp only [ne_eq, not_true_eq_false, if_false, List.length_cons]
      have : List.filter (fun c => c != '\r') ('\r' :: t) = List.filter (fun c => c != '\r') t := by
        simp
      rw [this]
      have e : n + 1 + t.length + 1 = n + (t.length + 1) + 1 := by omega
      rw [e]
    · have : List.filter (fun c => c != '\r') (c :: t) = c :: List.filter (fun c => c != '\r') t := by
        simp [hr]
      rw [this, if_pos hr]
      simp only [List.append_assoc, List.singleton_append, List.length_cons]
      have e : n + 1 + t.length + 1 = n + (t.length + 1) + 1 := by omega
      rw [e]

theorem lineLoop_no_newline (r : HttpResponse) (line : Str) (h : '\n' ∉ line) :
    ∀ (sl : Str) (n : Nat), lineLoop r line sl n =
      .ok r (sl ++ line.filter (fun c => c != '\r'), n + line.length) := by
  induction line with
  | nil => intro sl n; simp [lineLoop]
  | cons c t ih =>
    intro sl n
    have hc : c ≠ '\n' := fun e => h (e ▸ List.mem_cons_self _ _)
    have ht : '\n' ∉ t := fun e => h (List.mem_cons_of_mem _ e)
    rw [lineLoop, if_pos hc, ih ht]
    by_cases hr : c = '\r'
    · subst hr
      simp only [ne_eq, not_true_eq_false, if_false, List.length_cons]
      have : List.filter (fun c => c != '\r') ('\r' :: t) = List.filter (fun c => c != '\r') t := by
        simp
      rw [this]
      have e : n + 1 + t.length = n + (t.length + 1) := by omega
      rw [e]
    · have : List.filter (fun c => c != '\r') (c :: t) = c :: List.filter (fun c => c != '\r') t := by
        simp [hr]
      rw [this, if_pos hr]
      simp only [List.append_assoc, List.singleton_append, List.length_cons]
      have e : n + 1 + t.length = n + (t.length + 1) := by omega
      rw [e]

theorem isLineState_ne_complete {s : ResponseState} (h : isLineState s = true) :
    s ≠ .Complete := by
  intro e; subst e; exact absurd h (by decide)

/-- One turn of the main loop in a line state, over a whole line. -/
theorem mainLoop_line (buf : Str) (fuel : Nat) (r r1 : HttpResponse) (pos : Int)
    (line rest : Str) (hstate : isLineState r._state = true)
    (hcur : Cursor buf pos (line ++ '\n' :: rest)) (hline : '\n' ∉ line)
    (hd : dispatchLine r (line.filter (fun c => c != '\r')) = .ok r1 ()) :
    mainLoop buf (fuel + 1) r pos [] = mainLoop buf fuel r1 (pos + ((line.length + 1 : Nat) : Int)) [] := by
  have hbc := hcur.byteCount
  have hpos : (buf.length : Int) - pos > 0 := by
    rw [hbc, List.length_append, List.length_cons]; omega
  rw [mainLoop]
  simp only []
  rw [if_pos ⟨hpos, isLineState_ne_complete hstate⟩, if_neg hcur.nonneg, if_pos hstate,
    hcur.drop, lineLoop_line r line rest hline]
  simp only [List.nil_append, hd, Nat.zero_add]

/-- One turn of the main loop in state `Body`. -/
theorem mainLoop_body (buf : Str) (fuel : Nat) (r : HttpResponse) (pos : Int) (rest sl : Str)
    (hstate : r._state = .Body) (hcur : Cursor buf pos rest) (hne : rest ≠ []) :
    mainLoop buf (fuel + 1) r pos sl =
      mainLoop buf fuel
        (if r._chunked then processChunkedData r rest rest.length
          else processData r rest rest.length).1
        (pos + (if r._chunked then processChunkedData r rest rest.length
          else processData r rest rest.length).2) sl := by
  have hbc := hcur.byteCount
  have hpos : (buf.length : Int) - pos > 0 := by
    rw [hbc]
    have := List.length_pos.mpr hne
    omega
  rw [mainLoop]
  simp only []
  rw [if_pos ⟨hpos, by rw [hstate]; decide⟩, if_neg hcur.nonneg,
    if_neg (by rw [hstate]; decide), if_pos hstate, hcur.drop, hbc]

/-- The main loop ends when the response is complete. -/
theorem mainLoop_complete (buf : Str) (fuel : Nat) (r : HttpResponse) (pos : Int) (sl : Str)
    (hstate : r._state = .Complete) :
    mainLoop buf (fuel + 1) r pos sl = some (.ok r pos) := by
  rw [mainLoop]
  simp only []
  rw [if_neg (fun h => h.2 hstate)]

/-- The main loop ends when the bytes are used up. -/
theorem mainLoop_end (buf : Str) (fuel : Nat) (r : HttpResponse) (pos : Int) (sl : Str)
    (hcur : Cursor buf pos []) :
    mainLoop buf (fuel + 1) r pos sl = some (.ok r pos) := by
  have hbc := hcur.byteCount
  rw [mainLoop]
  simp only []
  rw [if_neg (fun h => by have := h.1; rw [hbc] at this; simp at this)]

theorem hex_plain (n : Nat) : hex n ≠ [] ∧ '\n' ∉ hex n ∧ '\r' ∉ hex n := by
  obtain ⟨hne, hchars, _⟩ := toDigits_spec 16 (by omega) (by omega) digitOf_digitChar_16 n
  refine ⟨hne, ?_, ?_⟩
  · intro h
    exact (hexChars_plain _ (hchars _ h)).2.2.2.2.2.2.1 rfl
  · intro h
    exact (hexChars_plain _ (hchars _ h)).2.2.2.2.2.2.2.1 rfl

theorem filter_cr_of_not_mem {s : Str} (h : '\r' ∉ s) :
    s.filter (fun c => c != '\r') = s := by
  rw [List.filter_eq_self]
  intro c hc
  simp only [bne_iff_ne, ne_eq]
  intro e
  exact h (e ▸ hc)

/-- The data handler on a whole chunk that is followed by more bytes. -/
theorem processChunkedData_whole (r : HttpResponse) (d rest : Str) (byteCount : Int)
    (hlen : r._chunkLength = d.length) (hbc : byteCount > d.length)
    (hcb : r._request._receiveData = true) :
    processChunkedData r (d ++ rest) byteCount =
      ({ r with trace := r.trace ++ [Event.receiveData d d.length],
                _bytesRead := r._bytesRead + d.length,
                _chunkLength := 0, _state := .ChunkComplete }, (d.length : Int)) := by
  have hbp : (if byteCount > r._chunkLength then r._chunkLength else byteCount) = d.length := by
    rw [hlen, if_pos hbc]
  unfold processChunkedData
  simp only [hbp]
  unfold deliver
  simp only [hcb, if_true, Int.toNat_natCast, List.take_left', hlen, sub_self]

/-- The three turns of the main loop that read one chunk. -/
theorem mainLoop_chunk (buf : Str) (fuel : Nat) (r : HttpResponse) (pos : Int) (c rest : Str)
    (hstate : r._state = .ChunkLength) (hchunked : r._chunked = true)
    (hcb : r._request._receiveData = true)
    (hne : c ≠ []) (hlen : c.length < 2147483648)
    (hcur : Cursor buf pos (encodeChunk c ++ rest)) :
    mainLoop buf (fuel + 3) r pos [] =
      mainLoop buf fuel
        { r with _chunkLength := 0, _bytesRead := r._bytesRead + c.length,
                 trace := r.trace ++ [Event.receiveData c c.length] }
        (pos + (encodeChunk c).length) [] := by
  obtain ⟨hhne, hhn, hhr⟩ := hex_plain c.length
  have hcpos : 0 < c.length := List.length_pos.mpr hne
  -- the chunk-size line
  have e1 : encodeChunk c ++ rest =
      (hex c.length ++ ['\r']) ++ '\n' :: (c ++ ('\r' :: '\n' :: rest)) := by
    simp [encodeChunk, CRLF]
  rw [e1] at hcur
  have hl1 : '\n' ∉ hex c.length ++ ['\r'] := by
    simp only [List.mem_append, List.mem_singleton, not_or]
    exact ⟨hhn, by decide⟩
  have hf1 : (hex c.length ++ ['\r']).filter (fun c => c != '\r') = hex c.length := by
    rw [List.filter_append, filter_cr_of_not_mem hhr]
    simp
  obtain ⟨r1, hr1⟩ : ∃ r1 : HttpResponse, r1 =
      { r with _chunkLength := c.length, _state := .Body } := ⟨_, rfl⟩
  have hd1 : dispatchLine r ((hex c.length ++ ['\r']).filter (fun c => c != '\r')) =
      .ok r1 () := by
    rw [hf1, hr1]
    unfold dispatchLine
    rw [hstate]
    simp only [processChunkLength, strtol_hex c.length hlen]
    rw [if_neg (by omega)]
  rw [mainLoop_line buf (fuel + 2) r r1 pos _ _ (by rw [hstate]; decide) hcur hl1 hd1]
  have hcur2 := hcur.next_line
  -- the bytes of the chunk
  have h1s : r1._state = .Body := by rw [hr1]
  have h1c : r1._chunked = true := by rw [hr1]; exact hchunked
  have h1l : r1._chunkLength = c.length := by rw [hr1]
  have h1cb : r1._request._receiveData = true := by rw [hr1]; exact hcb
  obtain ⟨r2, hr2⟩ : ∃ r2 : HttpResponse, r2 =
      { r1 with trace := r1.trace ++ [Event.receiveData c c.length],
                _bytesRead := r1._bytesRead + c.length,
                _chunkLength := 0, _state := .ChunkComplete } := ⟨_, rfl⟩
  have hp : processChunkedData r1 (c ++ '\r' :: '\n' :: rest)
      ((c ++ '\r' :: '\n' :: rest).length : Nat) = (r2, (c.length : Int)) := by
    rw [hr2]
    exact processChunkedData_whole r1 c _ _ h1l
      (by rw [List.length_append, List.length_cons, List.length_cons]; push_cast; omega) h1cb
  rw [mainLoop_body buf (fuel + 1) r1 _ _ [] h1s hcur2 (by simp)]
  simp only [h1c, if_true, hp]
  have hcur3 := hcur2.advance (c.length : Int) rfl
  -- the line that ends the chunk
  have hcur3b : Cursor buf (pos + ((((hex c.length ++ ['\r']).length + 1 : Nat)) : Int) + c.length)
      (['\r'] ++ '\n' :: rest) := hcur3
  obtain ⟨r3, hr3⟩ : ∃ r3 : HttpResponse, r3 =
      { r with _chunkLength := 0, _bytesRead := r._bytesRead + c.length,
               trace := r.trace ++ [Event.receiveData c c.length] } := ⟨_, rfl⟩
  have h2s : isLineState r2._state = true := by rw [hr2]; rfl
  have hd3 : dispatchLine r2 (['\r'].filter (fun c => c != '\r')) = .ok r3 () := by
    rw [hr3, hr2, hr1]
    simp [dispatchLine, hstate]
  rw [← hr3, mainLoop_line buf fuel r2 r3 _ ['\r'] rest h2s hcur3b (by decide) hd3]
  congr 1
  simp [encodeChunk, CRLF]
  omega

theorem mainLoop_chunks (buf : Str) (rest : Str) :
    ∀ (chunks : List Str) (fuel : Nat) (r : HttpResponse) (pos : Int),
      r._state = .ChunkLength → r._chunked = true → r._request._receiveData = true →
      (∀ c ∈ chunks, c ≠ [] ∧ c.length < 2147483648) →
      Cursor buf pos ((chunks.map encodeChunk).flatten ++ rest) →
      mainLoop buf (fuel + 3 * chunks.length) r pos [] =
        mainLoop buf fuel (chunks.foldl afterChunk r)
          (pos + ((chunks.map encodeChunk).flatten.length : Nat)) [] := by
  intro chunks
  induction chunks with
  | nil =>
    intro fuel r pos _ _ _ _ _
    simp
  | cons c t ih =>
    intro fuel r pos hs hc hcb hch hcur
    have hc1 := hch c (List.mem_cons_self _ _)
    have hcur1 : Cursor buf pos (encodeChunk c ++ ((t.map encodeChunk).flatten ++ rest)) := by
      simpa [List.append_assoc] using hcur
    have e : fuel + 3 * (c :: t).length = (fuel + 3 * t.length) + 3 := by
      rw [List.length_cons]; omega
    rw [e, mainLoop_chunk buf _ r pos c _ hs hc hcb hc1.1 hc1.2 hcur1]
    have hcur2 := hcur1.advance ((encodeChunk c).length : Int) rfl
    have := ih fuel (afterChunk r c) (pos + (encodeChunk c).length) hs hc hcb
      (fun x hx => hch x (List.mem_cons_of_mem _ hx)) hcur2
    rw [List.foldl_cons]
    unfold afterChunk at this ⊢
    rw [this]
    congr 1
    simp only [List.map_cons, List.flatten_cons, List.length_append]
    push_cast
    omega

theorem foldl_afterChunk (chunks : List Str) :
    ∀ r : HttpResponse, chunks.foldl afterChunk r =
      { r with _chunkLength := if chunks = [] then r._chunkLength else 0,
               _bytesRead := r._bytesRead + ((chunks.map List.length).sum : Nat),
               trace := r.trace ++ chunks.map (fun c => Event.receiveData c c.length) } := by
  induction chunks with
  | nil => intro r; simp
  | cons c t ih =>
    intro r
    rw [List.foldl_cons, ih]
    simp only [afterChunk, List.map_cons, List.sum_cons, List.append_assoc, List.singleton_append,
      reduceCtorEq, if_false]
    congr 1
    · push_cast; omega
    · split <;> rfl

/-- The last turns of the main loop on a chunked body: the zero chunk and the
empty trailer. -/
theorem mainLoop_last_chunk (buf : Str) (fuel : Nat) (r : HttpResponse) (pos : Int)
    (hstate : r._state = .ChunkLength) (hcb : r._request._responseComplete = true)
    (hcur : Cursor buf pos ("0".toList ++ CRLF ++ CRLF)) :
    mainLoop buf (fuel + 3) r pos [] =
      some (.ok { r with _chunkLength := 0, _state := .Complete,
                         trace := r.trace ++ [Event.responseComplete] } (pos + 5)) := by
  obtain ⟨r1, hr1⟩ : ∃ r1 : HttpResponse, r1 =
      { r with _chunkLength := 0, _state := .Trailer } := ⟨_, rfl⟩
  obtain ⟨r2, hr2⟩ : ∃ r2 : HttpResponse, r2 =
      { r with _chunkLength := 0, _state := .Complete,
               trace := r.trace ++ [Event.responseComplete] } := ⟨_, rfl⟩
  have hcur1 : Cursor buf pos (['0', '\r'] ++ '\n' :: (['\r'] ++ '\n' :: [])) := hcur
  have hz : strtol ['0'] 16 = 0 := by decide
  have hd1 : dispatchLine r (['0', '\r'].filter (fun c => c != '\r')) = .ok r1 () := by
    rw [hr1]
    have hf : ['0', '\r'].filter (fun c => c != '\r') = ['0'] := by decide
    rw [hf]
    unfold dispatchLine
    rw [hstate]
    simp only [processChunkLength, hz, if_true]
  rw [mainLoop_line buf (fuel + 2) r r1 pos _ _ (by rw [hstate]; decide) hcur1 (by decide) hd1]
  have hcur2 := hcur1.next_line
  have hd2 : dispatchLine r1 (['\r'].filter (fun c => c != '\r')) = .ok r2 () := by
    rw [hr1, hr2]
    simp [dispatchLine, processTrailer, complete, hcb]
  rw [mainLoop_line buf (fuel + 1) r1 r2 _ _ _ (by rw [hr1]; rfl) hcur2 (by decide) hd2,
    mainLoop_complete buf fuel r2 _ [] (by rw [hr2])]
  congr 2
  simp
  omega

/-- One turn of the main loop over a well-formed header line. -/
theorem mainLoop_header_line (buf : Str) (fuel : Nat) (r : HttpResponse) (pos : Int)
    (method : Str) (cb : Callbacks) (status : Int) (h : Str × Str) (rest : Str)
    (hwf : WellFormedHeader h) (hkey : lower h.1 ≠ transferEncodingKey)
    (hinv : ReadingHeaders r method cb status)
    (hcur : Cursor buf pos (headerLine h ++ rest)) :
    ∃ r1, ReadingHeaders r1 method cb status ∧
      r1._currHeader = h.1 ++ ':' :: ' ' :: cstr (h.2.filter (fun c => c != '\r')) ∧
      mainLoop buf (fuel + 1) r pos [] =
        mainLoop buf fuel r1 (pos + ((headerLine h).length : Nat)) [] := by
  obtain ⟨hne, hname, hval⟩ := hwf
  have hcr : '\r' ∉ h.1 := fun hm => absurd (hname _ hm).2.2 (by decide)
  have hlf : '\n' ∉ h.1 := fun hm => absurd (hname _ hm).2.2 (by decide)
  have e1 : headerLine h ++ rest = (h.1 ++ ": ".toList ++ h.2 ++ ['\r']) ++ '\n' :: rest := by
    simp [headerLine, CRLF]
  rw [e1] at hcur
  have hl : '\n' ∉ h.1 ++ ": ".toList ++ h.2 ++ ['\r'] := by
    simp only [List.mem_append, not_or]
    exact ⟨⟨⟨hlf, by decide⟩, hval⟩, by decide⟩
  have hf : (h.1 ++ ": ".toList ++ h.2 ++ ['\r']).filter (fun c => c != '\r') =
      h.1 ++ ": ".toList ++ h.2.filter (fun c => c != '\r') := by
    rw [List.filter_append, List.filter_append, List.filter_append, filter_cr_of_not_mem hcr]
    simp
  obtain ⟨hinv1, hch⟩ := processHeader_field r method cb status h.1
    (h.2.filter (fun c => c != '\r')) hne hname hkey hinv
  have hd : dispatchLine r ((h.1 ++ ": ".toList ++ h.2 ++ ['\r']).filter (fun c => c != '\r')) =
      .ok (processHeader r (h.1 ++ ": ".toList ++ h.2.filter (fun c => c != '\r'))) () := by
    rw [hf]
    unfold dispatchLine
    rw [hinv.1]
  refine ⟨_, hinv1, hch, ?_⟩
  rw [mainLoop_line buf fuel r _ pos _ rest (by rw [hinv.1]; rfl) hcur hl hd]
  congr 1
  simp [headerLine, CRLF]
  omega

/-- The turns of the main loop over a block of well-formed header lines. -/
theorem mainLoop_header_block (buf : Str) (method : Str) (cb : Callbacks) (status : Int)
    (rest : Str) :
    ∀ (headers : List (Str × Str)) (fuel : Nat) (r : HttpResponse) (pos : Int),
      (∀ h ∈ headers, WellFormedHeader h ∧ lower h.1 ≠ transferEncodingKey) →
      ReadingHeaders r method cb status →
      Cursor buf pos ((headers.map headerLine).flatten ++ rest) →
      ∃ r1, ReadingHeaders r1 method cb status ∧
        mainLoop buf (fuel + headers.length) r pos [] =
          mainLoop buf fuel r1 (pos + ((headers.map headerLine).flatten.length : Nat)) [] := by
  intro headers
  induction headers with
  | nil =>
    intro fuel r pos _ hinv _
    exact ⟨r, hinv, by simp⟩
  | cons h t ih =>
    intro fuel r pos hh hinv hcur
    have hcur1 : Cursor buf pos (headerLine h ++ ((t.map headerLine).flatten ++ rest)) := by
      simpa [List.append_assoc] using hcur
    obtain ⟨hwf, hkey⟩ := hh h (List.mem_cons_self _ _)
    obtain ⟨r1, hinv1, _, hstep⟩ := mainLoop_header_line buf (fuel + t.length) r pos method cb
      status h _ hwf hkey hinv hcur1
    have hcur2 := hcur1.advance (((headerLine h).length : Nat) : Int) rfl
    obtain ⟨r2, hinv2, hrest⟩ := ih fuel r1 _ (fun x hx => hh x (List.mem_cons_of_mem _ hx))
      hinv1 hcur2
    refine ⟨r2, hinv2, ?_⟩
    have e : fuel + (h :: t).length = (fuel + t.length) + 1 := by
      rw [List.length_cons]; omega
    rw [e, hstep, hrest]
    congr 1
    simp only [List.map_cons, List.flatten_cons, List.length_append]
    push_cast
    omega

end HttpResponse

/-! ## The response: what the invariant of the callbacks gives -/

namespace HttpResponse

theorem new_inv (method : Str) (cb : Callbacks) : TraceInv cb (HttpResponse.new method cb) :=
  ⟨rfl, rfl⟩

theorem dropWhile_data (ds tail : List Event) (hds : ∀ e ∈ ds, Event.isData e = true)
    (htail : ∀ e, tail.head? = some e → Event.isData e = false) :
    (ds ++ tail).dropWhile Event.isData = tail := by
  induction ds with
  | nil =>
    cases tail with
    | nil => rfl
    | cons e t =>
      have := htail e rfl
      simp [List.dropWhile, this]
  | cons d ds ih =>
    have hd := hds d (List.mem_cons_self _ _)
    simp only [List.cons_append, List.dropWhile, hd]
    exact ih (fun e he => hds e (List.mem_cons_of_mem _ he))

theorem traceForm_shape (cb : Callbacks) (ds : List Event)
    (hds : ∀ e ∈ ds, Event.isData e = true) (tail : List Event)
    (htail : tail = [] ∨ tail = [Event.responseComplete]) :
    traceForm (headersReadyEvents cb ++ ds ++ tail) = true := by
  have hfin : atMostComplete tail = true := by
    rcases htail with h | h <;> rw [h] <;> rfl
  have hdrop : (ds ++ tail).dropWhile Event.isData = tail := by
    apply dropWhile_data ds tail hds
    rcases htail with h | h <;> rw [h] <;> intro e he
    · exact Option.noConfusion he
    · cases he
      rfl
  unfold traceForm headersReadyEvents
  cases cb._headersReady
  · simp only [Bool.false_eq_true, if_false, List.nil_append]
    have hm : dropHeadersReady (ds ++ tail) = ds ++ tail := by
      cases ds with
      | nil =>
        rcases htail with h | h <;> rw [h] <;> rfl
      | cons d ds =>
        have hd := hds d (List.mem_cons_self _ _)
        cases d with
        | headersReady => exact absurd hd (by decide)
        | receiveData a b => rfl
        | responseComplete => rfl
    rw [hm, hdrop]
    exact hfin
  · simp only [if_true, List.cons_append, List.nil_append, List.append_assoc, dropHeadersReady]
    rw [hdrop]
    exact hfin

theorem inv_traceForm (cb : Callbacks) (r : HttpResponse) (hi : TraceInv cb r) :
    traceForm r.trace = true := by
  obtain ⟨_, hsh⟩ := hi
  have hmid : MidShape cb r.trace → traceForm r.trace = true := by
    rintro ⟨ds, hds, ht⟩
    rw [ht, ← List.append_nil (headersReadyEvents cb ++ ds)]
    exact traceForm_shape cb ds hds [] (Or.inl rfl)
  cases hs : r._state <;> rw [hs] at hsh
  · rw [show r.trace = [] from hsh]; rfl
  · rw [show r.trace = [] from hsh]; rfl
  · exact hmid hsh
  · exact hmid hsh
  · exact hmid hsh
  · exact hmid hsh
  · obtain ⟨ds, hds, ht⟩ := (hsh : DoneShape cb r.trace)
    rw [ht]
    apply traceForm_shape cb ds hds
    unfold completeEvents
    cases cb._responseComplete
    · exact Or.inl rfl
    · exact Or.inr rfl

theorem complete_not_mem_mid (cb : Callbacks) (t : List Event) (h : MidShape cb t) :
    Event.responseComplete ∉ t := by
  obtain ⟨ds, hds, ht⟩ := h
  rw [ht]
  intro hm
  rcases List.mem_append.mp hm with hm | hm
  · unfold headersReadyEvents at hm
    split at hm
    · simp at hm
    · simp at hm
  · exact absurd (hds _ hm) (by decide)

theorem inv_complete_event (cb : Callbacks) (r : HttpResponse) (hi : TraceInv cb r) :
    Event.responseComplete ∈ r.trace ↔ (completed r = true ∧ cb._responseComplete = true) := by
  obtain ⟨_, hsh⟩ := hi
  have hmid : r._state ≠ .Complete → MidShape cb r.trace →
      (Event.responseComplete ∈ r.trace ↔ (completed r = true ∧ cb._responseComplete = true)) := by
    intro hne hm
    constructor
    · intro h
      exact absurd h (complete_not_mem_mid cb _ hm)
    · rintro ⟨h, _⟩
      unfold completed at h
      exact absurd (by simpa using h) hne
  have hearly : r._state ≠ .Complete → r.trace = [] →
      (Event.responseComplete ∈ r.trace ↔ (completed r = true ∧ cb._responseComplete = true)) := by
    intro hne ht
    rw [ht]
    constructor
    · intro h
      simp at h
    · rintro ⟨h, _⟩
      unfold completed at h
      exact absurd (by simpa using h) hne
  cases hs : r._state <;> rw [hs] at hsh
  · exact hearly (by rw [hs]; decide) hsh
  · exact hearly (by rw [hs]; decide) hsh
  · exact hmid (by rw [hs]; decide) hsh
  · exact hmid (by rw [hs]; decide) hsh
  · exact hmid (by rw [hs]; decide) hsh
  · exact hmid (by rw [hs]; decide) hsh
  · obtain ⟨ds, hds, ht⟩ := (hsh : DoneShape cb r.trace)
    have hc : completed r = true := by
      unfold completed
      simp [hs]
    rw [ht]
    unfold completeEvents
    cases hcb : cb._responseComplete
    · simp only [Bool.false_eq_true, if_false, List.append_nil, and_false, iff_false]
      exact complete_not_mem_mid cb _ ⟨ds, hds, rfl⟩
    · simp [hc]

/-- A complete response absorbs every call. -/
theorem runCalls_complete (r : HttpResponse) (h : completed r = true) (call : Call)
    (fuel : Nat) : runCalls (fuel + 1) [call] r = some r := by
  have hs : r._state = .Complete := by
    unfold completed at h
    simpa using h
  cases call with
  | processResponse data =>
    rw [runCalls]
    unfold processResponse
    rw [mainLoop_complete data fuel r 0 [] hs]
    rfl
  | connectionClosed =>
    rw [runCalls]
    unfold connectionClosed
    rw [if_pos hs]
    rfl

end HttpResponse

/-! ## The main loop over whole messages -/

namespace HttpResponse

/-- The turns of the main loop over the status line and the header fields of a
message, on a new response. -/
theorem mainLoop_message_head (buf : Str) (method : Str) (cb : Callbacks) (status : Nat)
    (reason : Str) (headers : List (Str × Str)) (rest : Str) (fuel : Nat)
    (hstatus : 100 ≤ status ∧ status ≤ 999) (hreason : '\n' ∉ reason)
    (hheaders : ∀ h ∈ headers, WellFormedHeader h ∧ lower h.1 ≠ transferEncodingKey)
    (hbuf : buf = messageHead status reason headers ++ rest) :
    ∃ r2, ReadingHeaders r2 (cstr method) cb status ∧
      Cursor buf ((messageHead status reason headers).length : Nat) rest ∧
      mainLoop buf (fuel + headers.length + 1) (HttpResponse.new method cb) 0 [] =
        mainLoop buf fuel r2 ((messageHead status reason headers).length : Nat) [] := by
  obtain ⟨hdne, hdchars⟩ := decimal_plain status
  obtain ⟨R1, hR1⟩ : ∃ R1, R1 = (headers.map headerLine).flatten ++ rest := ⟨_, rfl⟩
  have hmsg : buf =
      ("HTTP/1.1 ".toList ++ decimal status ++ ' ' :: reason ++ ['\r']) ++ '\n' :: R1 := by
    rw [hbuf, hR1]
    simp [messageHead, CRLF]
  have hcur0 : Cursor buf 0
      (("HTTP/1.1 ".toList ++ decimal status ++ ' ' :: reason ++ ['\r']) ++ '\n' :: R1) := by
    rw [← hmsg]
    exact Cursor.start _
  have hl0 : '\n' ∉ "HTTP/1.1 ".toList ++ decimal status ++ ' ' :: reason ++ ['\r'] := by
    simp only [List.mem_append, List.mem_cons, List.mem_singleton, not_or]
    refine ⟨⟨⟨by decide, fun h => (hexChars_plain _ (hdchars _ h)).2.2.2.2.2.2.1 rfl⟩,
      by decide, hreason⟩, by decide⟩
  have hf0 : ("HTTP/1.1 ".toList ++ decimal status ++ ' ' :: reason ++ ['\r']).filter
      (fun c => c != '\r') =
      "HTTP/1.1 ".toList ++ decimal status ++ ' ' :: reason.filter (fun c => c != '\r') := by
    have hd : '\r' ∉ decimal status :=
      fun h => (hexChars_plain _ (hdchars _ h)).2.2.2.2.2.2.2.1 rfl
    have e : "HTTP/1.1 ".toList ++ decimal status ++ ' ' :: reason ++ ['\r'] =
        "HTTP/1.1 ".toList ++ (decimal status ++ ([' '] ++ (reason ++ ['\r']))) := by simp
    rw [e, List.filter_append, List.filter_append, List.filter_append, List.filter_append,
      filter_cr_of_not_mem hd]
    simp
  obtain ⟨r1, hr1, hinv1⟩ := processStatusLine_fresh method cb status
    (reason.filter (fun c => c != '\r')) hstatus
  have hd0 : dispatchLine (HttpResponse.new method cb)
      (("HTTP/1.1 ".toList ++ decimal status ++ ' ' :: reason ++ ['\r']).filter
        (fun c => c != '\r')) = .ok r1 () := by
    rw [hf0, ← hr1]
    rfl
  rw [mainLoop_line buf _ (HttpResponse.new method cb) r1 0 _ R1 rfl hcur0 hl0 hd0]
  have hcur1 := hcur0.next_line
  rw [hR1] at hcur1
  obtain ⟨r2, hinv2, hstep2⟩ := mainLoop_header_block buf (cstr method) cb status _ headers
    fuel r1 _ hheaders hinv1 hcur1
  have hcur2 := hcur1.advance _ rfl
  have hlen : (0 : Int) +
      (("HTTP/1.1 ".toList ++ decimal status ++ ' ' :: reason ++ ['\r']).length + 1 : Nat) +
      ((headers.map headerLine).flatten.length : Nat) =
      ((messageHead status reason headers).length : Nat) := by
    simp only [messageHead, CRLF, List.length_append, List.length_cons, List.length_nil,
      String.toList]
    push_cast
    simp
    omega
  rw [hlen] at hstep2 hcur2
  exact ⟨r2, hinv2, hcur2, hstep2⟩

end HttpResponse

namespace HttpResponse

/-- The data handler on a whole body that is followed by more bytes. -/
theorem processData_front (r : HttpResponse) (body rest : Str)
    (hlen : r._contentLength = body.length) (hpos : 0 < body.length) (hread : r._bytesRead = 0)
    (hcb1 : r._request._receiveData = true) (hcb2 : r._request._responseComplete = true) :
    processData r (body ++ rest) ((body ++ rest).length : Nat) =
      ({ r with trace := r.trace ++ [Event.receiveData body body.length,
                  Event.responseComplete],
                _bytesRead := body.length, _state := .Complete }, (body.length : Int)) := by
  have hbp : (if r._contentLength ≠ -1 ∧
      (((body ++ rest).length : Nat) : Int) > r._contentLength - r._bytesRead
      then r._contentLength - r._bytesRead else (((body ++ rest).length : Nat) : Int)) =
      body.length := by
    rw [hlen, hread, List.length_append]
    push_cast
    split <;> omega
  unfold processData
  simp only [hbp]
  unfold deliver
  simp only [hcb1, if_true, Int.toNat_natCast, List.take_left', hread, zero_add, hlen]
  rw [if_pos ⟨by omega, trivial⟩]
  unfold complete
  simp [hcb2]

/-- The turns of the main loop over the `Content-Length` field, the blank line
and the body, with more bytes after the body. -/
theorem mainLoop_sized_tail (buf : Str) (fuel : Nat) (r2 : HttpResponse) (pos : Int)
    (method : Str) (cb : Callbacks) (status : Nat) (body rest : Str)
    (hmethod : method ≠ "HEAD".toList)
    (hcb : cb._headersReady = true ∧ cb._receiveData = true ∧ cb._responseComplete = true)
    (hstatus : 200 ≤ status ∧ status ≠ 204 ∧ status ≠ 304)
    (hbody : 1 ≤ body.length ∧ body.length < 2147483648)
    (hinv2 : ReadingHeaders r2 method cb status)
    (hcur2 : Cursor buf pos (sizedTail body ++ rest)) :
    ∃ r, mainLoop buf (fuel + 4) r2 pos [] =
        some (.ok r (pos + ((sizedTail body).length : Nat))) ∧
      r.trace = [Event.headersReady, Event.receiveData body body.length,
        Event.responseComplete] ∧
      r._state = .Complete ∧ r._bytesRead = body.length := by
  obtain ⟨hnne, hnchars⟩ := decimal_plain body.length
  have hblen := hbody.2
  have hname : "Content-Length".toList ≠ [] ∧
      (∀ c ∈ "Content-Length".toList, c ≠ ':' ∧ c ≠ NUL ∧ isspace c = false) ∧
      lower "Content-Length".toList ≠ transferEncodingKey := by decide
  have hwf : WellFormedHeader ("Content-Length".toList, decimal body.length) :=
    ⟨hname.1, hname.2.1, fun h => (hexChars_plain _ (hnchars _ h)).2.2.2.2.2.2.1 rfl⟩
  have hcur2a : Cursor buf pos (headerLine ("Content-Length".toList, decimal body.length) ++
      (CRLF ++ (body ++ rest))) := by
    simpa [sizedTail, List.append_assoc] using hcur2
  obtain ⟨r3, hinv3, hch3, hstep3⟩ := mainLoop_header_line buf (fuel + 3) r2 _ method cb
    status ("Content-Length".toList, decimal body.length) (CRLF ++ (body ++ rest)) hwf hname.2.2
    hinv2 hcur2a
  rw [hstep3]
  have hcur3 := hcur2a.advance _ rfl
  have hcur3b : Cursor buf _ (['\r'] ++ '\n' :: (body ++ rest)) := hcur3
  obtain ⟨h3s, h3m, h3q, h3st, h3t, h3b, h3te, h3p⟩ := hinv3
  have hdcr : '\r' ∉ decimal body.length :=
    fun h => (hexChars_plain _ (hnchars _ h)).2.2.2.2.2.2.2.1 rfl
  have hdnul : IsCString (decimal body.length) :=
    fun h => (hexChars_plain _ (hnchars _ h)).1 rfl
  have hch3b : r3._currHeader = "Content-Length".toList ++ ':' :: (' ' :: decimal body.length) := by
    rw [hch3]
    simp only [filter_cr_of_not_mem hdcr, cstr_of_isCString hdnul]
  have hdw : (' ' :: decimal body.length).dropWhile (fun c => c == '\t' || c == ' ') =
      decimal body.length := by
    obtain ⟨c, t, hct⟩ := List.exists_cons_of_ne_nil hnne
    have hc := hexChars_plain c (hnchars c (by rw [hct]; exact List.mem_cons_self _ _))
    have hcs : isspace c = false := hc.2.1
    have hb : (c == '\t' || c == ' ') = false := by
      have h1 : c ≠ ' ' := hc.2.2.2.2.2.2.2.2.1
      have h2 : c ≠ '\t' := by
        intro e; rw [e] at hcs; exact absurd hcs (by decide)
      simp [h1, h2]
    rw [hct]
    simp [List.dropWhile, hb]
  have hah : (addHeader r3)._headers =
      mapInsert r3._headers "content-length".toList (decimal body.length) := by
    rw [addHeader_pair r3 "Content-Length".toList (' ' :: decimal body.length) (by decide)
      (by unfold IsCString; decide)
      (isCString_append (a := [' ']) (by unfold IsCString; decide) hdnul) hch3b, hdw]
    rfl
  have hnb : ¬ hasNoBody (addHeader r3) := by
    unfold hasNoBody
    rw [addHeader_status, addHeader_method, h3st, h3m]
    simp only [NoContent, NotModified]
    rintro (h | h | h | h)
    · omega
    · omega
    · omega
    · exact hmethod h
  have hlen : atoi (decimal body.length) ≠ -1 := by
    rw [atoi_decimal _ hblen]; omega
  have hib := initBody_content_length (addHeader r3) (decimal body.length)
    (addHeader_keeps_out r3 h3te h3p) (by rw [hah]; exact mapFind_mapInsert _ _ _) hdnul hnb
    (by rw [addHeader_request, h3q]; exact hcb.1) hlen
  obtain ⟨r4, hr4⟩ : ∃ r4, r4 = initBody (addHeader r3) := ⟨_, rfl⟩
  have hd3 : dispatchLine r3 (['\r'].filter (fun c => c != '\r')) = .ok r4 () := by
    have hf : ['\r'].filter (fun c => c != '\r') = [] := by decide
    rw [hf, hr4]
    unfold dispatchLine
    rw [h3s]
    unfold processHeader
    simp only [if_true]
    rw [if_neg (by rw [addHeader_status, h3st]; unfold Continue; omega)]
  rw [mainLoop_line buf (fuel + 2) r3 r4 _ _ (body ++ rest) (by rw [h3s]; rfl) hcur3b
    (by decide) hd3]
  have hcur4 := hcur3b.next_line
  have h4s : r4._state = .Body := by rw [hr4, hib]
  have h4c : r4._chunked = false := by rw [hr4, hib]
  have h4l : r4._contentLength = body.length := by
    rw [hr4, hib]; exact atoi_decimal _ hblen
  have h4t : r4.trace = [Event.headersReady] := by
    rw [hr4, hib]
    show (addHeader r3).trace ++ [Event.headersReady] = [Event.headersReady]
    rw [addHeader_trace, h3t]
    rfl
  have h4b : r4._bytesRead = 0 := by
    rw [hr4, hib]
    show (addHeader r3)._bytesRead = 0
    rw [addHeader_bytesRead, h3b]
  have h4q : r4._request = cb := by
    rw [hr4, hib]
    show (addHeader r3)._request = cb
    rw [addHeader_request, h3q]
  have hbne : body ++ rest ≠ [] := by
    intro e
    have hb1 := hbody.1
    have := congrArg List.length e
    rw [List.length_append, List.length_nil] at this
    omega
  rw [mainLoop_body buf (fuel + 1) r4 _ (body ++ rest) [] h4s hcur4 hbne]
  simp only [h4c, Bool.false_eq_true, if_false]
  rw [processData_front r4 body rest h4l (by omega) h4b (by rw [h4q]; exact hcb.2.1)
    (by rw [h4q]; exact hcb.2.2)]
  simp only []
  rw [mainLoop_complete buf fuel _ _ [] rfl]
  refine ⟨{ r4 with trace := r4.trace ++ [Event.receiveData body body.length,
                      Event.responseComplete],
                    _bytesRead := body.length, _state := .Complete }, ?_,
    by simp [h4t], rfl, rfl⟩
  congr 2
  simp only [sizedTail, headerLine, CRLF, List.length_append, List.length_cons, List.length_nil]
  push_cast
  omega

end HttpResponse

namespace HttpResponse

/-- The last turns of the main loop on a chunked body, with more bytes after
the empty trailer: the zero chunk and the trailer line. -/
theorem mainLoop_last_chunk_rest (buf : Str) (fuel : Nat) (r : HttpResponse) (pos : Int)
    (rest : Str)
    (hstate : r._state = .ChunkLength) (hcb : r._request._responseComplete = true)
    (hcur : Cursor buf pos ("0".toList ++ CRLF ++ CRLF ++ rest)) :
    mainLoop buf (fuel + 3) r pos [] =
      some (.ok { r with _chunkLength := 0, _state := .Complete,
                         trace := r.trace ++ [Event.responseComplete] } (pos + 5)) := by
  obtain ⟨r1, hr1⟩ : ∃ r1 : HttpResponse, r1 =
      { r with _chunkLength := 0, _state := .Trailer } := ⟨_, rfl⟩
  obtain ⟨r2, hr2⟩ : ∃ r2 : HttpResponse, r2 =
      { r with _chunkLength := 0, _state := .Complete,
               trace := r.trace ++ [Event.responseComplete] } := ⟨_, rfl⟩
  have hcur1 : Cursor buf pos (['0', '\r'] ++ '\n' :: (['\r'] ++ '\n' :: rest)) := hcur
  have hz : strtol ['0'] 16 = 0 := by decide
  have hd1 : dispatchLine r (['0', '\r'].filter (fun c => c != '\r')) = .ok r1 () := by
    rw [hr1]
    have hf : ['0', '\r'].filter (fun c => c != '\r') = ['0'] := by decide
    rw [hf]
    unfold dispatchLine
    rw [hstate]
    simp only [processChunkLength, hz, if_true]
  rw [mainLoop_line buf (fuel + 2) r r1 pos _ _ (by rw [hstate]; decide) hcur1 (by decide) hd1]
  have hcur2 := hcur1.next_line
  have hd2 : dispatchLine r1 (['\r'].filter (fun c => c != '\r')) = .ok r2 () := by
    rw [hr1, hr2]
    simp [dispatchLine, processTrailer, complete, hcb]
  rw [mainLoop_line buf (fuel + 1) r1 r2 _ _ _ (by rw [hr1]; rfl) hcur2 (by decide) hd2,
    mainLoop_complete buf fuel r2 _ [] (by rw [hr2])]
  congr 2
  simp
  omega

/-- The turns of the main loop over the `Transfer-Encoding: chunked` field, the
blank line and the chunks, with more bytes after the empty trailer. -/
theorem mainLoop_chunked_tail (buf : Str) (fuel : Nat) (r2 : HttpResponse) (pos : Int)
    (method : Str) (cb : Callbacks) (status : Nat) (chunks : List Str) (rest : Str)
    (hcb : cb._headersReady = true ∧ cb._receiveData = true ∧ cb._responseComplete = true)
    (hstatus : 200 ≤ status)
    (hchunks : ∀ c ∈ chunks, c ≠ [] ∧ c.length < 2147483648)
    (hinv2 : ReadingHeaders r2 method cb status)
    (hcur2 : Cursor buf pos (chunkedTail chunks ++ rest)) :
    ∃ r, mainLoop buf (fuel + 3 + 3 * chunks.length + 2) r2 pos [] =
        some (.ok r (pos + ((chunkedTail chunks).length : Nat))) ∧
      r.trace = [Event.headersReady] ++ chunks.map (fun c => Event.receiveData c c.length) ++
        [Event.responseComplete] ∧
      r._state = .Complete ∧ r._bytesRead = ((chunks.map List.length).sum : Nat) := by
  obtain ⟨h2s, h2m, h2q, h2st, h2t, h2b, h2te, h2p⟩ := hinv2
  obtain ⟨T, hT⟩ : ∃ T, T = (chunks.map encodeChunk).flatten ++
      ("0".toList ++ CRLF ++ CRLF ++ rest) := ⟨_, rfl⟩
  -- the Transfer-Encoding line
  have hcur2a : Cursor buf pos (("Transfer-Encoding: chunked".toList ++ ['\r']) ++
      '\n' :: (['\r'] ++ '\n' :: T)) := by
    rw [hT]
    simpa [chunkedTail, chunkedEncoding, headerLine, CRLF, List.append_assoc] using hcur2
  obtain ⟨r3, hr3⟩ : ∃ r3 : HttpResponse, r3 =
      { addHeader r2 with _currHeader := "Transfer-Encoding: chunked".toList } := ⟨_, rfl⟩
  have hd2 : dispatchLine r2 (("Transfer-Encoding: chunked".toList ++ ['\r']).filter
      (fun c => c != '\r')) = .ok r3 () := by
    have hf : ("Transfer-Encoding: chunked".toList ++ ['\r']).filter (fun c => c != '\r') =
        "Transfer-Encoding: chunked".toList := by decide
    rw [hf, hr3]
    unfold dispatchLine
    rw [h2s]
    simp only []
    exact congrArg (fun x => Outcome.ok x ())
      (processHeader_start r2 "Transfer-Encoding: chunked".toList 'T'
        "ransfer-Encoding: chunked".toList rfl (by unfold IsCString; decide) (by decide))
  rw [show fuel + 3 + 3 * chunks.length + 2 = (fuel + 3 + 3 * chunks.length + 1) + 1 from rfl,
    mainLoop_line buf _ r2 r3 pos _ _ (by rw [h2s]; rfl) hcur2a (by decide) hd2]
  have hcur3 := hcur2a.next_line
  -- the blank line
  have h3s : r3._state = .Header := by rw [hr3]; show (addHeader r2)._state = _; rw [addHeader_state, h2s]
  have hah : (addHeader r3)._headers =
      mapInsert r3._headers "transfer-encoding".toList "chunked".toList := by
    rw [addHeader_pair r3 "Transfer-Encoding".toList " chunked".toList (by decide)
      (by unfold IsCString; decide) (by unfold IsCString; decide) (by rw [hr3]; rfl)]
    rfl
  have hch : chunkedHeader (addHeader r3) = true := by
    unfold chunkedHeader getHeader
    rw [hah]
    have hk : lower (cstr "transfer-encoding".toList) = "transfer-encoding".toList := by decide
    rw [hk, mapFind_mapInsert]
    decide
  obtain ⟨r4, hr4⟩ : ∃ r4, r4 = initBody (addHeader r3) := ⟨_, rfl⟩
  have h3st : (addHeader r3)._status = status := by
    rw [addHeader_status, hr3]
    show (addHeader r2)._status = _
    rw [addHeader_status, h2st]
  have hd3 : dispatchLine r3 (['\r'].filter (fun c => c != '\r')) = .ok r4 () := by
    have hf : ['\r'].filter (fun c => c != '\r') = [] := by decide
    rw [hf, hr4]
    unfold dispatchLine
    rw [h3s]
    unfold processHeader
    simp only [if_true]
    rw [if_neg (by rw [h3st]; unfold Continue; omega)]
  rw [mainLoop_line buf _ r3 r4 _ _ T (by rw [h3s]; rfl) hcur3 (by decide) hd3]
  have hcur4 := hcur3.next_line
  rw [hT] at hcur4
  -- the chunks
  have h4 : r4 = { addHeader r3 with
      _autoClose := isAutoClose (addHeader r3) ||
        (!chunkedHeader (addHeader r3) && decide (bodyLength (addHeader r3) = -1)),
      _contentLength := bodyLength (addHeader r3),
      _chunked := true, _chunkLength := -1,
      trace := [Event.headersReady], _state := .ChunkLength } := by
    rw [hr4, initBody_eq, hch]
    have hq : (addHeader r3)._request._headersReady = true := by
      rw [addHeader_request, hr3]
      show (addHeader r2)._request._headersReady = true
      rw [addHeader_request, h2q]
      exact hcb.1
    have ht : (addHeader r3).trace = [] := by
      rw [addHeader_trace, hr3]
      show (addHeader r2).trace = []
      rw [addHeader_trace, h2t]
    simp only [hq, ht, if_true, List.nil_append]
  have h4q : r4._request = cb := by
    rw [h4]
    show (addHeader r3)._request = cb
    rw [addHeader_request, hr3]
    show (addHeader r2)._request = cb
    rw [addHeader_request, h2q]
  have h4b : r4._bytesRead = 0 := by
    rw [h4]
    show (addHeader r3)._bytesRead = 0
    rw [addHeader_bytesRead, hr3]
    show (addHeader r2)._bytesRead = 0
    rw [addHeader_bytesRead, h2b]
  have h4t : r4.trace = [Event.headersReady] := by rw [h4]
  have h4s : r4._state = .ChunkLength := by rw [h4]
  have h4c : r4._chunked = true := by rw [h4]
  rw [show fuel + 3 + 3 * chunks.length = (fuel + 3) + 3 * chunks.length from rfl,
    mainLoop_chunks buf _ chunks (fuel + 3) r4 _ h4s h4c (by rw [h4q]; exact hcb.2.1)
      hchunks hcur4]
  have hcur5 := hcur4.advance (((chunks.map encodeChunk).flatten.length : Nat) : Int) rfl
  have hs5 : (chunks.foldl afterChunk r4)._state = .ChunkLength := by
    rw [foldl_afterChunk]; exact h4s
  have hd5 : (chunks.foldl afterChunk r4)._request._responseComplete = true := by
    rw [foldl_afterChunk]
    show r4._request._responseComplete = true
    rw [h4q]; exact hcb.2.2
  rw [mainLoop_last_chunk_rest buf fuel _ _ rest hs5 hd5 hcur5, foldl_afterChunk]
  obtain ⟨r5, hr5⟩ : ∃ r5 : HttpResponse, r5 =
      { r4 with _chunkLength := 0, _state := .Complete,
                _bytesRead := r4._bytesRead + ((chunks.map List.length).sum : Nat),
                trace := r4.trace ++ chunks.map (fun c => Event.receiveData c c.length) ++
                  [Event.responseComplete] } := ⟨_, rfl⟩
  refine ⟨r5, ?_, by rw [hr5, h4t], by rw [hr5], ?_⟩
  · rw [hr5]
    congr 2
    simp only [chunkedTail, chunkedEncoding, headerLine, CRLF, List.length_append,
      List.length_cons, List.length_nil, String.toList]
    push_cast
    simp
    omega
  · rw [hr5]
    show r4._bytesRead + _ = _
    rw [h4b, zero_add]

end HttpResponse

namespace HttpResponse

theorem message_bytes_pos (m : Message) : 0 < m.bytes.length := by
  unfold Message.bytes messageHead
  simp only [List.length_append]
  have : 0 < "HTTP/1.1 ".toList.length := by decide
  omega

/-- One `processResponse` call on a well-formed message that is followed by
more bytes decodes the message and returns its length. -/
theorem processResponse_message (method : Str) (cb : Callbacks) (m : Message) (rest : Str)
    (fuel : Nat)
    (hcb : cb._headersReady = true ∧ cb._receiveData = true ∧ cb._responseComplete = true)
    (hwf : WellFormedMessage method m) (hfuel : m.turns ≤ fuel) :
    ∃ r, processResponse fuel (HttpResponse.new method cb) (m.bytes ++ rest) =
        some (.ok r m.bytes.length) ∧
      r.trace = m.events ∧ r._state = .Complete := by
  obtain ⟨status, reason, headers, framing⟩ := m
  obtain ⟨hmethod, hstatus, hreason, hheaders, hframe⟩ := hwf
  simp only [] at hstatus hreason hheaders hframe
  cases framing with
  | sized body =>
    have hbody : 1 ≤ body.length ∧ body.length < 2147483648 := by
      have h := hframe
      simp only [] at h
      exact ⟨h.1, by have h2 := h.2; norm_num at h2; exact h2⟩
    have hf : headers.length + 5 ≤ fuel := hfuel
    obtain ⟨k, rfl⟩ : ∃ k, fuel = (k + 4) + headers.length + 1 :=
      ⟨fuel - (headers.length + 5), by omega⟩
    obtain ⟨buf, hbuf⟩ : ∃ buf, buf = (Message.mk status reason headers (.sized body)).bytes ++
      rest := ⟨_, rfl⟩
    have hb : buf = messageHead status reason headers ++ (sizedTail body ++ rest) := by
      rw [hbuf]
      simp only [Message.bytes, List.append_assoc]
    obtain ⟨r2, hinv2, hcur2, hstep⟩ := mainLoop_message_head buf method cb status reason headers
      (sizedTail body ++ rest) (k + 4) ⟨by omega, hstatus.2.1⟩ hreason hheaders hb
    obtain ⟨r, hr, htrace, hstate, _⟩ := mainLoop_sized_tail buf k r2 _ (cstr method) cb status
      body rest hmethod hcb ⟨hstatus.1, hstatus.2.2⟩ hbody hinv2 hcur2
    refine ⟨r, ?_, htrace, hstate⟩
    unfold processResponse
    rw [← hbuf, hstep, hr]
    congr 2
    simp only [Message.bytes, List.length_append]
    push_cast
    rfl
  | chunked chunks =>
    have hchunks : ∀ c ∈ chunks, c ≠ [] ∧ c.length < 2147483648 := by
      intro c hc
      have h := hframe c hc
      exact ⟨h.1, by have h2 := h.2; norm_num at h2; exact h2⟩
    have hf : headers.length + 3 * chunks.length + 6 ≤ fuel := hfuel
    obtain ⟨k, rfl⟩ : ∃ k, fuel = (k + 3 + 3 * chunks.length + 2) + headers.length + 1 :=
      ⟨fuel - (headers.length + 3 * chunks.length + 6), by omega⟩
    obtain ⟨buf, hbuf⟩ : ∃ buf, buf =
      (Message.mk status reason headers (.chunked chunks)).bytes ++ rest := ⟨_, rfl⟩
    have hb : buf = messageHead status reason headers ++ (chunkedTail chunks ++ rest) := by
      rw [hbuf]
      simp only [Message.bytes, List.append_assoc]
    obtain ⟨r2, hinv2, hcur2, hstep⟩ := mainLoop_message_head buf method cb status reason headers
      (chunkedTail chunks ++ rest) (k + 3 + 3 * chunks.length + 2) ⟨by omega, hstatus.2.1⟩
      hreason hheaders hb
    obtain ⟨r, hr, htrace, hstate, _⟩ := mainLoop_chunked_tail buf k r2 _ (cstr method) cb status
      chunks rest hcb hstatus.1 hchunks hinv2 hcur2
    refine ⟨r, ?_, htrace, hstate⟩
    unfold processResponse
    rw [← hbuf, hstep, hr]
    congr 2
    simp only [Message.bytes, List.length_append]
    push_cast
    rfl

end HttpResponse

namespace HttpRequest

open HttpResponse

/-- The dispatch loop over a buffer that holds whole messages for the first
responses of the queue: each message completes its response, which leaves the
queue, and the events of the messages are recorded in order. -/
theorem dispatchLoop_messages (cb : Callbacks) (inner : Nat) (data : Str)
    (hcb : cb._headersReady = true ∧ cb._receiveData = true ∧ cb._responseComplete = true) :
    ∀ (pairs : List (Str × Message)) (outer : Nat) (q : HttpRequest)
      (others : List HttpResponse) (pre : Str),
      (∀ p ∈ pairs, WellFormedMessage p.1 p.2 ∧ p.2.turns ≤ inner) →
      q._pendingResponses = pairs.map (fun p => HttpResponse.new p.1 cb) ++ others →
      data = pre ++ (pairs.map (fun p => p.2.bytes)).flatten →
      pairs.length + 1 ≤ outer →
      dispatchLoop inner data outer q (pre.length : Nat) =
        some (.ok { q with events := q.events ++ (pairs.map (fun p => p.2.events)).flatten,
                           _pendingResponses := others } ()) := by
  intro pairs
  induction pairs with
  | nil =>
    intro outer q others pre _ hq hdata houter
    obtain ⟨n, rfl⟩ : ∃ n, outer = n + 1 := ⟨outer - 1, by omega⟩
    simp only [List.map_nil, List.nil_append, List.flatten_nil, List.append_nil] at hq hdata ⊢
    have hq' : ({ q with events := q.events, _pendingResponses := others } : HttpRequest) = q := by
      rw [← hq]
    rw [hq', dispatchLoop]
    cases hp : q._pendingResponses with
    | nil => rfl
    | cons response rest =>
      simp only []
      rw [if_neg (by rw [hdata]; omega)]
  | cons p ps ih =>
    intro outer q others pre hwf hq hdata houter
    obtain ⟨n, rfl⟩ : ∃ n, outer = n + 1 :=
      ⟨outer - 1, by rw [List.length_cons] at houter; omega⟩
    obtain ⟨hwf1, hturns⟩ := hwf p (List.mem_cons_self _ _)
    obtain ⟨rest, hrest⟩ : ∃ rest, rest = (ps.map (fun p => p.2.bytes)).flatten := ⟨_, rfl⟩
    have hdata1 : data = pre ++ (p.2.bytes ++ rest) := by
      rw [hdata, hrest]
      simp only [List.map_cons, List.flatten_cons]
    have hlt : ((pre.length : Nat) : Int) < (data.length : Int) := by
      rw [hdata1, List.length_append, List.length_append]
      have := message_bytes_pos p.2
      push_cast
      omega
    have hdrop : data.drop ((pre.length : Nat) : Int).toNat = p.2.bytes ++ rest := by
      rw [Int.toNat_natCast, hdata1, List.drop_left]
    obtain ⟨r1, hr1, htrace, hstate⟩ := processResponse_message p.1 cb p.2 rest inner hcb hwf1
      hturns
    have hcomp : HttpResponse.completed r1 = true := by
      unfold HttpResponse.completed
      rw [hstate]
      rfl
    have hev : newEvents (HttpResponse.new p.1 cb) r1 = p.2.events := by
      unfold newEvents
      rw [htrace]
      rfl
    rw [dispatchLoop]
    simp only [List.map_cons, List.cons_append] at hq
    rw [hq]
    simp only []
    rw [if_pos hlt, if_neg (by omega), hdrop, hr1]
    simp only [hcomp, if_true, hev]
    have hpos : ((pre.length : Nat) : Int) + (p.2.bytes.length : Nat) =
        (((pre ++ p.2.bytes).length : Nat) : Int) := by
      rw [List.length_append]
      push_cast
      rfl
    rw [hpos, ih n _ others (pre ++ p.2.bytes) (fun x hx => hwf x (List.mem_cons_of_mem _ hx))
      rfl (by rw [hdata1, hrest, List.append_assoc])
      (by rw [List.length_cons] at houter; omega)]
    simp only [List.map_cons, List.flatten_cons, List.append_assoc]

end HttpRequest

/-! ## The main loop on a negative chunk size -/

namespace HttpResponse

theorem negativeChunk_cursor_size :
    Cursor negativeChunkMessage 47 ("-5".toList ++ '\n' :: "X".toList) :=
  ⟨"HTTP/1.1 200 OK\r\nTransfer-Encoding: chunked\r\n\r\n".toList, by decide, by decide⟩

theorem negativeChunk_cursor_data : Cursor negativeChunkMessage 50 "X".toList :=
  ⟨"HTTP/1.1 200 OK\r\nTransfer-Encoding: chunked\r\n\r\n-5\n".toList, by decide, by decide⟩

theorem negativeChunk_cursor_back :
    Cursor negativeChunkMessage 45 (['\r'] ++ '\n' :: "-5\nX".toList) :=
  ⟨"HTTP/1.1 200 OK\r\nTransfer-Encoding: chunked\r\n".toList, by decide, by decide⟩

/-- The chunk-size line `-5`: the state becomes `Body`, the read position is 50. -/
theorem negativeChunk_size_turn (fuel : Nat) (r : HttpResponse) (hs : r._state = .ChunkLength) :
    mainLoop negativeChunkMessage (fuel + 1) r 47 [] =
      mainLoop negativeChunkMessage fuel { r with _chunkLength := -5, _state := .Body } 50 [] := by
  have hd : dispatchLine r ("-5".toList.filter (fun c => c != '\r')) =
      .ok { r with _chunkLength := -5, _state := .Body } () := by
    have hf : "-5".toList.filter (fun c => c != '\r') = "-5".toList := by decide
    have hv : strtol "-5".toList 16 = -5 := by decide
    rw [hf]
    unfold dispatchLine
    rw [hs]
    simp only [processChunkLength, hv]
    rw [if_neg (by decide)]
  rw [mainLoop_line negativeChunkMessage fuel r _ 47 _ _ (by rw [hs]; rfl)
    negativeChunk_cursor_size (by decide) hd]
  rfl

/-- The data turn with the chunk length -5: the read position moves back from
50 to 45 and the state becomes `ChunkComplete`. -/
theorem negativeChunk_data_turn (fuel : Nat) (r : HttpResponse) (hs : r._state = .Body)
    (hc : r._chunked = true) (hl : r._chunkLength = -5) :
    ∃ r1, r1._state = .ChunkComplete ∧ r1._chunked = true ∧
      mainLoop negativeChunkMessage (fuel + 1) r 50 [] =
        mainLoop negativeChunkMessage fuel r1 45 [] := by
  rw [mainLoop_body negativeChunkMessage fuel r 50 "X".toList [] hs negativeChunk_cursor_data
    (by decide)]
  simp only [hc, if_true]
  have hp : processChunkedData r "X".toList ("X".toList.length : Nat) =
      ({ deliver r "X".toList (-5) with
          _bytesRead := (deliver r "X".toList (-5))._bytesRead + -5,
          _chunkLength := 0, _state := .ChunkComplete }, -5) := by
    unfold processChunkedData
    have hbp : (if (("X".toList.length : Nat) : Int) > r._chunkLength then r._chunkLength
        else (("X".toList.length : Nat) : Int)) = -5 := by
      rw [hl]
      decide
    simp only [hbp]
    have hcl : (deliver r "X".toList (-5))._chunkLength = -5 := by
      unfold deliver
      split <;> exact hl
    rw [if_pos (by simp only [hcl]; decide)]
    simp only [hcl]
    rfl
  rw [hp]
  refine ⟨_, rfl, ?_, rfl⟩
  show (deliver r "X".toList (-5))._chunked = true
  unfold deliver
  split <;> exact hc

/-- The line end after the chunk, read at position 45: the state is again
`ChunkLength` at position 47. -/
theorem negativeChunk_end_turn (fuel : Nat) (r : HttpResponse) (hs : r._state = .ChunkComplete) :
    mainLoop negativeChunkMessage (fuel + 1) r 45 [] =
      mainLoop negativeChunkMessage fuel { r with _state := .ChunkLength } 47 [] := by
  have hd : dispatchLine r (['\r'].filter (fun c => c != '\r')) =
      .ok { r with _state := .ChunkLength } () := by
    unfold dispatchLine
    rw [hs]
  rw [mainLoop_line negativeChunkMessage fuel r _ 45 _ _ (by rw [hs]; rfl)
    negativeChunk_cursor_back (by decide) hd]
  rfl

/-- From position 47 in state `ChunkLength` the main loop does not end, whatever
the fuel. -/
theorem negativeChunk_loops : ∀ (fuel : Nat) (r : HttpResponse),
    r._state = .ChunkLength → r._chunked = true →
    mainLoop negativeChunkMessage fuel r 47 [] = none := by
  intro fuel
  induction fuel using Nat.strong_induction_on with
  | _ fuel ih =>
    intro r hs hc
    rcases fuel with _ | _ | _ | fuel
    · rw [mainLoop]
    · rw [negativeChunk_size_turn 0 r hs, mainLoop]
    · obtain ⟨r1, -, -, h1⟩ := negativeChunk_data_turn 0
        { r with _chunkLength := -5, _state := .Body } rfl hc rfl
      rw [negativeChunk_size_turn 1 r hs, h1, mainLoop]
    · obtain ⟨r1, hs1, hc1, h1⟩ := negativeChunk_data_turn (fuel + 1)
        { r with _chunkLength := -5, _state := .Body } rfl hc rfl
      rw [negativeChunk_size_turn (fuel + 2) r hs, h1, negativeChunk_end_turn fuel r1 hs1]
      exact ih fuel (by omega) _ rfl hc1

end HttpResponse

namespace HttpResponse

set_option maxRecDepth 100000 in
/-- The three turns over the status line, the `Transfer-Encoding` field and the
blank line of `negativeChunkMessage`, on a new response. -/
theorem negativeChunk_headers (fuel : Nat) :
    ∃ r, r._state = .ChunkLength ∧ r._chunked = true ∧
      mainLoop negativeChunkMessage (fuel + 3) freshGet 0 [] =
        mainLoop negativeChunkMessage fuel r 47 [] := by
  obtain ⟨r1, hr1⟩ : ∃ r1, dispatchLine freshGet
      ("HTTP/1.1 200 OK\r".toList.filter (fun c => c != '\r')) = .ok r1 () ∧
      r1._state = .Header := ⟨_, rfl, rfl⟩
  obtain ⟨r2, hr2⟩ : ∃ r2, dispatchLine r1
      ("Transfer-Encoding: chunked\r".toList.filter (fun c => c != '\r')) = .ok r2 () ∧
      r2._state = .Header := by
    have := hr1.1
    cases this
    exact ⟨_, rfl, rfl⟩
  obtain ⟨r3, hr3⟩ : ∃ r3, dispatchLine r2 (['\r'].filter (fun c => c != '\r')) = .ok r3 () ∧
      r3._state = .ChunkLength ∧ r3._chunked = true := by
    have h1 := hr1.1
    cases h1
    have h2 := hr2.1
    cases h2
    exact ⟨_, rfl, rfl, rfl⟩
  have c0 : Cursor negativeChunkMessage 0 ("HTTP/1.1 200 OK\r".toList ++ '\n' ::
      "Transfer-Encoding: chunked\r\n\r\n-5\nX".toList) := ⟨[], by decide, by decide⟩
  have c1 : Cursor negativeChunkMessage 17 ("Transfer-Encoding: chunked\r".toList ++ '\n' ::
      "\r\n-5\nX".toList) := ⟨"HTTP/1.1 200 OK\r\n".toList, by decide, by decide⟩
  have c2 : Cursor negativeChunkMessage 45 (['\r'] ++ '\n' :: "-5\nX".toList) :=
    negativeChunk_cursor_back
  refine ⟨r3, hr3.2.1, hr3.2.2, ?_⟩
  have e1 : (0 : Int) + (("HTTP/1.1 200 OK\r".toList.length + 1 : Nat) : Int) = 17 := by decide
  have e2 : (17 : Int) + (("Transfer-Encoding: chunked\r".toList.length + 1 : Nat) : Int) = 45 := by
    decide
  have e3 : (45 : Int) + (((['\r'] : Str).length + 1 : Nat) : Int) = 47 := by decide
  rw [mainLoop_line negativeChunkMessage (fuel + 2) freshGet r1 0 _ _ rfl c0 (by decide) hr1.1,
    e1,
    mainLoop_line negativeChunkMessage (fuel + 1) r1 r2 17 _ _ (by rw [hr1.2]; rfl) c1
      (by decide) hr2.1,
    e2,
    mainLoop_line negativeChunkMessage fuel r2 r3 45 _ _ (by rw [hr2.2]; rfl) c2
      (by decide) hr3.1,
    e3]

end HttpResponse

/-! ## Runs over fragments -/

namespace HttpResponse

theorem wireOf_cons (f : Fragment) (fs : List Fragment) :
    wireOf (f :: fs) = f.wire ++ wireOf fs := rfl

theorem wireOf_append (fs gs : List Fragment) : wireOf (fs ++ gs) = wireOf fs ++ wireOf gs := by
  unfold wireOf
  rw [List.map_append, List.flatten_append]

/-- The data handler on data that is exactly what is left, followed by more
bytes in the buffer. -/
theorem bodyStep_front (r : HttpResponse) (d more : Str) (hfit : ExactFit r d) :
    (if r._chunked then processChunkedData r (d ++ more) ((d ++ more).length : Nat)
      else processData r (d ++ more) ((d ++ more).length : Nat)) = bodyStep r d := by
  unfold bodyStep ExactFit at *
  cases hc : r._chunked
  · rw [hc] at hfit
    simp only [Bool.false_eq_true, if_false] at hfit ⊢
    have h1 : (if r._contentLength ≠ -1 ∧
        (((d ++ more).length : Nat) : Int) > r._contentLength - r._bytesRead
        then r._contentLength - r._bytesRead else (((d ++ more).length : Nat) : Int)) =
        d.length := by
      rw [hfit.2, List.length_append]
      push_cast
      split <;> omega
    have h2 : (if r._contentLength ≠ -1 ∧ ((d.length : Nat) : Int) > r._contentLength - r._bytesRead
        then r._contentLength - r._bytesRead else ((d.length : Nat) : Int)) = d.length := by
      rw [hfit.2]
      split <;> rfl
    unfold processData
    simp only [h1, h2]
    unfold deliver
    simp only [Int.toNat_natCast, List.take_left', List.take_length]
  · rw [hc] at hfit
    simp only [if_true] at hfit ⊢
    have h1 : (if (((d ++ more).length : Nat) : Int) > r._chunkLength then r._chunkLength
        else (((d ++ more).length : Nat) : Int)) = d.length := by
      rw [hfit, List.length_append]
      push_cast
      split <;> omega
    have h2 : (if ((d.length : Nat) : Int) > r._chunkLength then r._chunkLength
        else ((d.length : Nat) : Int)) = d.length := by
      rw [hfit]
      split <;> rfl
    unfold processChunkedData
    simp only [h1, h2]
    unfold deliver
    simp only [Int.toNat_natCast, List.take_left', List.take_length]

/-- The number of bytes that the data handler takes from data that fits. -/
theorem bodyStep_count (r : HttpResponse) (d : Str)
    (hfit : ExactFit r d ∨ PartFit r d) : (bodyStep r d).2 = d.length := by
  unfold bodyStep ExactFit PartFit at *
  cases hc : r._chunked
  · rw [hc] at hfit
    simp only [Bool.false_eq_true, if_false] at hfit ⊢
    have hbp : (if r._contentLength ≠ -1 ∧ ((d.length : Nat) : Int) > r._contentLength - r._bytesRead
        then r._contentLength - r._bytesRead else ((d.length : Nat) : Int)) = d.length := by
      split
      · rename_i h
        rcases hfit with hf | hf <;> omega
      · rfl
    unfold processData
    simp only [hbp]
    split <;> rfl
  · rw [hc] at hfit
    simp only [if_true] at hfit ⊢
    have hbp : (if ((d.length : Nat) : Int) > r._chunkLength then r._chunkLength
        else ((d.length : Nat) : Int)) = d.length := by
      split
      · rename_i h
        rcases hfit with hf | hf <;> omega
      · rfl
    unfold processChunkedData
    simp only [hbp]
    split <;> rfl

end HttpResponse

namespace HttpResponse

/-- The main loop over the bytes of a piece follows the run over its fragments,
one turn per fragment. -/
theorem mainLoop_fragments (buf : Str) :
    ∀ (fs : List Fragment) (r r1 : HttpResponse) (pos : Int) (fuel : Nat),
      runFragments r fs = some r1 → Grouped fs → Cursor buf pos (wireOf fs) →
      mainLoop buf (fuel + fs.length) r pos [] =
        mainLoop buf fuel r1 (pos + ((wireOf fs).length : Nat)) [] := by
  intro fs
  induction fs with
  | nil =>
    intro r r1 pos fuel h _ _
    rw [runFragments] at h
    cases h
    simp [wireOf]
  | cons f fs ih =>
    intro r r1 pos fuel h hg hcur
    rw [wireOf_cons] at hcur
    have hlen : ((wireOf (f :: fs)).length : Nat) = f.wire.length + (wireOf fs).length := by
      rw [wireOf_cons, List.length_append]
    cases f with
    | line text =>
      rw [runFragments] at h
      split at h
      · rename_i hc
        cases hd : dispatchLine r (text.filter (fun c => c != '\r')) with
        | ok r2 u =>
          rw [hd] at h
          simp only [] at h
          have hcur1 : Cursor buf pos (text ++ '\n' :: wireOf fs) := by
            simpa [Fragment.wire] using hcur
          have hstep := mainLoop_line buf (fuel + fs.length) r r2 pos text (wireOf fs) hc.1
            hcur1 hc.2 hd
          have hcur2 := hcur1.next_line
          rw [show fuel + (Fragment.line text :: fs).length = fuel + fs.length + 1 from rfl,
            hstep, ih r2 r1 _ fuel h hg hcur2, hlen]
          congr 1
          simp only [Fragment.wire, List.length_append, List.length_cons, List.length_nil]
          push_cast
          omega
        | thrown e r2 =>
          rw [hd] at h
          exact Option.noConfusion h
        | aborted =>
          rw [hd] at h
          exact Option.noConfusion h
        | undefined =>
          rw [hd] at h
          exact Option.noConfusion h
      · exact Option.noConfusion h
    | data d last =>
      have key : r._state = .Body → d ≠ [] →
          (if r._chunked then processChunkedData r (d ++ wireOf fs)
              ((d ++ wireOf fs).length : Nat)
            else processData r (d ++ wireOf fs) ((d ++ wireOf fs).length : Nat)) =
            bodyStep r d → (bodyStep r d).2 = d.length →
          runFragments (bodyStep r d).1 fs = some r1 →
          mainLoop buf (fuel + (Fragment.data d last :: fs).length) r pos [] =
            mainLoop buf fuel r1 (pos + ((wireOf (Fragment.data d last :: fs)).length : Nat)) [] := by
        intro hs hne hbody hcount h1
        have hcur1 : Cursor buf pos (d ++ wireOf fs) := hcur
        have hne1 : d ++ wireOf fs ≠ [] := by
          intro e
          exact hne (List.append_eq_nil.mp e).1
        have hstep := mainLoop_body buf (fuel + fs.length) r pos (d ++ wireOf fs) [] hs hcur1 hne1
        rw [hbody, hcount] at hstep
        have hcur2 := hcur1.advance (d.length : Int) rfl
        rw [show fuel + (Fragment.data d last :: fs).length = fuel + fs.length + 1 from rfl,
          hstep, ih _ r1 _ fuel h1 hg.2 hcur2, hlen]
        congr 1
        simp only [Fragment.wire]
        push_cast
        omega
      cases last with
      | false =>
        rw [runFragments] at h
        simp only [Bool.false_eq_true, if_false] at h
        by_cases hc : r._state = .Body ∧ d ≠ [] ∧ PartFit r d
        · rw [if_pos hc] at h
          have hnil : fs = [] := by
            rcases hg.1 with h1 | h1
            · exact absurd h1 (by decide)
            · exact h1
          refine key hc.1 hc.2.1 ?_ (bodyStep_count r d (Or.inr hc.2.2)) h
          rw [hnil]
          simp only [wireOf, List.map_nil, List.flatten_nil, List.append_nil]
          rfl
        · rw [if_neg hc] at h
          exact Option.noConfusion h
      | true =>
        rw [runFragments] at h
        simp only [if_true] at h
        by_cases hc : r._state = .Body ∧ d ≠ [] ∧ ExactFit r d
        · rw [if_pos hc] at h
          exact key hc.1 hc.2.1 (bodyStep_front r d (wireOf fs) hc.2.2)
            (bodyStep_count r d (Or.inl hc.2.2)) h
        · rw [if_neg hc] at h
          exact Option.noConfusion h

/-- More fuel does not change the result of the main loop. -/
theorem mainLoop_more_fuel (buf : Str) :
    ∀ (fuel : Nat) (r : HttpResponse) (pos : Int) (sl : Str) (o : Outcome HttpResponse Int)
      (extra : Nat), mainLoop buf fuel r pos sl = some o →
      mainLoop buf (fuel + extra) r pos sl = some o := by
  intro fuel
  induction fuel with
  | zero =>
    intro r pos sl o extra h
    rw [mainLoop] at h
    exact Option.noConfusion h
  | succ fuel ih =>
    intro r pos sl o extra h
    rw [show fuel + 1 + extra = (fuel + extra) + 1 by omega, mainLoop]
    rw [mainLoop] at h
    simp only [] at h ⊢
    split
    · rename_i hc
      rw [if_pos hc] at h
      split
      · rename_i hp
        rw [if_pos hp] at h
        exact h
      · rename_i hp
        rw [if_neg hp] at h
        split
        · rename_i hl
          rw [if_pos hl] at h
          cases hd : lineLoop r (buf.drop pos.toNat) sl 0 with
          | ok r2 u =>
            rw [hd] at h
            simp only [] at h ⊢
            exact ih _ _ _ _ _ h
          | thrown e r2 =>
            rw [hd] at h
            exact h
          | aborted =>
            rw [hd] at h
            exact h
          | undefined =>
            rw [hd] at h
            exact h
        · rename_i hl
          rw [if_neg hl] at h
          split
          · rename_i hb
            rw [if_pos hb] at h
            exact ih _ _ _ _ _ h
          · rename_i hb
            rw [if_neg hb] at h
            exact ih _ _ _ _ _ h
    · rename_i hc
      rw [if_neg hc] at h
      exact h

/-- One `processResponse` call on the bytes of a piece gives the response of the
run over its fragments and returns the length of the piece. -/
theorem processResponse_fragments (fs : List Fragment) (r r1 : HttpResponse) (fuel : Nat)
    (h : runFragments r fs = some r1) (hg : Grouped fs) (hfuel : fs.length + 1 ≤ fuel) :
    processResponse fuel r (wireOf fs) = some (.ok r1 ((wireOf fs).length : Nat)) := by
  obtain ⟨extra, rfl⟩ : ∃ extra, fuel = (1 + fs.length) + extra := ⟨fuel - (fs.length + 1), by omega⟩
  unfold processResponse
  apply mainLoop_more_fuel
  rw [mainLoop_fragments (wireOf fs) fs r r1 0 1 h hg (Cursor.start _)]
  have hcur : Cursor (wireOf fs) (0 + ((wireOf fs).length : Nat)) [] :=
    ⟨wireOf fs, (List.append_nil _).symm, by simp⟩
  rw [mainLoop_end (wireOf fs) 0 r1 _ [] hcur]
  simp

end HttpResponse

namespace HttpResponse

theorem runFragments_append (fs gs : List Fragment) :
    ∀ r : HttpResponse, runFragments r (fs ++ gs) =
      (runFragments r fs).bind (fun r1 => runFragments r1 gs) := by
  induction fs with
  | nil => intro r; rfl
  | cons f fs ih =>
    intro r
    cases f with
    | line text =>
      rw [List.cons_append, runFragments, runFragments]
      by_cases hc : isLineState r._state = true ∧ '\n' ∉ text
      · rw [if_pos hc, if_pos hc]
        cases dispatchLine r (text.filter (fun c => c != '\r')) with
        | ok r2 u => exact ih r2
        | thrown e r2 => rfl
        | aborted => rfl
        | undefined => rfl
      · rw [if_neg hc, if_neg hc]
        rfl
    | data d last =>
      rw [List.cons_append, runFragments, runFragments]
      by_cases hc : r._state = .Body ∧ d ≠ [] ∧ (if last then ExactFit r d else PartFit r d)
      · rw [if_pos hc, if_pos hc]
        exact ih _
      · rw [if_neg hc, if_neg hc]
        rfl

/-- Successive calls on the pieces of a split give the response of the run over
all the fragments, and together return the number of bytes. -/
theorem feedPieces_groups (fuel : Nat) :
    ∀ (groups : List (List Fragment)) (r r1 : HttpResponse),
      runFragments r groups.flatten = some r1 →
      (∀ g ∈ groups, Grouped g ∧ g.length + 1 ≤ fuel) →
      feedPieces fuel r (groups.map wireOf) =
        some (r1, (((wireOf groups.flatten).length : Nat) : Int)) := by
  intro groups
  induction groups with
  | nil =>
    intro r r1 h _
    rw [List.flatten_nil, runFragments] at h
    cases h
    rfl
  | cons g groups ih =>
    intro r r1 h hg
    rw [List.flatten_cons, runFragments_append] at h
    cases h2 : runFragments r g with
    | none =>
      rw [h2] at h
      exact Option.noConfusion h
    | some r2 =>
      rw [h2] at h
      simp only [Option.bind] at h
      obtain ⟨hg1, hfuel⟩ := hg g (List.mem_cons_self _ _)
      rw [List.map_cons, feedPieces, processResponse_fragments g r r2 fuel h2 hg1 hfuel]
      simp only []
      rw [ih r2 r1 h (fun x hx => hg x (List.mem_cons_of_mem _ hx))]
      simp only [List.flatten_cons, wireOf_append, List.length_append]
      push_cast
      rfl

end HttpResponse

namespace HttpResponse

theorem addHeader_withTrace (r : HttpResponse) (t : List Event) :
    addHeader (withTrace r t) = withTrace (addHeader r) t := by
  unfold addHeader withTrace
  simp only []
  split <;> rfl

theorem initBody_withTrace (r : HttpResponse) (t : List Event) :
    initBody (withTrace r t) = withTrace (initBody r) (t ++ headersReadyEvents r._request) ∧
      (initBody r).trace = r.trace ++ headersReadyEvents r._request := by
  rw [initBody_eq, initBody_eq]
  unfold headersReadyEvents withTrace
  constructor
  · simp only []
    cases r._request._headersReady
    · simp only [Bool.false_eq_true, if_false, List.append_nil]
      rfl
    · simp only [if_true]
      rfl
  · simp only []
    split
    · rfl
    · exact (List.append_nil _).symm

theorem complete_withTrace (r : HttpResponse) (t : List Event) :
    complete (withTrace r t) = withTrace (complete r) (t ++ completeEvents r._request) ∧
      (complete r).trace = r.trace ++ completeEvents r._request := by
  unfold complete completeEvents withTrace
  simp only []
  cases r._request._responseComplete
  · refine ⟨?_, ?_⟩ <;> simp only [Bool.false_eq_true, if_false, List.append_nil]
  · refine ⟨?_, ?_⟩ <;> simp only [if_true]

theorem processHeader_withTrace (r : HttpResponse) (line : Str) :
    ∃ ev, (processHeader r line).trace = r.trace ++ ev ∧
      ∀ t, processHeader (withTrace r t) line = withTrace (processHeader r line) (t ++ ev) := by
  unfold processHeader
  by_cases he : line = []
  · simp only [he, if_true]
    by_cases hs : (addHeader r)._status = Continue
    · refine ⟨[], ?_, ?_⟩
      · rw [if_pos hs]
        show (addHeader r).trace = _
        rw [addHeader_trace, List.append_nil]
      · intro t
        rw [addHeader_withTrace, if_pos hs, if_pos (by exact hs), List.append_nil]
        rfl
    · refine ⟨headersReadyEvents r._request, ?_, ?_⟩
      · rw [if_neg hs, (initBody_withTrace (addHeader r) []).2, addHeader_trace, addHeader_request]
      · intro t
        rw [addHeader_withTrace, if_neg hs, if_neg (by exact hs),
          (initBody_withTrace (addHeader r) t).1, addHeader_request]
  · simp only [he, if_false]
    refine ⟨[], ?_, ?_⟩
    · rw [List.append_nil]
      rcases cstr line with _ | ⟨c, rest⟩
      · exact addHeader_trace r
      · simp only []
        split
        · rfl
        · exact addHeader_trace r
    · intro t
      rw [List.append_nil]
      rcases cstr line with _ | ⟨c, rest⟩
      · simp only []
        rw [addHeader_withTrace]
        rfl
      · simp only []
        split
        · rfl
        · rw [addHeader_withTrace]
          rfl

end HttpResponse

namespace HttpResponse

theorem processStatusLine_withTrace (r r1 : HttpResponse) (line : Str)
    (h : processStatusLine r line = .ok r1 ()) :
    r1.trace = r.trace ∧
      ∀ t, processStatusLine (withTrace r t) line = .ok (withTrace r1 t) () := by
  unfold processStatusLine withTrace at *
  simp only [] at h ⊢
  split at h
  · exact Outcome.noConfusion h
  · rename_i h1
    split at h
    · rename_i h2
      cases h
      refine ⟨rfl, fun t => ?_⟩
      rw [if_neg h1, if_pos h2]
    · rename_i h2
      split at h
      · rename_i h3
        cases h
        refine ⟨rfl, fun t => ?_⟩
        rw [if_neg h1, if_neg h2, if_pos h3]
      · exact Outcome.noConfusion h

theorem processChunkLength_withTrace (r : HttpResponse) (line : Str) (t : List Event) :
    processChunkLength (withTrace r t) line = withTrace (processChunkLength r line) t ∧
      (processChunkLength r line).trace = r.trace := by
  unfold processChunkLength withTrace
  simp only []
  split <;> exact ⟨rfl, rfl⟩

/-- The line handlers do not read the trace: on a response with another trace
they leave the same response, with the same events added to that trace. -/
theorem dispatchLine_withTrace (r r1 : HttpResponse) (line : Str)
    (h : dispatchLine r line = .ok r1 ()) :
    ∃ ev, r1.trace = r.trace ++ ev ∧
      ∀ t, dispatchLine (withTrace r t) line = .ok (withTrace r1 (t ++ ev)) () := by
  unfold dispatchLine at h
  cases hs : r._state <;> rw [hs] at h <;> simp only [] at h
  · obtain ⟨h1, h2⟩ := processStatusLine_withTrace r r1 line h
    refine ⟨[], by rw [h1, List.append_nil], fun t => ?_⟩
    rw [List.append_nil, ← h2 t]
    unfold dispatchLine
    rw [show (withTrace r t)._state = .StatusLine from hs]
  · cases h
    obtain ⟨ev, h1, h2⟩ := processHeader_withTrace r line
    refine ⟨ev, h1, fun t => ?_⟩
    rw [← h2 t]
    unfold dispatchLine
    rw [show (withTrace r t)._state = .Header from hs]
  · cases h
    refine ⟨[], (List.append_nil _).symm, fun t => ?_⟩
    unfold dispatchLine
    rw [show (withTrace r t)._state = .Body from hs, List.append_nil]
  · cases h
    obtain ⟨h1, h2⟩ := processChunkLength_withTrace r line []
    refine ⟨[], by rw [h2, List.append_nil], fun t => ?_⟩
    rw [List.append_nil, ← (processChunkLength_withTrace r line t).1]
    unfold dispatchLine
    rw [show (withTrace r t)._state = .ChunkLength from hs]
  · cases h
    refine ⟨[], (List.append_nil _).symm, fun t => ?_⟩
    unfold dispatchLine
    rw [show (withTrace r t)._state = .ChunkComplete from hs, List.append_nil]
    rfl
  · cases h
    obtain ⟨h1, h2⟩ := complete_withTrace r []
    refine ⟨completeEvents r._request, h2, fun t => ?_⟩
    show dispatchLine (withTrace r t) line =
      .ok (withTrace (complete r) (t ++ completeEvents r._request)) ()
    rw [← (complete_withTrace r t).1]
    unfold dispatchLine
    rw [show (withTrace r t)._state = .Trailer from hs]
    rfl
  · cases h
    refine ⟨[], (List.append_nil _).symm, fun t => ?_⟩
    unfold dispatchLine
    rw [show (withTrace r t)._state = .Complete from hs, List.append_nil]

theorem deliver_withTrace (r : HttpResponse) (data : Str) (n : Int) :
    ∃ ev, (deliver r data n).trace = r.trace ++ ev ∧
      (∀ t, deliver (withTrace r t) data n = withTrace (deliver r data n) (t ++ ev)) ∧
      ev = (if r._request._receiveData then [Event.receiveData (data.take n.toNat) n] else []) := by
  unfold deliver withTrace
  simp only []
  cases r._request._receiveData
  · exact ⟨[], by simp, fun t => by simp, by simp⟩
  · exact ⟨[Event.receiveData (data.take n.toNat) n], by simp, fun t => by simp, by simp⟩

end HttpResponse

namespace HttpResponse

theorem processData_withTrace (r : HttpResponse) (d : Str) (n : Int) :
    ∃ ev, (processData r d n).1.trace = r.trace ++ ev ∧
      ∀ t, processData (withTrace r t) d n =
        (withTrace (processData r d n).1 (t ++ ev), (processData r d n).2) := by
  unfold processData
  simp only []
  generalize hbp : (if r._contentLength ≠ -1 ∧ n > r._contentLength - r._bytesRead
    then r._contentLength - r._bytesRead else n) = bp
  have hbp' : ∀ t, (if (withTrace r t)._contentLength ≠ -1 ∧
      n > (withTrace r t)._contentLength - (withTrace r t)._bytesRead
      then (withTrace r t)._contentLength - (withTrace r t)._bytesRead else n) = bp := fun _ => hbp
  obtain ⟨ev, h1, h2, -⟩ := deliver_withTrace r d bp
  have hcl : (deliver r d bp)._contentLength = r._contentLength := by
    unfold deliver; split <;> rfl
  have hbr : (deliver r d bp)._bytesRead = r._bytesRead := by
    unfold deliver; split <;> rfl
  have hrq : (deliver r d bp)._request = r._request := deliver_request r d bp
  by_cases hc : r._contentLength ≠ -1 ∧ r._bytesRead + bp = r._contentLength
  · have hcond : (deliver r d bp)._contentLength ≠ -1 ∧
        (deliver r d bp)._bytesRead + bp = (deliver r d bp)._contentLength := by
      rw [hcl, hbr]; exact hc
    have hcondT : ∀ tt, (withTrace (deliver r d bp) tt)._contentLength ≠ -1 ∧
        (withTrace (deliver r d bp) tt)._bytesRead + bp =
          (withTrace (deliver r d bp) tt)._contentLength := fun _ => hcond
    refine ⟨ev ++ completeEvents r._request, ?_, fun t => ?_⟩
    · rw [if_pos hcond]
      have := (complete_withTrace { deliver r d bp with
        _bytesRead := (deliver r d bp)._bytesRead + bp } []).2
      rw [this]
      show (deliver r d bp).trace ++ completeEvents (deliver r d bp)._request = _
      rw [h1, hrq, List.append_assoc]
    · simp only [hbp' t, h2 t]
      rw [if_pos (hcondT _), if_pos hcond]
      have e := (complete_withTrace { deliver r d bp with
        _bytesRead := (deliver r d bp)._bytesRead + bp } (t ++ ev)).1
      have e2 : completeEvents ({ deliver r d bp with
          _bytesRead := (deliver r d bp)._bytesRead + bp } : HttpResponse)._request =
          completeEvents r._request := by
        show completeEvents (deliver r d bp)._request = _
        rw [hrq]
      rw [e2, List.append_assoc] at e
      rw [← e]
      rfl
  · have hcond : ¬ ((deliver r d bp)._contentLength ≠ -1 ∧
        (deliver r d bp)._bytesRead + bp = (deliver r d bp)._contentLength) := by
      rw [hcl, hbr]; exact hc
    have hcondT : ∀ tt, ¬ ((withTrace (deliver r d bp) tt)._contentLength ≠ -1 ∧
        (withTrace (deliver r d bp) tt)._bytesRead + bp =
          (withTrace (deliver r d bp) tt)._contentLength) := fun _ => hcond
    refine ⟨ev, ?_, fun t => ?_⟩
    · rw [if_neg hcond]
      exact h1
    · simp only [hbp' t, h2 t]
      rw [if_neg (hcondT _), if_neg hcond]
      rfl

theorem processChunkedData_withTrace (r : HttpResponse) (d : Str) (n : Int) :
    ∃ ev, (processChunkedData r d n).1.trace = r.trace ++ ev ∧
      ∀ t, processChunkedData (withTrace r t) d n =
        (withTrace (processChunkedData r d n).1 (t ++ ev), (processChunkedData r d n).2) := by
  unfold processChunkedData
  simp only []
  generalize hbp : (if n > r._chunkLength then r._chunkLength else n) = bp
  have hbp' : ∀ t, (if n > (withTrace r t)._chunkLength then (withTrace r t)._chunkLength
      else n) = bp := fun _ => hbp
  obtain ⟨ev, h1, h2, -⟩ := deliver_withTrace r d bp
  have hcl : (deliver r d bp)._chunkLength = r._chunkLength := by
    unfold deliver; split <;> rfl
  by_cases hc : r._chunkLength - bp = 0
  · have hcond : (deliver r d bp)._chunkLength - bp = 0 := by rw [hcl]; exact hc
    have hcondT : ∀ tt, (withTrace (deliver r d bp) tt)._chunkLength - bp = 0 := fun _ => hcond
    refine ⟨ev, ?_, fun t => ?_⟩
    · rw [if_pos hcond]
      exact h1
    · simp only [hbp' t, h2 t]
      rw [if_pos (hcondT _), if_pos hcond]
      rfl
  · have hcond : ¬ (deliver r d bp)._chunkLength - bp = 0 := by rw [hcl]; exact hc
    have hcondT : ∀ tt, ¬ (withTrace (deliver r d bp) tt)._chunkLength - bp = 0 :=
      fun _ => hcond
    refine ⟨ev, ?_, fun t => ?_⟩
    · rw [if_neg hcond]
      exact h1
    · simp only [hbp' t, h2 t]
      rw [if_neg (hcondT _), if_neg hcond]
      rfl

/-- The data handlers do not read the trace. -/
theorem bodyStep_withTrace (r : HttpResponse) (d : Str) :
    ∃ ev, (bodyStep r d).1.trace = r.trace ++ ev ∧
      ∀ t, bodyStep (withTrace r t) d = (withTrace (bodyStep r d).1 (t ++ ev), (bodyStep r d).2) := by
  unfold bodyStep
  cases hc : r._chunked
  · obtain ⟨ev, h1, h2⟩ := processData_withTrace r d d.length
    refine ⟨ev, by simpa using h1, fun t => ?_⟩
    rw [show (withTrace r t)._chunked = false from hc]
    simpa using h2 t
  · obtain ⟨ev, h1, h2⟩ := processChunkedData_withTrace r d d.length
    refine ⟨ev, by simpa using h1, fun t => ?_⟩
    rw [show (withTrace r t)._chunked = true from hc]
    simpa using h2 t

end HttpResponse

namespace HttpResponse

theorem withTrace_withTrace (r : HttpResponse) (t1 t2 : List Event) :
    withTrace (withTrace r t1) t2 = withTrace r t2 := rfl

theorem withTrace_self (r : HttpResponse) : withTrace r r.trace = r := rfl

/-- The run over fragments does not read the trace. -/
theorem runFragments_withTrace :
    ∀ (fs : List Fragment) (r rA : HttpResponse), runFragments r fs = some rA →
      ∃ ev, rA.trace = r.trace ++ ev ∧
        ∀ t, runFragments (withTrace r t) fs = some (withTrace rA (t ++ ev)) := by
  intro fs
  induction fs with
  | nil =>
    intro r rA h
    rw [runFragments] at h
    cases h
    exact ⟨[], (List.append_nil _).symm, fun t => by rw [List.append_nil]; rfl⟩
  | cons f fs ih =>
    intro r rA h
    cases f with
    | line text =>
      rw [runFragments] at h
      by_cases hc : isLineState r._state = true ∧ '\n' ∉ text
      · rw [if_pos hc] at h
        cases hd : dispatchLine r (text.filter (fun c => c != '\r')) with
        | ok r2 u =>
          rw [hd] at h
          simp only [] at h
          obtain ⟨ev1, h1, h2⟩ := dispatchLine_withTrace r r2 _ hd
          obtain ⟨ev2, h3, h4⟩ := ih r2 rA h
          refine ⟨ev1 ++ ev2, by rw [h3, h1, List.append_assoc], fun t => ?_⟩
          have hcT : isLineState (withTrace r t)._state = true ∧ '\n' ∉ text := hc
          rw [runFragments, if_pos hcT, h2 t]
          simp only []
          rw [h4 (t ++ ev1), List.append_assoc]
        | thrown e r2 =>
          rw [hd] at h
          exact Option.noConfusion h
        | aborted =>
          rw [hd] at h
          exact Option.noConfusion h
        | undefined =>
          rw [hd] at h
          exact Option.noConfusion h
      · rw [if_neg hc] at h
        exact Option.noConfusion h
    | data d last =>
      rw [runFragments] at h
      by_cases hc : r._state = .Body ∧ d ≠ [] ∧ (if last then ExactFit r d else PartFit r d)
      · rw [if_pos hc] at h
        obtain ⟨ev1, h1, h2⟩ := bodyStep_withTrace r d
        obtain ⟨ev2, h3, h4⟩ := ih _ rA h
        refine ⟨ev1 ++ ev2, by rw [h3, h1, List.append_assoc], fun t => ?_⟩
        have hcT : (withTrace r t)._state = .Body ∧ d ≠ [] ∧
            (if last then ExactFit (withTrace r t) d else PartFit (withTrace r t) d) := hc
        rw [runFragments, if_pos hcT, h2 t]
        simp only []
        rw [h4 (t ++ ev1), List.append_assoc]
      · rw [if_neg hc] at h
        exact Option.noConfusion h

theorem deliveredData_append (a b : List Event) :
    deliveredData (a ++ b) = deliveredData a ++ deliveredData b := by
  induction a with
  | nil => rfl
  | cons e a ih =>
    cases e with
    | headersReady => exact ih
    | receiveData data n =>
      show data ++ deliveredData (a ++ b) = data ++ deliveredData a ++ deliveredData b
      rw [ih, List.append_assoc]
    | responseComplete => exact ih

theorem sameButData_refl (r : HttpResponse) : SameButData r r := ⟨rfl, rfl, rfl, rfl⟩

theorem sameButData_trans {r1 r2 r3 : HttpResponse} (h12 : SameButData r1 r2)
    (h23 : SameButData r2 r3) : SameButData r1 r3 := by
  obtain ⟨a1, a2, a3, a4⟩ := h12
  obtain ⟨b1, b2, b3, b4⟩ := h23
  refine ⟨?_, a2.trans b2, a3.trans b3, a4.trans b4⟩
  rw [a1, b1]
  rfl

/-- Two traces that deliver the same data, followed by the same events. -/
theorem sameButData_append (r : HttpResponse) (t1 t2 ev : List Event)
    (h1 : countHeadersReady t1 = countHeadersReady t2)
    (h2 : countComplete t1 = countComplete t2)
    (h3 : deliveredData t1 = deliveredData t2) :
    SameButData (withTrace r (t1 ++ ev)) (withTrace r (t2 ++ ev)) := by
  refine ⟨rfl, ?_, ?_, ?_⟩
  · show countHeadersReady (t1 ++ ev) = countHeadersReady (t2 ++ ev)
    unfold countHeadersReady at *
    rw [List.count_append, List.count_append, h1]
  · show countComplete (t1 ++ ev) = countComplete (t2 ++ ev)
    unfold countComplete at *
    rw [List.count_append, List.count_append, h2]
  · show deliveredData (t1 ++ ev) = deliveredData (t2 ++ ev)
    rw [deliveredData_append, deliveredData_append, h3]

end HttpResponse

namespace HttpResponse

/-- The data handler on data that is less than what is left. -/
theorem bodyStep_part (r : HttpResponse) (d : Str) (hfit : PartFit r d) :
    (bodyStep r d).1 = afterData r d := by
  unfold bodyStep PartFit afterData dataEvents at *
  cases hc : r._chunked
  · rw [hc] at hfit
    simp only [Bool.false_eq_true, if_false] at hfit ⊢
    have hbp : (if r._contentLength ≠ -1 ∧ ((d.length : Nat) : Int) > r._contentLength - r._bytesRead
        then r._contentLength - r._bytesRead else ((d.length : Nat) : Int)) = d.length := by
      rw [if_neg (by omega)]
    unfold processData
    simp only [hbp]
    have hcl : (deliver r d d.length)._contentLength = r._contentLength := by
      unfold deliver; split <;> rfl
    have hbr : (deliver r d d.length)._bytesRead = r._bytesRead := by
      unfold deliver; split <;> rfl
    rw [if_neg (by rw [hcl, hbr]; omega)]
    unfold deliver
    cases r._request._receiveData
    · simp [hc]
    · simp [hc]
  · rw [hc] at hfit
    simp only [if_true] at hfit ⊢
    have hbp : (if ((d.length : Nat) : Int) > r._chunkLength then r._chunkLength
        else ((d.length : Nat) : Int)) = d.length := by
      rw [if_neg (by omega)]
    unfold processChunkedData
    simp only [hbp]
    have hcl : (deliver r d d.length)._chunkLength = r._chunkLength := by
      unfold deliver; split <;> rfl
    rw [if_neg (by rw [hcl]; omega)]
    unfold deliver
    cases r._request._receiveData
    · simp [hc]
    · simp [hc]

/-- The data handler on data that is exactly what is left. -/
theorem bodyStep_exact (r : HttpResponse) (d : Str) (hfit : ExactFit r d) :
    (bodyStep r d).1 = finishData (afterData r d) := by
  unfold bodyStep ExactFit finishData afterData dataEvents at *
  cases hc : r._chunked
  · rw [hc] at hfit
    simp only [Bool.false_eq_true, if_false] at hfit ⊢
    have hbp : (if r._contentLength ≠ -1 ∧ ((d.length : Nat) : Int) > r._contentLength - r._bytesRead
        then r._contentLength - r._bytesRead else ((d.length : Nat) : Int)) = d.length := by
      rw [if_neg (by omega)]
    unfold processData
    simp only [hbp]
    have hcl : (deliver r d d.length)._contentLength = r._contentLength := by
      unfold deliver; split <;> rfl
    have hbr : (deliver r d d.length)._bytesRead = r._bytesRead := by
      unfold deliver; split <;> rfl
    rw [if_pos (by rw [hcl, hbr]; exact ⟨hfit.1, by omega⟩)]
    unfold deliver
    cases r._request._receiveData
    · simp [hc]
    · simp [hc]
  · rw [hc] at hfit
    simp only [if_true] at hfit ⊢
    have hbp : (if ((d.length : Nat) : Int) > r._chunkLength then r._chunkLength
        else ((d.length : Nat) : Int)) = d.length := by
      rw [if_neg (by omega)]
    unfold processChunkedData
    simp only [hbp]
    have hcl : (deliver r d d.length)._chunkLength = r._chunkLength := by
      unfold deliver; split <;> rfl
    rw [if_pos (by rw [hcl]; omega)]
    unfold deliver
    cases r._request._receiveData
    · simp [hc, hfit]
    · simp [hc, hfit]

end HttpResponse

namespace HttpResponse

/-- Data that is exactly what is left, cut in two non-empty parts: the first
part is less than what is left, the second is then exactly what is left, and
the response after both differs from the one after the whole in the trace only,
where the data is divided among two events. -/
theorem bodyStep_split (r : HttpResponse) (d1 d2 : Str) (h1 : d1 ≠ []) (h2 : d2 ≠ [])
    (hs : r._state = .Body) (hfit : ExactFit r (d1 ++ d2)) :
    PartFit r d1 ∧ (afterData r d1)._state = .Body ∧ ExactFit (afterData r d1) d2 ∧
    ∃ tt, finishData (afterData (afterData r d1) d2) =
        withTrace (finishData (afterData r (d1 ++ d2))) tt ∧
      countHeadersReady tt = countHeadersReady (finishData (afterData r (d1 ++ d2))).trace ∧
      countComplete tt = countComplete (finishData (afterData r (d1 ++ d2))).trace ∧
      deliveredData tt = deliveredData (finishData (afterData r (d1 ++ d2))).trace := by
  have hl1 : 0 < d1.length := List.length_pos.mpr h1
  have hl2 : 0 < d2.length := List.length_pos.mpr h2
  have hlen : ((d1 ++ d2).length : Int) = d1.length + d2.length := by
    rw [List.length_append]; push_cast; rfl
  unfold ExactFit at hfit
  refine ⟨?_, hs, ?_, ?_⟩
  · unfold PartFit
    split
    · rename_i hc
      rw [if_pos hc] at hfit
      omega
    · rename_i hc
      rw [if_neg hc] at hfit
      exact ⟨hfit.1, by omega⟩
  · unfold ExactFit afterData
    simp only []
    split
    · rename_i hc
      rw [if_pos hc] at hfit
      omega
    · rename_i hc
      rw [if_neg hc] at hfit
      exact ⟨hfit.1, by omega⟩
  · refine ⟨(finishData (afterData (afterData r d1) d2)).trace, ?_, ?_, ?_, ?_⟩
    · unfold finishData afterData dataEvents complete withTrace
      simp only []
      cases hc : r._chunked
      · simp only [Bool.false_eq_true, if_false, HttpResponse.mk.injEq, true_and, and_true]
        rw [hlen]
        omega
      · simp only [if_true, HttpResponse.mk.injEq, true_and, and_true]
        rw [hlen]
        constructor <;> omega
    · unfold finishData afterData dataEvents complete countHeadersReady
      simp only []
      cases r._chunked <;> cases r._request._receiveData <;>
        cases r._request._responseComplete <;> simp
    · unfold finishData afterData dataEvents complete countComplete
      simp only []
      cases r._chunked <;> cases r._request._receiveData <;>
        cases r._request._responseComplete <;> simp
    · unfold finishData afterData dataEvents complete
      simp only []
      cases r._chunked <;> cases r._request._receiveData <;>
        cases r._request._responseComplete <;>
        simp [deliveredData_append, deliveredData]

end HttpResponse

namespace HttpResponse

/-- Cutting the data of a run into parts changes the trace only, and there only
how the data is divided among the data events. -/
theorem runFragments_refines {fs atoms : List Fragment} (href : Refines fs atoms) :
    ∀ (r rA : HttpResponse), runFragments r atoms = some rA →
      ∃ rF, runFragments r fs = some rF ∧ SameButData rF rA := by
  induction href with
  | nil =>
    intro r rA h
    exact ⟨rA, h, sameButData_refl rA⟩
  | line text _ ih =>
    intro r rA h
    rw [runFragments] at h
    by_cases hc : isLineState r._state = true ∧ '\n' ∉ text
    · rw [if_pos hc] at h
      cases hd : dispatchLine r (text.filter (fun c => c != '\r')) with
      | ok r2 u =>
        rw [hd] at h
        simp only [] at h
        obtain ⟨rF, h1, h2⟩ := ih r2 rA h
        refine ⟨rF, ?_, h2⟩
        rw [runFragments, if_pos hc, hd]
        exact h1
      | thrown e r2 =>
        rw [hd] at h
        exact Option.noConfusion h
      | aborted =>
        rw [hd] at h
        exact Option.noConfusion h
      | undefined =>
        rw [hd] at h
        exact Option.noConfusion h
    · rw [if_neg hc] at h
      exact Option.noConfusion h
  | whole d _ ih =>
    intro r rA h
    rw [runFragments] at h
    by_cases hc : r._state = .Body ∧ d ≠ [] ∧ (if true then ExactFit r d else PartFit r d)
    · rw [if_pos hc] at h
      obtain ⟨rF, h1, h2⟩ := ih _ rA h
      refine ⟨rF, ?_, h2⟩
      rw [runFragments, if_pos hc]
      exact h1
    · rw [if_neg hc] at h
      exact Option.noConfusion h
  | @cut d1 d2 fs1 atoms1 hd1 hd2 _ ih =>
    intro r rA h
    rw [runFragments] at h
    by_cases hc : r._state = .Body ∧ d1 ++ d2 ≠ [] ∧
        (if true then ExactFit r (d1 ++ d2) else PartFit r (d1 ++ d2))
    · rw [if_pos hc] at h
      obtain ⟨hs, -, hfit⟩ := hc
      simp only [if_true] at hfit
      rw [bodyStep_exact r (d1 ++ d2) hfit] at h
      obtain ⟨hpart, hs1, hfit2, tt, htt, c1, c2, c3⟩ := bodyStep_split r d1 d2 hd1 hd2 hs hfit
      obtain ⟨ev, h3, h4⟩ := runFragments_withTrace _ _ rA h
      have hrun : runFragments (afterData r d1) (Fragment.data d2 true :: atoms1) =
          some (withTrace rA (tt ++ ev)) := by
        rw [runFragments, if_pos ⟨hs1, hd2, by simp only [if_true]; exact hfit2⟩,
          bodyStep_exact _ d2 hfit2, htt]
        exact h4 tt
      obtain ⟨rF, h5, h6⟩ := ih _ _ hrun
      refine ⟨rF, ?_, ?_⟩
      · rw [runFragments, if_pos ⟨hs, hd1, by simp only [Bool.false_eq_true, if_false]; exact hpart⟩,
          bodyStep_part r d1 hpart]
        exact h5
      · have h7 := sameButData_append rA tt _ ev c1 c2 c3
        rw [← h3] at h7
        exact sameButData_trans h6 h7
    · rw [if_neg hc] at h
      exact Option.noConfusion h

end HttpResponse

namespace HttpResponse

theorem wireOf_headers (headers : List (Str × Str)) :
    wireOf (headers.map headerFragment) = (headers.map headerLine).flatten := by
  induction headers with
  | nil => rfl
  | cons h t ih =>
    rw [List.map_cons, wireOf_cons, ih, List.map_cons, List.flatten_cons]
    simp [headerFragment, Fragment.wire, headerLine, CRLF]

theorem wireOf_chunks (chunks : List Str) :
    wireOf (chunks.map chunkFragments).flatten = (chunks.map encodeChunk).flatten := by
  induction chunks with
  | nil => rfl
  | cons c t ih =>
    rw [List.map_cons, List.flatten_cons, wireOf_append, ih, List.map_cons, List.flatten_cons]
    simp [chunkFragments, wireOf, Fragment.wire, encodeChunk, CRLF]

/-- The fragments of a message are its bytes. -/
theorem wireOf_atoms (m : Message) : wireOf m.atoms = m.bytes := by
  obtain ⟨status, reason, headers, framing⟩ := m
  unfold Message.atoms Message.bytes messageHead
  rw [wireOf_cons, wireOf_append, wireOf_headers]
  cases framing with
  | sized body =>
    simp [wireOf, Fragment.wire, headerFragment, sizedTail, headerLine, CRLF]
  | chunked chunks =>
    simp only []
    rw [wireOf_append, wireOf_append, wireOf_chunks]
    simp [wireOf, Fragment.wire, headerFragment, chunkedTail, chunkedEncoding, headerLine, CRLF]

theorem runFragments_line (r r1 : HttpResponse) (text : Str) (rest : List Fragment)
    (hstate : isLineState r._state = true) (hlf : '\n' ∉ text)
    (hd : dispatchLine r (text.filter (fun c => c != '\r')) = .ok r1 ()) :
    runFragments r (.line text :: rest) = runFragments r1 rest := by
  rw [runFragments, if_pos ⟨hstate, hlf⟩, hd]

theorem runFragments_data (r : HttpResponse) (d : Str) (rest : List Fragment)
    (hs : r._state = .Body) (hne : d ≠ []) (hfit : ExactFit r d) :
    runFragments r (.data d true :: rest) = runFragments (finishData (afterData r d)) rest := by
  rw [runFragments, if_pos ⟨hs, hne, by simp only [if_true]; exact hfit⟩, bodyStep_exact r d hfit]

/-- The run over the fragment of a well-formed header field. -/
theorem runFragments_header (r : HttpResponse) (method : Str) (cb : Callbacks) (status : Int)
    (h : Str × Str) (rest : List Fragment)
    (hwf : WellFormedHeader h) (hkey : lower h.1 ≠ transferEncodingKey)
    (hinv : ReadingHeaders r method cb status) :
    ∃ r1, ReadingHeaders r1 method cb status ∧
      r1._currHeader = h.1 ++ ':' :: ' ' :: cstr (h.2.filter (fun c => c != '\r')) ∧
      runFragments r (headerFragment h :: rest) = runFragments r1 rest := by
  obtain ⟨hne, hname, hval⟩ := hwf
  have hcr : '\r' ∉ h.1 := fun hm => absurd (hname _ hm).2.2 (by decide)
  have hlf : '\n' ∉ h.1 := fun hm => absurd (hname _ hm).2.2 (by decide)
  have hl : '\n' ∉ h.1 ++ ": ".toList ++ h.2 ++ ['\r'] := by
    simp only [List.mem_append, not_or]
    exact ⟨⟨⟨hlf, by decide⟩, hval⟩, by decide⟩
  have hf : (h.1 ++ ": ".toList ++ h.2 ++ ['\r']).filter (fun c => c != '\r') =
      h.1 ++ ": ".toList ++ h.2.filter (fun c => c != '\r') := by
    rw [List.filter_append, List.filter_append, List.filter_append, filter_cr_of_not_mem hcr]
    simp
  obtain ⟨hinv1, hch⟩ := processHeader_field r method cb status h.1
    (h.2.filter (fun c => c != '\r')) hne hname hkey hinv
  have hd : dispatchLine r ((h.1 ++ ": ".toList ++ h.2 ++ ['\r']).filter (fun c => c != '\r')) =
      .ok (processHeader r (h.1 ++ ": ".toList ++ h.2.filter (fun c => c != '\r'))) () := by
    rw [hf]
    unfold dispatchLine
    rw [hinv.1]
  exact ⟨_, hinv1, hch, runFragments_line r _ _ rest (by rw [hinv.1]; rfl) hl hd⟩

/-- The run over the fragments of a block of well-formed header fields. -/
theorem runFragments_headers (method : Str) (cb : Callbacks) (status : Int)
    (rest : List Fragment) :
    ∀ (headers : List (Str × Str)) (r : HttpResponse),
      (∀ h ∈ headers, WellFormedHeader h ∧ lower h.1 ≠ transferEncodingKey) →
      ReadingHeaders r method cb status →
      ∃ r1, ReadingHeaders r1 method cb status ∧
        runFragments r (headers.map headerFragment ++ rest) = runFragments r1 rest := by
  intro headers
  induction headers with
  | nil =>
    intro r _ hinv
    exact ⟨r, hinv, rfl⟩
  | cons h t ih =>
    intro r hh hinv
    obtain ⟨hwf, hkey⟩ := hh h (List.mem_cons_self _ _)
    obtain ⟨r1, hinv1, -, hstep⟩ := runFragments_header r method cb status h
      (t.map headerFragment ++ rest) hwf hkey hinv
    obtain ⟨r2, hinv2, hrest⟩ := ih r1 (fun x hx => hh x (List.mem_cons_of_mem _ hx)) hinv1
    exact ⟨r2, hinv2, by rw [List.map_cons, List.cons_append, hstep, hrest]⟩

end HttpResponse

namespace HttpResponse

/-- The run over the `Content-Length` field, the blank line and the body. -/
theorem runFragments_sized_tail (r2 : HttpResponse) (method : Str) (cb : Callbacks)
    (status : Nat) (body : Str)
    (hmethod : method ≠ "HEAD".toList) (hcb : cb._headersReady = true)
    (hstatus : 200 ≤ status ∧ status ≠ 204 ∧ status ≠ 304)
    (hbody : 1 ≤ body.length ∧ body.length < 2147483648)
    (hinv2 : ReadingHeaders r2 method cb status) :
    ∃ r, runFragments r2 [headerFragment ("Content-Length".toList, decimal body.length),
        .line ['\r'], .data body true] = some r := by
  obtain ⟨hnne, hnchars⟩ := decimal_plain body.length
  have hblen := hbody.2
  have hname : "Content-Length".toList ≠ [] ∧
      (∀ c ∈ "Content-Length".toList, c ≠ ':' ∧ c ≠ NUL ∧ isspace c = false) ∧
      lower "Content-Length".toList ≠ transferEncodingKey := by decide
  have hwf : WellFormedHeader ("Content-Length".toList, decimal body.length) :=
    ⟨hname.1, hname.2.1, fun h => (hexChars_plain _ (hnchars _ h)).2.2.2.2.2.2.1 rfl⟩
  obtain ⟨r3, hinv3, hch3, hstep3⟩ := runFragments_header r2 method cb status
    ("Content-Length".toList, decimal body.length) [.line ['\r'], .data body true] hwf
    hname.2.2 hinv2
  rw [hstep3]
  obtain ⟨h3s, h3m, h3q, h3st, h3t, h3b, h3te, h3p⟩ := hinv3
  have hdcr : '\r' ∉ decimal body.length :=
    fun h => (hexChars_plain _ (hnchars _ h)).2.2.2.2.2.2.2.1 rfl
  have hdnul : IsCString (decimal body.length) :=
    fun h => (hexChars_plain _ (hnchars _ h)).1 rfl
  have hch3b : r3._currHeader = "Content-Length".toList ++ ':' :: (' ' :: decimal body.length) := by
    rw [hch3]
    simp only [filter_cr_of_not_mem hdcr, cstr_of_isCString hdnul]
  have hdw : (' ' :: decimal body.length).dropWhile (fun c => c == '\t' || c == ' ') =
      decimal body.length := by
    obtain ⟨c, t, hct⟩ := List.exists_cons_of_ne_nil hnne
    have hc := hexChars_plain c (hnchars c (by rw [hct]; exact List.mem_cons_self _ _))
    have hcs : isspace c = false := hc.2.1
    have hb : (c == '\t' || c == ' ') = false := by
      have h1 : c ≠ ' ' := hc.2.2.2.2.2.2.2.2.1
      have h2 : c ≠ '\t' := by
        intro e; rw [e] at hcs; exact absurd hcs (by decide)
      simp [h1, h2]
    rw [hct]
    simp [List.dropWhile, hb]
  have hah : (addHeader r3)._headers =
      mapInsert r3._headers "content-length".toList (decimal body.length) := by
    rw [addHeader_pair r3 "Content-Length".toList (' ' :: decimal body.length) (by decide)
      (by unfold IsCString; decide)
      (isCString_append (a := [' ']) (by unfold IsCString; decide) hdnul) hch3b, hdw]
    rfl
  have hnb : ¬ hasNoBody (addHeader r3) := by
    unfold hasNoBody
    rw [addHeader_status, addHeader_method, h3st, h3m]
    simp only [NoContent, NotModified]
    rintro (h | h | h | h)
    · omega
    · omega
    · omega
    · exact hmethod h
  have hlen : atoi (decimal body.length) ≠ -1 := by
    rw [atoi_decimal _ hblen]; omega
  have hib := initBody_content_length (addHeader r3) (decimal body.length)
    (addHeader_keeps_out r3 h3te h3p) (by rw [hah]; exact mapFind_mapInsert _ _ _) hdnul hnb
    (by rw [addHeader_request, h3q]; exact hcb) hlen
  obtain ⟨r4, hr4⟩ : ∃ r4, r4 = initBody (addHeader r3) := ⟨_, rfl⟩
  have hd3 : dispatchLine r3 (['\r'].filter (fun c => c != '\r')) = .ok r4 () := by
    have hf : ['\r'].filter (fun c => c != '\r') = [] := by decide
    rw [hf, hr4]
    unfold dispatchLine
    rw [h3s]
    unfold processHeader
    simp only [if_true]
    rw [if_neg (by rw [addHeader_status, h3st]; unfold Continue; omega)]
  rw [runFragments_line r3 r4 ['\r'] _ (by rw [h3s]; rfl) (by decide) hd3]
  have h4s : r4._state = .Body := by rw [hr4, hib]
  have h4c : r4._chunked = false := by rw [hr4, hib]
  have h4l : r4._contentLength = body.length := by
    rw [hr4, hib]; exact atoi_decimal _ hblen
  have h4b : r4._bytesRead = 0 := by
    rw [hr4, hib]
    show (addHeader r3)._bytesRead = 0
    rw [addHeader_bytesRead, h3b]
  have hbne : body ≠ [] := List.length_pos.mp (by omega)
  have hfit : ExactFit r4 body := by
    unfold ExactFit
    rw [h4c]
    simp only [Bool.false_eq_true, if_false]
    rw [h4l, h4b]
    exact ⟨by omega, by omega⟩
  rw [runFragments_data r4 body [] h4s hbne hfit]
  exact ⟨_, rfl⟩

end HttpResponse

namespace HttpResponse

/-- The run over the fragments of one chunk. -/
theorem runFragments_chunk (r : HttpResponse) (c : Str) (rest : List Fragment)
    (hstate : r._state = .ChunkLength) (hchunked : r._chunked = true)
    (hne : c ≠ []) (hlen : c.length < 2147483648) :
    ∃ r1, r1._state = .ChunkLength ∧ r1._chunked = true ∧ r1._request = r._request ∧
      runFragments r (chunkFragments c ++ rest) = runFragments r1 rest := by
  obtain ⟨hhne, hhn, hhr⟩ := hex_plain c.length
  have hcpos : 0 < c.length := List.length_pos.mpr hne
  have hl1 : '\n' ∉ hex c.length ++ ['\r'] := by
    simp only [List.mem_append, List.mem_singleton, not_or]
    exact ⟨hhn, by decide⟩
  have hf1 : (hex c.length ++ ['\r']).filter (fun c => c != '\r') = hex c.length := by
    rw [List.filter_append, filter_cr_of_not_mem hhr]
    simp
  obtain ⟨r1, hr1⟩ : ∃ r1 : HttpResponse, r1 =
      { r with _chunkLength := c.length, _state := .Body } := ⟨_, rfl⟩
  have hd1 : dispatchLine r ((hex c.length ++ ['\r']).filter (fun c => c != '\r')) =
      .ok r1 () := by
    rw [hf1, hr1]
    unfold dispatchLine
    rw [hstate]
    simp only [processChunkLength, strtol_hex c.length hlen]
    rw [if_neg (by omega)]
  have h1s : r1._state = .Body := by rw [hr1]
  have h1c : r1._chunked = true := by rw [hr1]; exact hchunked
  have hfit : ExactFit r1 c := by
    unfold ExactFit
    rw [h1c, if_pos rfl, hr1]
  obtain ⟨r2, hr2⟩ : ∃ r2, r2 = finishData (afterData r1 c) := ⟨_, rfl⟩
  have h2 : r2 = { afterData r1 c with _state := .ChunkComplete } := by
    rw [hr2]
    unfold finishData
    rw [if_pos (show (afterData r1 c)._chunked = true from h1c)]
  have hd3 : dispatchLine r2 (['\r'].filter (fun c => c != '\r')) =
      .ok { r2 with _state := .ChunkLength } () := by
    unfold dispatchLine
    rw [show r2._state = .ChunkComplete by rw [h2]]
  refine ⟨{ r2 with _state := .ChunkLength }, rfl, ?_, ?_, ?_⟩
  · show r2._chunked = true
    rw [h2]
    exact h1c
  · show r2._request = r._request
    rw [h2, hr1]
    rfl
  · unfold chunkFragments
    rw [List.cons_append, List.cons_append, List.cons_append, List.nil_append,
      runFragments_line r r1 _ _ (by rw [hstate]; rfl) hl1 hd1,
      runFragments_data r1 c _ h1s hne hfit, ← hr2,
      runFragments_line r2 _ ['\r'] rest (by rw [h2]; rfl) (by decide) hd3]

/-- The run over the fragments of a list of chunks. -/
theorem runFragments_chunks (rest : List Fragment) :
    ∀ (chunks : List Str) (r : HttpResponse),
      r._state = .ChunkLength → r._chunked = true →
      (∀ c ∈ chunks, c ≠ [] ∧ c.length < 2147483648) →
      ∃ r1, r1._state = .ChunkLength ∧ r1._chunked = true ∧
        runFragments r ((chunks.map chunkFragments).flatten ++ rest) = runFragments r1 rest := by
  intro chunks
  induction chunks with
  | nil =>
    intro r hs hc _
    exact ⟨r, hs, hc, rfl⟩
  | cons c t ih =>
    intro r hs hc hch
    obtain ⟨h1, h2⟩ := hch c (List.mem_cons_self _ _)
    obtain ⟨r1, hs1, hc1, -, hstep⟩ := runFragments_chunk r c
      ((t.map chunkFragments).flatten ++ rest) hs hc h1 h2
    obtain ⟨r2, hs2, hc2, hrest⟩ := ih r1 hs1 hc1 (fun x hx => hch x (List.mem_cons_of_mem _ hx))
    exact ⟨r2, hs2, hc2, by
      rw [List.map_cons, List.flatten_cons, List.append_assoc, hstep, hrest]⟩

/-- The run over the `Transfer-Encoding: chunked` field, the blank line, the
chunks, the zero chunk and the empty trailer. -/
theorem runFragments_chunked_tail (r2 : HttpResponse) (method : Str) (cb : Callbacks)
    (status : Nat) (chunks : List Str) (hstatus : 200 ≤ status)
    (hchunks : ∀ c ∈ chunks, c ≠ [] ∧ c.length < 2147483648)
    (hinv2 : ReadingHeaders r2 method cb status) :
    ∃ r, runFragments r2
        ([headerFragment ("Transfer-Encoding".toList, "chunked".toList), .line ['\r']] ++
          ((chunks.map chunkFragments).flatten ++ [.line ['0', '\r'], .line ['\r']])) =
        some r := by
  obtain ⟨h2s, h2m, h2q, h2st, h2t, h2b, h2te, h2p⟩ := hinv2
  obtain ⟨r3, hr3⟩ : ∃ r3 : HttpResponse, r3 =
      { addHeader r2 with _currHeader := "Transfer-Encoding: chunked".toList } := ⟨_, rfl⟩
  have hd2 : dispatchLine r2 (("Transfer-Encoding: chunked".toList ++ ['\r']).filter
      (fun c => c != '\r')) = .ok r3 () := by
    have hf : ("Transfer-Encoding: chunked".toList ++ ['\r']).filter (fun c => c != '\r') =
        "Transfer-Encoding: chunked".toList := by decide
    rw [hf, hr3]
    unfold dispatchLine
    rw [h2s]
    simp only []
    exact congrArg (fun x => Outcome.ok x ())
      (processHeader_start r2 "Transfer-Encoding: chunked".toList 'T'
        "ransfer-Encoding: chunked".toList rfl (by unfold IsCString; decide) (by decide))
  have h3s : r3._state = .Header := by
    rw [hr3]; show (addHeader r2)._state = _; rw [addHeader_state, h2s]
  have hah : (addHeader r3)._headers =
      mapInsert r3._headers "transfer-encoding".toList "chunked".toList := by
    rw [addHeader_pair r3 "Transfer-Encoding".toList " chunked".toList (by decide)
      (by unfold IsCString; decide) (by unfold IsCString; decide) (by rw [hr3]; rfl)]
    rfl
  have hch : chunkedHeader (addHeader r3) = true := by
    unfold chunkedHeader getHeader
    rw [hah]
    have hk : lower (cstr "transfer-encoding".toList) = "transfer-encoding".toList := by decide
    rw [hk, mapFind_mapInsert]
    decide
  obtain ⟨r4, hr4⟩ : ∃ r4, r4 = initBody (addHeader r3) := ⟨_, rfl⟩
  have h3st : (addHeader r3)._status = status := by
    rw [addHeader_status, hr3]
    show (addHeader r2)._status = _
    rw [addHeader_status, h2st]
  have hd3 : dispatchLine r3 (['\r'].filter (fun c => c != '\r')) = .ok r4 () := by
    have hf : ['\r'].filter (fun c => c != '\r') = [] := by decide
    rw [hf, hr4]
    unfold dispatchLine
    rw [h3s]
    unfold processHeader
    simp only [if_true]
    rw [if_neg (by rw [h3st]; unfold Continue; omega)]
  have h4s : r4._state = .ChunkLength := by
    rw [hr4, initBody_eq, hch]
    rfl
  have h4c : r4._chunked = true := by
    rw [hr4, initBody_eq, hch]
  obtain ⟨r5, h5s, h5c, hstep5⟩ := runFragments_chunks [.line ['0', '\r'], .line ['\r']]
    chunks r4 h4s h4c hchunks
  have hz : strtol ['0'] 16 = 0 := by decide
  have hd5 : dispatchLine r5 (['0', '\r'].filter (fun c => c != '\r')) =
      .ok { r5 with _chunkLength := 0, _state := .Trailer } () := by
    have hf : ['0', '\r'].filter (fun c => c != '\r') = ['0'] := by decide
    rw [hf]
    unfold dispatchLine
    rw [h5s]
    simp only [processChunkLength, hz, if_true]
  have hd6 : dispatchLine { r5 with _chunkLength := 0, _state := .Trailer }
      (['\r'].filter (fun c => c != '\r')) =
      .ok (complete { r5 with _chunkLength := 0, _state := .Trailer }) () := rfl
  have hl2 : '\n' ∉ "Transfer-Encoding: chunked".toList ++ ['\r'] := by decide
  have e : headerFragment ("Transfer-Encoding".toList, "chunked".toList) =
      .line ("Transfer-Encoding: chunked".toList ++ ['\r']) := by rfl
  rw [List.cons_append, List.cons_append, List.nil_append, e,
    runFragments_line r2 r3 _ _ (by rw [h2s]; rfl) hl2 hd2,
    runFragments_line r3 r4 ['\r'] _ (by rw [h3s]; rfl) (by decide) hd3, hstep5,
    runFragments_line r5 _ ['0', '\r'] _ (by rw [h5s]; rfl) (by decide) hd5,
    runFragments_line { r5 with _chunkLength := 0, _state := .Trailer } _ ['\r'] [] rfl
      (by decide) hd6]
  exact ⟨_, rfl⟩

end HttpResponse

namespace HttpResponse

/-- The run over the fragments of a well-formed message, on a new response,
reaches the end of the message. -/
theorem runFragments_message (method : Str) (cb : Callbacks) (m : Message)
    (hcb : cb._headersReady = true ∧ cb._receiveData = true ∧ cb._responseComplete = true)
    (hwf : WellFormedMessage method m) :
    ∃ r, runFragments (HttpResponse.new method cb) m.atoms = some r := by
  obtain ⟨status, reason, headers, framing⟩ := m
  obtain ⟨hmethod, hstatus, hreason, hheaders, hframe⟩ := hwf
  simp only [] at hstatus hreason hheaders hframe
  obtain ⟨hdne, hdchars⟩ := decimal_plain status
  have hl0 : '\n' ∉ "HTTP/1.1 ".toList ++ decimal status ++ " ".toList ++ reason ++ ['\r'] := by
    simp only [List.mem_append, List.mem_singleton, not_or]
    refine ⟨⟨⟨⟨by decide, fun h => (hexChars_plain _ (hdchars _ h)).2.2.2.2.2.2.1 rfl⟩,
      by decide⟩, hreason⟩, by decide⟩
  have hf0 : ("HTTP/1.1 ".toList ++ decimal status ++ " ".toList ++ reason ++ ['\r']).filter
      (fun c => c != '\r') =
      "HTTP/1.1 ".toList ++ decimal status ++ ' ' :: reason.filter (fun c => c != '\r') := by
    have hd : '\r' ∉ decimal status :=
      fun h => (hexChars_plain _ (hdchars _ h)).2.2.2.2.2.2.2.1 rfl
    rw [List.filter_append, List.filter_append, List.filter_append, List.filter_append,
      filter_cr_of_not_mem hd]
    simp
  obtain ⟨r1, hr1, hinv1⟩ := processStatusLine_fresh method cb status
    (reason.filter (fun c => c != '\r')) ⟨by omega, hstatus.2.1⟩
  have hd0 : dispatchLine (HttpResponse.new method cb)
      (("HTTP/1.1 ".toList ++ decimal status ++ " ".toList ++ reason ++ ['\r']).filter
        (fun c => c != '\r')) = .ok r1 () := by
    rw [hf0, ← hr1]
    rfl
  cases framing with
  | sized body =>
    have hbody : 1 ≤ body.length ∧ body.length < 2147483648 := by
      have h := hframe
      simp only [] at h
      exact ⟨h.1, by have h2 := h.2; norm_num at h2; exact h2⟩
    obtain ⟨r2, hinv2, hstep2⟩ := runFragments_headers (cstr method) cb status
      [headerFragment ("Content-Length".toList, decimal body.length), .line ['\r'],
       .data body true] headers r1 hheaders hinv1
    unfold Message.atoms
    simp only []
    rw [runFragments_line (HttpResponse.new method cb) r1 _ _ rfl hl0 hd0, hstep2]
    exact runFragments_sized_tail r2 (cstr method) cb status body hmethod hcb.1
      ⟨hstatus.1, hstatus.2.2⟩ hbody hinv2
  | chunked chunks =>
    have hchunks : ∀ c ∈ chunks, c ≠ [] ∧ c.length < 2147483648 := by
      intro c hc
      have h := hframe c hc
      exact ⟨h.1, by have h2 := h.2; norm_num at h2; exact h2⟩
    obtain ⟨r2, hinv2, hstep2⟩ := runFragments_headers (cstr method) cb status
      ([headerFragment ("Transfer-Encoding".toList, "chunked".toList), .line ['\r']] ++
        ((chunks.map chunkFragments).flatten ++ [.line ['0', '\r'], .line ['\r']]))
      headers r1 hheaders hinv1
    unfold Message.atoms
    simp only []
    rw [runFragments_line (HttpResponse.new method cb) r1 _ _ rfl hl0 hd0, hstep2]
    exact runFragments_chunked_tail r2 (cstr method) cb status chunks hstatus.1 hchunks hinv2

theorem refines_grouped {fs atoms : List Fragment} (href : Refines fs atoms) : Grouped atoms := by
  induction href with
  | nil => trivial
  | line text _ ih => exact ih
  | whole d _ ih => exact ⟨Or.inl rfl, ih⟩
  | cut d1 d2 _ _ _ ih => exact ⟨Or.inl rfl, ih.2⟩

theorem refines_wire {fs atoms : List Fragment} (href : Refines fs atoms) :
    wireOf fs = wireOf atoms := by
  induction href with
  | nil => rfl
  | line text _ ih => rw [wireOf_cons, wireOf_cons, ih]
  | whole d _ ih => rw [wireOf_cons, wireOf_cons, ih]
  | cut d1 d2 _ _ _ ih =>
    rw [wireOf_cons, wireOf_cons, ih, wireOf_cons]
    simp [Fragment.wire]

theorem refines_length {fs atoms : List Fragment} (href : Refines fs atoms) :
    atoms.length ≤ fs.length := by
  induction href with
  | nil => exact Nat.le_refl _
  | line text _ ih => simpa using ih
  | whole d _ ih => simpa using ih
  | cut d1 d2 _ _ _ ih =>
    simp only [List.length_cons] at ih ⊢
    omega

theorem wireOf_flatten (groups : List (List Fragment)) :
    (groups.map wireOf).flatten = wireOf groups.flatten := by
  induction groups with
  | nil => rfl
  | cons g t ih => rw [List.map_cons, List.flatten_cons, ih, List.flatten_cons, wireOf_append]

theorem length_le_flatten (groups : List (List Fragment)) (g : List Fragment) (hg : g ∈ groups) :
    g.length ≤ groups.flatten.length := by
  induction groups with
  | nil => exact absurd hg (List.not_mem_nil _)
  | cons x t ih =>
    rw [List.flatten_cons, List.length_append]
    rcases List.mem_cons.mp hg with h | h
    · rw [h]
      omega
    · have := ih h
      omega

theorem atoms_turns (m : Message) : m.atoms.length + 1 = m.turns := by
  obtain ⟨status, reason, headers, framing⟩ := m
  unfold Message.atoms Message.turns
  cases framing with
  | sized body => simp
  | chunked chunks =>
    simp only [List.length_cons, List.length_append, List.length_map, List.length_nil]
    have : (chunks.map chunkFragments).flatten.length = 3 * chunks.length := by
      induction chunks with
      | nil => rfl
      | cons c t ih =>
        rw [List.map_cons, List.flatten_cons, List.length_append, ih]
        simp [chunkFragments]
        omega
    omega

theorem events_counts (m : Message) :
    countHeadersReady m.events = 1 ∧ countComplete m.events = 1 := by
  obtain ⟨status, reason, headers, framing⟩ := m
  unfold Message.events countHeadersReady countComplete
  cases framing with
  | sized body => simp
  | chunked chunks =>
    have h1 : (chunks.map (fun c => Event.receiveData c c.length)).count Event.headersReady = 0 := by
      rw [List.count_eq_zero]
      intro hm
      obtain ⟨c, _, hc⟩ := List.mem_map.mp hm
      exact Event.noConfusion hc
    have h2 : (chunks.map (fun c => Event.receiveData c c.length)).count
        Event.responseComplete = 0 := by
      rw [List.count_eq_zero]
      intro hm
      obtain ⟨c, _, hc⟩ := List.mem_map.mp hm
      exact Event.noConfusion hc
    simp only [List.count_append, h1, h2]
    simp

end HttpResponse

/-! ## The claims -/

open HttpResponse

/-! ## C1: fragmentation -/

set_option maxRecDepth 100000 in
/-- C1 (code bug): fed in one call, the message `smallMessage` gives headers-ready,
the data `abc` and complete.  Fed as the pieces `HTT` and the rest, the first
call consumes three bytes into the line buffer, which is a local variable of
`processResponse` and is lost on return; the second call reads the status line
`P/1.1 200 OK` and raises the invalid-version error with no callback invoked.
Split inside the header line instead, the bytes `Content-Le` are lost, the
header is stored under the name `ngth`, the body is taken as close-delimited
and complete is never invoked. -/
theorem fragmented_status_line_is_lost :
    "HTT".toList ++ "P/1.1 200 OK\r\nContent-Length: 3\r\n\r\nabc".toList = smallMessage ∧
    "HTTP/1.1 200 OK\r\nContent-Le".toList ++ "ngth: 3\r\n\r\nabc".toList = smallMessage ∧
    (∃ r, processResponse 64 freshGet smallMessage = some (.ok r 41) ∧
      r._state = .Complete ∧ r._status = 200 ∧
      r._headers = [("content-length".toList, "3".toList)] ∧
      r.trace = [Event.headersReady, Event.receiveData "abc".toList 3,
        Event.responseComplete]) ∧
    (∃ r1 r2, processResponse 64 freshGet "HTT".toList = some (.ok r1 3) ∧
      processResponse 64 r1 "P/1.1 200 OK\r\nContent-Length: 3\r\n\r\nabc".toList =
        some (.thrown (invalidVersionError "P/1.1".toList) r2) ∧
      r2.trace = []) ∧
    (∃ r1 r2, processResponse 64 freshGet "HTTP/1.1 200 OK\r\nContent-Le".toList =
        some (.ok r1 27) ∧
      processResponse 64 r1 "ngth: 3\r\n\r\nabc".toList = some (.ok r2 14) ∧
      r2._state = .Body ∧ r2._headers = [("ngth".toList, "3".toList)] ∧
      r2.trace = [Event.headersReady, Event.receiveData "abc".toList 3]) :=
  ⟨rfl, rfl, ⟨_, rfl, rfl, rfl, rfl, rfl⟩, ⟨_, _, rfl, rfl, rfl⟩,
    ⟨_, _, rfl, rfl, rfl, rfl, rfl⟩⟩

/-! ## C2: one-shot decoding of a Content-Length body -/

/-- C2: for every new response whose method is not `HEAD` and whose callbacks
are registered, and every message `HTTP/1.1 <status> <reason>` CRLF, well-formed
header fields none of which is named `Transfer-Encoding`, `Content-Length: n`
CRLF CRLF and a body of exactly `n` bytes, with status in [200, 999] other than
204 and 304 and `1 <= n < 2^31`, one `processResponse` call on the whole message
returns (with fuel for one turn of the loop per line, one for the body and one
to leave) the length of the message, emits exactly headers-ready, the data
event with the body, complete, and leaves the response `Complete` with
`_bytesRead = n`. -/
theorem content_length_decode (method : Str) (cb : Callbacks) (status : Nat) (reason : Str)
    (headers : List (Str × Str)) (body : Str) (fuel : Nat)
    (hmethod : cstr method ≠ "HEAD".toList)
    (hcb : cb._headersReady = true ∧ cb._receiveData = true ∧ cb._responseComplete = true)
    (hstatus : 200 ≤ status ∧ status ≤ 999 ∧ status ≠ 204 ∧ status ≠ 304)
    (hreason : '\n' ∉ reason)
    (hheaders : ∀ h ∈ headers, WellFormedHeader h ∧ lower h.1 ≠ transferEncodingKey)
    (hbody : 1 ≤ body.length ∧ body.length < 2 ^ 31)
    (hfuel : headers.length + 5 ≤ fuel) :
    ∃ r, processResponse fuel (HttpResponse.new method cb)
        (contentLengthMessage status reason headers body) =
          some (.ok r (contentLengthMessage status reason headers body).length) ∧
      r.trace = [Event.headersReady, Event.receiveData body body.length,
        Event.responseComplete] ∧
      r._state = .Complete ∧ r._bytesRead = body.length := by
  obtain ⟨k, rfl⟩ : ∃ k, fuel = (k + 4) + headers.length + 1 :=
    ⟨fuel - (headers.length + 5), by omega⟩
  obtain ⟨hdne, hdchars⟩ := decimal_plain status
  obtain ⟨hnne, hnchars⟩ := decimal_plain body.length
  have hblen : body.length < 2147483648 := by
    have := hbody.2; norm_num at this; exact this
  -- the status line
  obtain ⟨R1, hR1⟩ : ∃ R1, R1 = (headers.map headerLine).flatten ++
      (headerLine ("Content-Length".toList, decimal body.length) ++ (CRLF ++ body)) := ⟨_, rfl⟩
  obtain ⟨buf, hbuf⟩ : ∃ buf, buf = contentLengthMessage status reason headers body := ⟨_, rfl⟩
  rw [← hbuf]
  have hmsg : buf =
      ("HTTP/1.1 ".toList ++ decimal status ++ ' ' :: reason ++ ['\r']) ++ '\n' :: R1 := by
    rw [hbuf, hR1]
    simp [contentLengthMessage, CRLF]
  have hcur0 : Cursor buf 0
      (("HTTP/1.1 ".toList ++ decimal status ++ ' ' :: reason ++ ['\r']) ++ '\n' :: R1) := by
    rw [← hmsg]
    exact Cursor.start _
  have hl0 : '\n' ∉ "HTTP/1.1 ".toList ++ decimal status ++ ' ' :: reason ++ ['\r'] := by
    simp only [List.mem_append, List.mem_cons, List.mem_singleton, not_or]
    refine ⟨⟨⟨by decide, fun h => (hexChars_plain _ (hdchars _ h)).2.2.2.2.2.2.1 rfl⟩,
      by decide, hreason⟩, by decide⟩
  have hf0 : ("HTTP/1.1 ".toList ++ decimal status ++ ' ' :: reason ++ ['\r']).filter
      (fun c => c != '\r') =
      "HTTP/1.1 ".toList ++ decimal status ++ ' ' :: reason.filter (fun c => c != '\r') := by
    have hd : '\r' ∉ decimal status :=
      fun h => (hexChars_plain _ (hdchars _ h)).2.2.2.2.2.2.2.1 rfl
    have e : "HTTP/1.1 ".toList ++ decimal status ++ ' ' :: reason ++ ['\r'] =
        "HTTP/1.1 ".toList ++ (decimal status ++ ([' '] ++ (reason ++ ['\r']))) := by simp
    rw [e, List.filter_append, List.filter_append, List.filter_append, List.filter_append,
      filter_cr_of_not_mem hd]
    simp
  obtain ⟨r1, hr1, hinv1⟩ := processStatusLine_fresh method cb status
    (reason.filter (fun c => c != '\r')) ⟨by omega, hstatus.2.1⟩
  have hd0 : dispatchLine (HttpResponse.new method cb)
      (("HTTP/1.1 ".toList ++ decimal status ++ ' ' :: reason ++ ['\r']).filter
        (fun c => c != '\r')) = .ok r1 () := by
    rw [hf0, ← hr1]
    rfl
  unfold processResponse
  rw [mainLoop_line buf _ (HttpResponse.new method cb) r1 0 _ R1 rfl hcur0 hl0 hd0]
  have hcur1 := hcur0.next_line
  rw [hR1] at hcur1
  -- the header block
  obtain ⟨r2, hinv2, hstep2⟩ := mainLoop_header_block buf (cstr method) cb status _ headers
    (k + 4) r1 _ hheaders hinv1 hcur1
  rw [hstep2]
  have hcur2 := hcur1.advance _ rfl
  -- the Content-Length line
  have hname : "Content-Length".toList ≠ [] ∧
      (∀ c ∈ "Content-Length".toList, c ≠ ':' ∧ c ≠ NUL ∧ isspace c = false) ∧
      lower "Content-Length".toList ≠ transferEncodingKey := by decide
  have hwf : WellFormedHeader ("Content-Length".toList, decimal body.length) :=
    ⟨hname.1, hname.2.1, fun h => (hexChars_plain _ (hnchars _ h)).2.2.2.2.2.2.1 rfl⟩
  obtain ⟨r3, hinv3, hch3, hstep3⟩ := mainLoop_header_line buf (k + 3) r2 _ (cstr method) cb
    status ("Content-Length".toList, decimal body.length) (CRLF ++ body) hwf hname.2.2
    hinv2 hcur2
  rw [hstep3]
  have hcur3 := hcur2.advance _ rfl
  -- the blank line
  have hcur3b : Cursor buf _ (['\r'] ++ '\n' :: body) := hcur3
  obtain ⟨h3s, h3m, h3q, h3st, h3t, h3b, h3te, h3p⟩ := hinv3
  have hdcr : '\r' ∉ decimal body.length :=
    fun h => (hexChars_plain _ (hnchars _ h)).2.2.2.2.2.2.2.1 rfl
  have hdnul : IsCString (decimal body.length) :=
    fun h => (hexChars_plain _ (hnchars _ h)).1 rfl
  have hch3b : r3._currHeader = "Content-Length".toList ++ ':' :: (' ' :: decimal body.length) := by
    rw [hch3]
    simp only [filter_cr_of_not_mem hdcr, cstr_of_isCString hdnul]
  have hdw : (' ' :: decimal body.length).dropWhile (fun c => c == '\t' || c == ' ') =
      decimal body.length := by
    obtain ⟨c, t, hct⟩ := List.exists_cons_of_ne_nil hnne
    have hc := hexChars_plain c (hnchars c (by rw [hct]; exact List.mem_cons_self _ _))
    have hcs : isspace c = false := hc.2.1
    have hb : (c == '\t' || c == ' ') = false := by
      have h1 : c ≠ ' ' := hc.2.2.2.2.2.2.2.2.1
      have h2 : c ≠ '\t' := by
        intro e; rw [e] at hcs; exact absurd hcs (by decide)
      simp [h1, h2]
    rw [hct]
    simp [List.dropWhile, hb]
  have hah : (addHeader r3)._headers =
      mapInsert r3._headers "content-length".toList (decimal body.length) := by
    rw [addHeader_pair r3 "Content-Length".toList (' ' :: decimal body.length) (by decide)
      (by unfold IsCString; decide)
      (isCString_append (a := [' ']) (by unfold IsCString; decide) hdnul) hch3b, hdw]
    rfl
  have hnb : ¬ hasNoBody (addHeader r3) := by
    unfold hasNoBody
    rw [addHeader_status, addHeader_method, h3st, h3m]
    simp only [NoContent, NotModified]
    rintro (h | h | h | h)
    · omega
    · omega
    · omega
    · exact hmethod h
  have hlen : atoi (decimal body.length) ≠ -1 := by
    rw [atoi_decimal _ hblen]; omega
  have hib := initBody_content_length (addHeader r3) (decimal body.length)
    (addHeader_keeps_out r3 h3te h3p) (by rw [hah]; exact mapFind_mapInsert _ _ _) hdnul hnb
    (by rw [addHeader_request, h3q]; exact hcb.1) hlen
  obtain ⟨r4, hr4⟩ : ∃ r4, r4 = initBody (addHeader r3) := ⟨_, rfl⟩
  have hd3 : dispatchLine r3 (['\r'].filter (fun c => c != '\r')) = .ok r4 () := by
    have hf : ['\r'].filter (fun c => c != '\r') = [] := by decide
    rw [hf, hr4]
    unfold dispatchLine
    rw [h3s]
    unfold processHeader
    simp only [if_true]
    rw [if_neg (by rw [addHeader_status, h3st]; unfold Continue; omega)]
  rw [mainLoop_line buf (k + 2) r3 r4 _ _ body (by rw [h3s]; rfl) hcur3b (by decide) hd3]
  have hcur4 := hcur3b.next_line
  -- the body
  have h4s : r4._state = .Body := by rw [hr4, hib]
  have h4c : r4._chunked = false := by rw [hr4, hib]
  have h4l : r4._contentLength = body.length := by
    rw [hr4, hib]; exact atoi_decimal _ hblen
  have h4t : r4.trace = [Event.headersReady] := by
    rw [hr4, hib]
    show (addHeader r3).trace ++ [Event.headersReady] = [Event.headersReady]
    rw [addHeader_trace, h3t]
    rfl
  have h4b : r4._bytesRead = 0 := by
    rw [hr4, hib]
    show (addHeader r3)._bytesRead = 0
    rw [addHeader_bytesRead, h3b]
  have h4q : r4._request = cb := by
    rw [hr4, hib]
    show (addHeader r3)._request = cb
    rw [addHeader_request, h3q]
  have hbne : body ≠ [] := List.length_pos.mp (by omega)
  rw [mainLoop_body buf (k + 1) r4 _ body [] h4s hcur4 hbne]
  simp only [h4c, Bool.false_eq_true, if_false]
  rw [processData_whole r4 body h4l (by omega) h4b (by rw [h4q]; exact hcb.2.1)
    (by rw [h4q]; exact hcb.2.2)]
  simp only []
  have hcur5 : Cursor buf _ [] := (show Cursor buf _ (body ++ []) by
    rw [List.append_nil]; exact hcur4).advance (body.length : Int) rfl
  rw [mainLoop_complete buf k _ _ [] rfl, ← hcur5.end_eq]
  exact ⟨_, rfl, by simp [h4t], rfl, rfl⟩

set_option maxRecDepth 100000 in
/-- C2, witness: a `200 OK` message with one header field and the body `abc`. -/
theorem content_length_decode_witness :
    ∃ r, processResponse 6 (HttpResponse.new "GET".toList allCallbacks)
        "HTTP/1.1 200 OK\r\nServer: x\r\nContent-Length: 3\r\n\r\nabc".toList =
          some (.ok r 52) ∧
      r.trace = [Event.headersReady, Event.receiveData "abc".toList 3,
        Event.responseComplete] ∧
      r._state = .Complete ∧ r._bytesRead = 3 :=
  content_length_decode "GET".toList allCallbacks 200 "OK".toList
    [("Server".toList, "x".toList)] "abc".toList 6 (by decide) (by decide) (by decide)
    (by decide)
    (by intro h hh; simp only [List.mem_singleton] at hh; subst hh
        exact ⟨⟨by decide, by decide, by decide⟩, by decide⟩)
    (by decide) (by decide)

/-! ## C3: chunked decoding -/

/-- C3: for every list of non-empty chunks, each shorter than 2^31 bytes, one
`processResponse` call on their chunked encoding (hexadecimal length, CRLF,
bytes, CRLF for each chunk, then `0` CRLF CRLF), made on a response in state
`ChunkLength` with the chunked flag set and the data and completion callbacks
registered, returns with enough fuel (three turns of the loop per chunk and
three more), delivers exactly the chunks as data events in order, adds the sum
of their lengths to `_bytesRead`, then invokes complete once, consumes every
input byte and ends in `Complete`; no other field than `_chunkLength` changes. -/
theorem chunked_decode (r : HttpResponse) (chunks : List Str) (fuel : Nat)
    (hstate : r._state = .ChunkLength) (hchunked : r._chunked = true)
    (hdata : r._request._receiveData = true) (hdone : r._request._responseComplete = true)
    (hchunks : ∀ c ∈ chunks, c ≠ [] ∧ c.length < 2 ^ 31)
    (hfuel : 3 * chunks.length + 3 ≤ fuel) :
    processResponse fuel r (chunkedEncoding chunks) =
      some (.ok { r with _state := .Complete, _chunkLength := 0,
                         _bytesRead := r._bytesRead + ((chunks.map List.length).sum : Nat),
                         trace := r.trace ++ chunks.map (fun c => Event.receiveData c c.length)
                           ++ [Event.responseComplete] }
        (chunkedEncoding chunks).length) := by
  obtain ⟨k, rfl⟩ : ∃ k, fuel = (k + 3) + 3 * chunks.length := ⟨fuel - (3 * chunks.length + 3), by omega⟩
  have hch : ∀ c ∈ chunks, c ≠ [] ∧ c.length < 2147483648 := by
    intro c hc
    have := hchunks c hc
    exact ⟨this.1, by have h2 := this.2; norm_num at h2; exact h2⟩
  have hcur : Cursor (chunkedEncoding chunks) 0
      ((chunks.map encodeChunk).flatten ++ ("0".toList ++ CRLF ++ CRLF)) := Cursor.start _
  unfold processResponse
  rw [mainLoop_chunks _ _ chunks (k + 3) r 0 hstate hchunked hdata hch hcur]
  have hcur2 := hcur.advance (((chunks.map encodeChunk).flatten.length : Nat) : Int) rfl
  have hs2 : (chunks.foldl afterChunk r)._state = .ChunkLength := by
    rw [foldl_afterChunk]; exact hstate
  have hd2 : (chunks.foldl afterChunk r)._request._responseComplete = true := by
    rw [foldl_afterChunk]; exact hdone
  have hl : (chunkedEncoding chunks).length = (chunks.map encodeChunk).flatten.length + 5 := by
    unfold chunkedEncoding
    rw [List.length_append]
    rfl
  rw [mainLoop_last_chunk _ k _ _ hs2 hd2 hcur2, foldl_afterChunk, hl]
  congr 2
  push_cast
  omega

set_option maxRecDepth 100000 in
/-- C3, witness: `4 CRLF Wiki CRLF 5 CRLF pedia CRLF 0 CRLF CRLF` yields the data
`Wiki` and `pedia`, nine bytes, and completion. -/
theorem chunked_decode_witness :
    processResponse 9 chunkedPhase "4\r\nWiki\r\n5\r\npedia\r\n0\r\n\r\n".toList =
      some (.ok { chunkedPhase with _state := .Complete, _chunkLength := 0, _bytesRead := 9,
                                    trace := [Event.receiveData "Wiki".toList 4,
                                      Event.receiveData "pedia".toList 5,
                                      Event.responseComplete] } 24) :=
  chunked_decode chunkedPhase ["Wiki".toList, "pedia".toList] 9 rfl rfl rfl rfl
    (by decide) (by decide)

/-! ## C4: request serialization -/

/-- C4 (amended): from an Idle builder with an empty line buffer, over a transport
that accepts the bytes, for C strings `method`, `url`, host and header texts
whose request line fits the `MaxRequestSize` buffer (`strlen(method) +
strlen(url) + 10 < 512`), and a body of `sizeOfBody` bytes, `sendRequest`
transmits exactly the request line, `Host`, `Accept-Encoding: identity`, the
automatic `Content-Length` if and only if the body is not null and no caller
header is named `content-length` ignoring case, the caller's headers in order,
an empty line and the body; the builder ends Idle with an empty line buffer. -/
theorem sendRequest_serialization (net : Net) (q : HttpRequest) (method url : Str)
    (headers : Option (List (Str × Str))) (body : Option Str) (sizeOfBody : Int)
    (hidle : q._state = .Idle) (hbuf : q._currRequest = [])
    (hnet : TransportWorks net q)
    (hhost : IsCString q._host) (hmethod : IsCString method) (hurl : IsCString url)
    (hheaders : ∀ hs, headers = some hs → ∀ p ∈ hs, IsCString p.1 ∧ IsCString p.2)
    (hlen : method.length + url.length + 10 < MaxRequestSize)
    (hsize : ∀ b, body = some b → sizeOfBody = b.length) :
    ∃ q2, HttpRequest.sendRequest net q method url headers body sizeOfBody = .ok q2 () ∧
      q2.wire = q.wire ++ specRequestBytes q._host method url headers body sizeOfBody ∧
      q2._state = .Idle ∧ q2._currRequest = [] := by
  have hm := cstr_of_isCString hmethod
  have hu := cstr_of_isCString hurl
  have hh : headers.map (fun hs => hs.map (fun p => (cstr p.1, cstr p.2))) = headers := by
    rcases headers with _ | hs
    · rfl
    · simp only [Option.map_some']
      rw [HttpRequest.map_cstr_pairs hs (hheaders hs rfl)]
  obtain ⟨q2, e, w, s, c, _⟩ := HttpRequest.sendRequest_general net q method url headers body
    sizeOfBody hidle hbuf hnet (by rw [hm, hu]; exact hlen) hsize
  rw [hm, hu, hh, cstr_of_isCString hhost] at w
  exact ⟨q2, e, w, s, c⟩

/-- C4, witness: `POST /x` with one caller header and body `abc` against host
`h` puts the bytes of the specification on the wire. -/
theorem sendRequest_serialization_witness :
    ∃ q2, HttpRequest.sendRequest workingNet (HttpRequest.new "h".toList 80) "POST".toList
        "/x".toList (some [("Content-type".toList, "text/plain".toList)])
        (some "abc".toList) 3 = .ok q2 () ∧
      q2.wire = "POST /x HTTP/1.1\r\nHost: h\r\nAccept-Encoding: identity\r\nContent-Length: 3\r\nContent-type: text/plain\r\n\r\nabc".toList ∧
      q2._state = .Idle ∧ q2._currRequest = [] :=
  sendRequest_serialization workingNet (HttpRequest.new "h".toList 80) "POST".toList
    "/x".toList (some [("Content-type".toList, "text/plain".toList)]) (some "abc".toList) 3
    rfl rfl (by unfold TransportWorks; decide) (by unfold IsCString; decide)
    (by unfold IsCString; decide) (by unfold IsCString; decide)
    (by intro hs h p hp; cases h; simp only [List.mem_singleton] at hp; subst hp;
        unfold IsCString; decide)
    (by decide) (by intro b h; cases h; rfl)

set_option maxRecDepth 100000 in
/-- C4, counterexample: for a url of 600 bytes the request line does not fit the
512-byte buffer that `initRequest` formats it into; the call is undefined
behaviour and no request of the stated form is transmitted. -/
theorem sendRequest_long_url_undefined :
    HttpRequest.sendRequest workingNet (HttpRequest.new "h".toList 80) "GET".toList
      (List.replicate 600 'a') none none 0 = Outcome.undefined := by
  rfl

/-! ## C5: the no-body rules -/

/-- C5: for every response whose status is in [100,200) (100 in particular), is
204 or is 304, or whose method is `HEAD`, whatever its header map holds,
`initBody` sets the known body length `_contentLength` to zero. -/
theorem initBody_forces_zero_length (r : HttpResponse)
    (h : (100 ≤ r._status ∧ r._status < 200) ∨ r._status = 204 ∨ r._status = 304 ∨
      r._method = "HEAD".toList) :
    (initBody r)._contentLength = 0 := by
  have hc : hasNoBody r := by
    simpa [hasNoBody, NoContent, NotModified] using h
  simp only [initBody, enterBody_contentLength, notifyHeadersReady_contentLength,
    defaultAutoClose_contentLength]
  unfold applyNoBodyRule
  rw [if_pos ((hasNoBody_framing r).2 hc)]

/-- C5, witness: a 204 response that carries `Content-Length: 5`. -/
theorem initBody_forces_zero_length_witness :
    (HttpResponse.initBody noContentResponse)._contentLength = 0 :=
  initBody_forces_zero_length noContentResponse (Or.inr (Or.inl rfl))

/-! ## C6: header folding and lookup -/

/-- C6 (amended): for a header name `N` without colon that does not start with
white space, a value `V` and continuation lines made of white space followed by
a text `Wi` that does not itself start with white space (all of them C
strings), after `processHeader` has read `N: V`, the continuation lines and then
a line that is not a continuation (the next header line or the blank line),
`getHeader(N')` for every `N'` equal to `N` up to letter case returns `V`
followed by a space and `Wi` for each `i`, with the leading spaces and tabs of
that text removed; it is exactly that text when `V` starts with a character
other than space and tab.  `getHeader` of a name that is not a key of the map
returns null. -/
theorem header_folding (r : HttpResponse) (N V : Str) (conts : List (Str × Str))
    (next N' : Str)
    (hcolon : ':' ∉ N) (hN : IsCString N) (hNsp : ∀ c, N.head? = some c → isspace c = false)
    (hV : IsCString V)
    (hconts : ∀ p ∈ conts, p.1 ≠ [] ∧ (∀ c ∈ p.1, isspace c = true) ∧ IsCString p.2 ∧
      (∀ c, p.2.head? = some c → isspace c = false))
    (hnext : ∀ c, (cstr next).head? = some c → isspace c = false)
    (hN' : IsCString N') (hcase : lower N' = lower N) :
    (getHeader (processHeader
        (((N ++ ": ".toList ++ V) :: conts.map (fun p => p.1 ++ p.2)).foldl processHeader r)
        next) N' =
      some ((V ++ foldedText conts).dropWhile (fun c => c == '\t' || c == ' '))) ∧
    ((∃ c t, V = c :: t ∧ c ≠ '\t' ∧ c ≠ ' ') →
      getHeader (processHeader
        (((N ++ ": ".toList ++ V) :: conts.map (fun p => p.1 ++ p.2)).foldl processHeader r)
        next) N' = some (V ++ foldedText conts)) ∧
    (∀ (r0 : HttpResponse) (M : Str), (∀ p ∈ r0._headers, p.1 ≠ lower (cstr M)) →
      getHeader r0 M = none) := by
  have hval := folded_header_value r N V conts next N' hcolon hN hNsp hV hconts hnext hN' hcase
  refine ⟨hval, ?_, ?_⟩
  · rintro ⟨c, t, rfl, h1, h2⟩
    rw [hval]
    have hb : (c == '\t' || c == ' ') = false := by simp [h1, h2]
    simp only [List.cons_append, List.dropWhile, hb]
    rfl
  · intro r0 M h
    unfold getHeader
    rw [mapFind_eq_none _ _ h]
    rfl

/-- C6, witness: the lines `X: a` and ` b` followed by the blank line give
`getHeader("x") == "a b"`. -/
theorem header_folding_witness :
    getHeader (processHeader (["X: a".toList, " b".toList].foldl processHeader headerPhase) [])
      "x".toList = some "a b".toList :=
  (header_folding headerPhase "X".toList "a".toList [(" ".toList, "b".toList)] [] "x".toList
    (by decide) (by unfold IsCString; decide) (by decide) (by unfold IsCString; decide)
    (by intro p hp; simp only [List.mem_singleton] at hp; subst hp
        exact ⟨by decide, by decide, by unfold IsCString; decide, by decide⟩)
    (by decide) (by unfold IsCString; decide) (by decide)).2.1 ⟨'a', [], rfl, by decide, by decide⟩

/-- C6, counterexample: with the empty value, the lines `X: ` and ` b` give
`getHeader("x") == "b"`, not the empty value followed by a space and `b`. -/
theorem header_folding_empty_value :
    getHeader (processHeader (["X: ".toList, " b".toList].foldl processHeader headerPhase) [])
      "x".toList = some "b".toList ∧
    getHeader (processHeader (["X: ".toList, " b".toList].foldl processHeader headerPhase) [])
      "x".toList ≠ some ("".toList ++ (' ' :: "b".toList)) := by
  have h : getHeader (processHeader
      (["X: ".toList, " b".toList].foldl processHeader headerPhase) []) "x".toList =
      some "b".toList := by rfl
  exact ⟨h, by rw [h]; decide⟩

/-! ## C7: close completion -/

/-- C7 (amended): `connectionClosed()` on a response in state `Body` that is not
chunked and has unknown content length sets the state to `Complete` and invokes
the completion callback; on a response that is already `Complete` it returns
without raising and changes nothing; in every other state it raises the
invalid-state error and leaves the response as it was. -/
theorem connectionClosed_cases (r : HttpResponse) :
    (r._state = .Body ∧ r._chunked = false ∧ r._contentLength = -1 →
      connectionClosed r = .ok (complete r) () ∧ (complete r)._state = .Complete ∧
      (r._request._responseComplete = true →
        (complete r).trace = r.trace ++ [Event.responseComplete])) ∧
    (r._state = .Complete → connectionClosed r = .ok r ()) ∧
    (r._state ≠ .Complete → ¬ (r._state = .Body ∧ r._chunked = false ∧ r._contentLength = -1) →
      connectionClosed r = .thrown invalidStateError r) := by
  refine ⟨?_, ?_, ?_⟩
  · intro h
    refine ⟨?_, rfl, ?_⟩
    · simp [connectionClosed, h.1, h.2.1, h.2.2]
    · intro hcb
      simp [complete, hcb]
  · intro h
    simp [connectionClosed, h]
  · intro h1 h2
    simp only [connectionClosed, if_neg h1, if_neg h2]

/-- C7, witness: a close-delimited body is completed, a response that reads its
headers raises. -/
theorem connectionClosed_cases_witness :
    (connectionClosed closeDelimitedBody = .ok (complete closeDelimitedBody) () ∧
      (complete closeDelimitedBody)._state = .Complete ∧
      (complete closeDelimitedBody).trace = [Event.responseComplete]) ∧
    connectionClosed completedResponse = .ok completedResponse () ∧
    connectionClosed headerPhase = .thrown invalidStateError headerPhase :=
  ⟨⟨((connectionClosed_cases closeDelimitedBody).1 ⟨rfl, rfl, rfl⟩).1, rfl,
      ((connectionClosed_cases closeDelimitedBody).1 ⟨rfl, rfl, rfl⟩).2.2 rfl⟩,
    (connectionClosed_cases completedResponse).2.1 rfl,
    (connectionClosed_cases headerPhase).2.2 (by decide) (by decide)⟩

/-- C7, counterexample: on a `Complete` response `connectionClosed()` returns
normally; it does not raise a protocol error. -/
theorem connectionClosed_complete_no_error :
    connectionClosed completedResponse = .ok completedResponse () ∧
    connectionClosed completedResponse ≠ .thrown invalidStateError completedResponse := by
  have h : connectionClosed completedResponse = .ok completedResponse () := rfl
  exact ⟨h, by rw [h]; exact fun h2 => Outcome.noConfusion h2⟩

/-! ## C8: sequencing errors -/

/-- C8: `addHeader` (with a string or an `int` value) called while the builder
is Idle raises an error, and `initRequest` called while the builder is
InProgress raises an error; the connection that the `throw` leaves is the one
before the call, so its builder state, line buffer and pending-response queue
are unchanged. -/
theorem sequencing_errors_atomic (q1 q2 : HttpRequest) (name value method url : Str) (v : Int)
    (h1 : q1._state = .Idle) (h2 : q2._state = .InProgress) :
    HttpRequest.addHeader q1 name value = .thrown addHeaderError q1 ∧
    HttpRequest.addHeaderInt q1 name v = .thrown addHeaderError q1 ∧
    HttpRequest.initRequest q2 method url = .thrown alreadyStartedError q2 := by
  simp [HttpRequest.addHeader, HttpRequest.addHeaderInt, HttpRequest.initRequest, h1, h2]

/-- C8, witness: `addHeader` on a new connection and a second `initRequest` on a
connection that has started a request. -/
theorem sequencing_errors_atomic_witness :
    HttpRequest.addHeader idleRequest "A".toList "b".toList = .thrown addHeaderError idleRequest ∧
    HttpRequest.addHeaderInt idleRequest "A".toList 7 = .thrown addHeaderError idleRequest ∧
    HttpRequest.initRequest busyRequest "GET".toList "/".toList =
      .thrown alreadyStartedError busyRequest :=
  sequencing_errors_atomic idleRequest busyRequest "A".toList "b".toList "GET".toList
    "/".toList 7 rfl rfl

/-! ## C9: the byte count -/

/-- On a response that is already `Complete`, `processResponse` returns 0,
invokes no callback and changes nothing. -/
theorem processResponse_complete (fuel : Nat) (r : HttpResponse) (data : Str)
    (h : r._state = .Complete) : processResponse (fuel + 1) r data = some (.ok r 0) :=
  mainLoop_complete data fuel r 0 [] h

set_option maxRecDepth 100000 in
/-- C9 (code bug): on the 44 bytes of `negativeLengthMessage` a new response
raises no error, ends `Complete` and returns the count -59: `processData` takes
the negative remaining length as the number of bytes processed. -/
theorem negative_length_negative_count :
    negativeLengthMessage.length = 44 ∧
    ∃ r, processResponse 64 freshGet negativeLengthMessage = some (.ok r (-59)) ∧
      r._state = .Complete ∧
      r.trace = [Event.headersReady, Event.receiveData [] (-100), Event.responseComplete] :=
  ⟨rfl, _, rfl, rfl, rfl⟩

/-! ## C10: validation of the status line -/

/-- On a response that has not yet read a status line (`_versionStr` empty) the
validation is the stated one: the status error exactly when the second token
is outside [100, 999] for `atoi`, otherwise the version error exactly when the
first token neither starts with `HTTP/1.` nor is the literal `HTTP:/1.0` of the
source, otherwise success with the status recorded and the state `Header`. -/
theorem processStatusLine_first_line (r : HttpResponse) (line : Str)
    (h : r._versionStr = []) :
    ((atoi (statusTokens line).2.1 < 100 ∨ atoi (statusTokens line).2.1 > 999) →
      ∃ r1, processStatusLine r line = .thrown (invalidStatusError line) r1) ∧
    (¬ (atoi (statusTokens line).2.1 < 100 ∨ atoi (statusTokens line).2.1 > 999) →
      ¬ ((statusTokens line).1.take 7 = "HTTP/1.".toList ∨
        (statusTokens line).1 = "HTTP:/1.0".toList) →
      ∃ r1, processStatusLine r line = .thrown (invalidVersionError (statusTokens line).1) r1) ∧
    (¬ (atoi (statusTokens line).2.1 < 100 ∨ atoi (statusTokens line).2.1 > 999) →
      ((statusTokens line).1.take 7 = "HTTP/1.".toList ∨
        (statusTokens line).1 = "HTTP:/1.0".toList) →
      ∃ r1, processStatusLine r line = .ok r1 () ∧ r1._status = atoi (statusTokens line).2.1 ∧
        r1._state = .Header) := by
  refine ⟨?_, ?_, ?_⟩
  · intro hs
    unfold processStatusLine
    simp only []
    rw [if_pos hs]
    exact ⟨_, rfl⟩
  · intro hs hv
    unfold processStatusLine
    simp only [h, List.nil_append]
    rw [if_neg hs, if_neg (fun e => hv (Or.inr e)), if_neg (fun e => hv (Or.inl e))]
    exact ⟨_, rfl⟩
  · intro hs hv
    unfold processStatusLine
    simp only [h, List.nil_append]
    rw [if_neg hs]
    by_cases h10 : (statusTokens line).1 = "HTTP:/1.0".toList
    · rw [if_pos h10]
      exact ⟨_, rfl, rfl, rfl⟩
    · rw [if_neg h10, if_pos (hv.resolve_right h10)]
      exact ⟨_, rfl, rfl, rfl⟩

set_option maxRecDepth 100000 in
/-- C10 (code bug): after a `100 Continue` block the response is back in
`StatusLine` with `_versionStr` still `HTTP/1.1`; the version of the next line
is appended to it, so the line `FOO 200 OK`, whose first token neither starts
with `HTTP/1.` nor is a 1.0 form, is accepted: no version error is raised and
the state moves to `Header`. -/
theorem looped_back_version_accepted :
    ∃ r1 r2, processResponse 64 freshGet continueBlock = some (.ok r1 25) ∧
      r1._state = .StatusLine ∧
      processStatusLine r1 "FOO 200 OK".toList = .ok r2 () ∧
      r2._state = .Header ∧ r2._status = 200 ∧ r2._versionStr = "HTTP/1.1FOO".toList :=
  ⟨_, _, rfl, rfl, rfl, rfl, rfl, rfl⟩

/-! ## C11: the version token `HTTP/1.0` -/

/-- On a response that has not yet read a status line, a line whose version
token is `HTTP/1.0` is accepted by the `HTTP/1.` prefix test and recorded as
version 11: the 1.0 branch of the source compares with `HTTP:/1.0`. -/
theorem processStatusLine_http10 (r r1 : HttpResponse) (line : Str)
    (h : r._versionStr = []) (ht : (statusTokens line).1 = "HTTP/1.0".toList)
    (hok : processStatusLine r line = .ok r1 ()) : r1._version = 11 := by
  unfold processStatusLine at hok
  simp only [h, List.nil_append, ht] at hok
  split at hok
  · exact Outcome.noConfusion hok
  · rw [if_neg (by decide), if_pos (by decide)] at hok
    cases hok
    rfl

set_option maxRecDepth 100000 in
/-- C11 (code bug): the message `HTTP/1.0 200 OK` with `Content-Length: 3` and
neither `Keep-Alive` nor `Connection` is decoded completely, its version token
is `HTTP/1.0`, yet the version recorded is 11 and `autoClose()` is false. -/
theorem http10_recorded_as_version_11 :
    ∃ r, processResponse 64 freshGet http10Message = some (.ok r 41) ∧
      r._state = .Complete ∧ r._versionStr = "HTTP/1.0".toList ∧ r._version = 11 ∧
      getHeader r "content-length".toList = some "3".toList ∧
      getHeader r "keep-alive".toList = none ∧ getHeader r "connection".toList = none ∧
      autoClose r = false :=
  ⟨_, rfl, rfl, rfl, rfl, rfl, rfl, rfl, rfl⟩

/-! ## C12: `autoClose` of a version 1.1 response -/

/-- For a response recorded as version 11, `initBody()` leaves `_autoClose` true
exactly when `Connection` is `close` ignoring case, or the body is neither
chunked nor of a length other than -1 in `_contentLength`. -/
theorem initBody_autoClose_11 (r : HttpResponse) (h : r._version = 11) :
    (initBody r)._autoClose = true ↔
      connectionCloseHeader r = true ∨ (chunkedHeader r = false ∧ bodyLength r = -1) := by
  rw [initBody_eq]
  have hc : isAutoClose r = connectionCloseHeader r := by
    unfold isAutoClose connectionCloseHeader
    rw [if_pos h]
  simp only [hc, Bool.or_eq_true, Bool.and_eq_true, Bool.not_eq_true', decide_eq_true_eq]

set_option maxRecDepth 100000 in
/-- C12 (code bug): a version 1.1 response with the header `Content-Length: -1`,
no `Connection` header, no chunked encoding and no no-body rule leaves its
header block with `autoClose()` true, although a `Content-Length` header is
present: `atoi` yields -1, the value that stands for an unknown length. -/
theorem content_length_minus_one_sets_autoClose :
    ∃ r, processResponse 64 freshGet sentinelLengthMessage = some (.ok r 39) ∧
      r._version = 11 ∧ r._state = .Body ∧ r._chunked = false ∧ ¬hasNoBody r ∧
      getHeader r "content-length".toList = some "-1".toList ∧
      getHeader r "connection".toList = none ∧
      getHeader r "transfer-encoding".toList = none ∧
      autoClose r = true :=
  ⟨_, rfl, rfl, rfl, rfl, by decide, rfl, rfl, rfl, rfl⟩

/-! ## C13: header commit -/

/-- C13: `addHeader()` on an accumulated text `t` (a C string, as every text that
`processHeader` accumulates is).  An empty `t` changes nothing.  A non-empty `t`
changes the header map and the accumulator only: the map then holds under the
key `lower (t before its first colon)` exactly one entry, whose value is the
text after that colon without its leading tabs and spaces (empty when `t` has
no colon); every other key is looked up as before; the accumulator is empty.
Consequently, when a header line `l2` follows any header line `l1` (one of the
same name in particular) and is committed by the blank line, `getHeader` of a
name equal to the name of `l2` up to case returns the value of `l2`. -/
theorem header_commit (r : HttpResponse) (hc : IsCString r._currHeader) :
    (r._currHeader = [] → addHeader r = r) ∧
    (r._currHeader ≠ [] →
      addHeader r = { r with _headers := (addHeader r)._headers, _currHeader := [] } ∧
      mapFind (addHeader r)._headers (headerKey r._currHeader) =
        some (headerValue r._currHeader) ∧
      ((addHeader r)._headers.filter (fun p => p.1 == headerKey r._currHeader)).length = 1 ∧
      (∀ k, k ≠ headerKey r._currHeader →
        mapFind (addHeader r)._headers k = mapFind r._headers k) ∧
      (':' ∉ r._currHeader → headerValue r._currHeader = [])) ∧
    (∀ l1 l2 name : Str, IsCString l2 → IsCString name → StartsHeader l2 →
      headerKey l2 = lower name →
      getHeader (processHeader (processHeader (processHeader r l1) l2) []) name =
        some (headerValue l2)) := by
  refine ⟨?_, ?_, ?_⟩
  · intro h
    unfold addHeader
    rw [if_pos h]
  · intro hne
    rw [addHeader_nonempty r hc hne]
    refine ⟨rfl, mapFind_mapInsert _ _ _, filter_mapInsert_length _ _ _, ?_,
      headerValue_no_colon _⟩
    intro k hk
    exact mapFind_mapInsert_ne _ _ _ _ (fun e => hk e.symm)
  · intro l1 l2 name h2 hn s2 k2
    exact later_header_wins r l1 l2 name h2 hn s2 k2

/-- C13, witness: committing `Content-Type: text/html` over a stored
`content-type` leaves `text/html` under that key. -/
theorem header_commit_witness :
    IsCString pendingContentType._currHeader ∧
      mapFind (addHeader pendingContentType)._headers "content-type".toList =
        some "text/html".toList :=
  ⟨by unfold IsCString; decide,
    ((header_commit pendingContentType (by unfold IsCString; decide)).2.1 (by decide)).2.1⟩

/-! ## C14: bodies that the close of the connection ends -/

/-- C14: a response in state `Body`, not chunked, with the length unknown, given
a non-empty input and fuel for two turns of the loop: `processResponse` returns
the length of the input, the data callback (when registered) receives exactly
the input, `_bytesRead` grows by its length, and nothing else changes, so that
the state is still `Body` with an unknown length and the same holds for the
next input; `connectionClosed()` then completes the response. -/
theorem close_delimited_body (fuel : Nat) (r : HttpResponse) (data : Str)
    (hs : r._state = .Body) (hc : r._chunked = false) (hl : r._contentLength = -1)
    (hne : data ≠ []) :
    ∃ r1, processResponse (fuel + 2) r data = some (.ok r1 data.length) ∧
      r1 = { r with trace := if r._request._receiveData
                      then r.trace ++ [Event.receiveData data data.length] else r.trace,
                    _bytesRead := r._bytesRead + data.length } ∧
      r1._state = .Body ∧ r1._chunked = false ∧ r1._contentLength = -1 ∧
      completed r1 = false ∧
      connectionClosed r1 = .ok (complete r1) () ∧ completed (complete r1) = true := by
  refine ⟨_, ?_, rfl, hs, hc, hl, ?_, ?_, rfl⟩
  · unfold processResponse
    rw [mainLoop_body data (fuel + 1) r 0 data [] hs (Cursor.start data) hne]
    simp only [hc, Bool.false_eq_true, if_false, processData_unknown r data hl, zero_add]
    exact mainLoop_end data fuel _ _ [] ⟨data, (List.append_nil data).symm, rfl⟩
  · unfold completed
    simp [hs]
  · unfold connectionClosed
    rw [if_neg (by rw [hs]; decide), if_pos ⟨hs, hc, hl⟩]

/-- C14, witness: two more bytes of a body that only the close ends. -/
theorem close_delimited_body_witness :
    ∃ r1, processResponse 2 closeDelimitedAfterTwo "cd".toList = some (.ok r1 2) ∧
      r1.trace = [Event.headersReady, Event.receiveData "ab".toList 2,
                  Event.receiveData "cd".toList 2] ∧
      r1._bytesRead = 4 ∧ r1._state = .Body := by
  obtain ⟨r1, h1, h2, h3, -⟩ :=
    close_delimited_body 0 closeDelimitedAfterTwo "cd".toList rfl rfl rfl (by decide)
  exact ⟨r1, h1, by rw [h2]; rfl, by rw [h2]; rfl, h3⟩

/-! ## C15: the discipline of the callbacks -/

/-- C15: for a new response and every sequence of `processResponse` and
`connectionClosed` calls, run up to the first exception, the trace of the
callbacks invoked has the form: at most one headers-ready, then data events,
then at most one complete.  The complete event is in the trace exactly when the
response is complete and that callback is registered.  A complete response is
left as it is by every further call: no state changes and no event is added. -/
theorem callback_discipline (fuel : Nat) (method : Str) (cb : Callbacks) (calls : List Call)
    (r : HttpResponse) (h : runCalls fuel calls (HttpResponse.new method cb) = some r) :
    traceForm r.trace = true ∧
    (Event.responseComplete ∈ r.trace ↔ (completed r = true ∧ cb._responseComplete = true)) ∧
    (completed r = true → ∀ (call : Call) (fuel1 : Nat), runCalls (fuel1 + 1) [call] r = some r) := by
  have hi := runCalls_inv cb fuel calls _ r (new_inv method cb) h
  exact ⟨inv_traceForm cb r hi, inv_complete_event cb r hi,
    fun hc call fuel1 => runCalls_complete r hc call fuel1⟩

set_option maxRecDepth 100000 in
/-- C15, witness: a whole message, a close notification and one more byte on a
new response: the events are headers-ready, one data event and complete. -/
theorem callback_discipline_witness :
    ∃ r, runCalls 64 [Call.processResponse smallMessage, Call.connectionClosed,
        Call.processResponse "x".toList] (HttpResponse.new "GET".toList allCallbacks) = some r ∧
      r.trace = [Event.headersReady, Event.receiveData "abc".toList 3,
                 Event.responseComplete] ∧
      traceForm r.trace = true :=
  ⟨_, rfl, rfl, (callback_discipline 64 "GET".toList allCallbacks
    [Call.processResponse smallMessage, Call.connectionClosed,
      Call.processResponse "x".toList] _ rfl).1⟩

/-! ## C16: chunked encoding and `Content-Length` -/

/-- C16: for a response that no no-body rule applies to.  When the headers hold
`Transfer-Encoding` with a value equal to `chunked` ignoring case, `initBody()`
sets the chunked flag, leaves `_contentLength` at -1 whatever `Content-Length`
says, and moves to `ChunkLength`.  When they hold no such header, it clears the
chunked flag, moves to `Body`, and `_contentLength` is what `atoi` reads in
`Content-Length` if that header is present and -1 if not. -/
theorem chunked_precedence (r : HttpResponse) (hn : ¬hasNoBody r) :
    (∀ te, getHeader r "transfer-encoding".toList = some te →
      strcaseeq te "chunked".toList = true →
      (initBody r)._chunked = true ∧ (initBody r)._contentLength = -1 ∧
        (initBody r)._state = .ChunkLength) ∧
    ((∀ te, getHeader r "transfer-encoding".toList = some te →
        strcaseeq te "chunked".toList = false) →
      (initBody r)._chunked = false ∧ (initBody r)._state = .Body ∧
        (∀ length, getHeader r "content-length".toList = some length →
          (initBody r)._contentLength = atoi length) ∧
        (getHeader r "content-length".toList = none → (initBody r)._contentLength = -1)) := by
  rw [initBody_eq]
  constructor
  · intro te hte hch
    have hc : chunkedHeader r = true := by
      unfold chunkedHeader
      rw [hte]
      exact hch
    refine ⟨hc, ?_, ?_⟩
    · show bodyLength r = -1
      rw [bodyLength_body r hn, if_pos hc]
    · show (if chunkedHeader r = true then ResponseState.ChunkLength else .Body) = _
      rw [if_pos hc]
  · intro hte
    have hc : chunkedHeader r = false := by
      unfold chunkedHeader
      cases h : getHeader r "transfer-encoding".toList with
      | none => rfl
      | some te => exact hte te h
    refine ⟨hc, ?_, ?_, ?_⟩
    · show (if chunkedHeader r = true then ResponseState.ChunkLength else .Body) = _
      rw [hc]
      rfl
    · intro length hlen
      show bodyLength r = _
      rw [bodyLength_body r hn, hc, hlen]
      rfl
    · intro hlen
      show bodyLength r = _
      rw [bodyLength_body r hn, hc, hlen]
      rfl

/-- C16, witness: with `Transfer-Encoding: Chunked` and `Content-Length: 5` the
body is chunked and its length is unknown. -/
theorem chunked_precedence_witness :
    ¬hasNoBody chunkedWithLength ∧
      (initBody chunkedWithLength)._chunked = true ∧
      (initBody chunkedWithLength)._contentLength = -1 ∧
      (initBody chunkedWithLength)._state = .ChunkLength :=
  ⟨by decide, (chunked_precedence chunkedWithLength (by decide)).1 "Chunked".toList rfl rfl⟩

/-! ## C17: bodies of length zero -/

set_option maxRecDepth 100000 in
/-- C17 (code bug): after the blank line of a `204 No Content` message, and as
well of a message with `Content-Length: 0`, all the input is consumed, the
length is 0 and the body is not chunked, yet the state is `Body`, the complete
callback has not fired, and a close notification raises the invalid-state
error; one further input byte is what completes the response. -/
theorem zero_length_body_not_complete :
    (∃ r, processResponse 64 freshGet noContentMessage = some (.ok r 27) ∧
      r._state = .Body ∧ r._contentLength = 0 ∧ r._chunked = false ∧
      completed r = false ∧ r.trace = [Event.headersReady] ∧
      connectionClosed r = .thrown invalidStateError r ∧
      ∃ r2, processResponse 64 r "H".toList = some (.ok r2 0) ∧ completed r2 = true) ∧
    (∃ r, processResponse 64 freshGet zeroLengthMessage = some (.ok r 38) ∧
      r._state = .Body ∧ r._contentLength = 0 ∧ r._chunked = false ∧
      completed r = false ∧ r.trace = [Event.headersReady] ∧
      connectionClosed r = .thrown invalidStateError r) :=
  ⟨⟨_, rfl, rfl, rfl, rfl, rfl, rfl, rfl, _, rfl, rfl⟩, ⟨_, rfl, rfl, rfl, rfl, rfl, rfl, rfl⟩⟩

/-! ## C18: the end of the stream -/

/-- C18 (amended): a `processRequest` step with a non-empty queue, a readable
socket and a receive of 0 bytes.  When the first response of the queue is
complete or reads a body of unknown length that is not chunked,
`connectionClosed()` returns, the step returns normally, and after it the socket
is -1 and the queue is empty, the events of the close notification recorded.
In every other state of that response the step ends with the invalid-state
exception and leaves the connection as it was: the queue and the socket are
unchanged. -/
theorem end_of_stream_teardown (outer inner : Nat) (net : Net) (io : SocketStep)
    (q : HttpRequest) (head : HttpResponse) (rest : List HttpResponse)
    (hq : q._pendingResponses = head :: rest)
    (hsel : ¬ io.selectResult < 0) (hrd : io.readable = true) (hrecv : io.received = some []) :
    ((head._state = .Complete ∨
        (head._state = .Body ∧ head._chunked = false ∧ head._contentLength = -1)) →
      ∃ q1 r1, HttpRequest.processRequest outer inner net io q = some (.ok q1 ()) ∧
        connectionClosed head = .ok r1 () ∧
        q1._socket = -1 ∧ q1._pendingResponses = [] ∧
        HttpRequest.responsesPending q1 = false ∧
        q1.events = q.events ++ HttpRequest.newEvents head r1) ∧
    (¬ (head._state = .Complete ∨
        (head._state = .Body ∧ head._chunked = false ∧ head._contentLength = -1)) →
      HttpRequest.processRequest outer inner net io q = some (.thrown invalidStateError q) ∧
        connectionClosed head = .thrown invalidStateError head) := by
  have hstep : HttpRequest.processRequest outer inner net io q =
      match connectionClosed head with
      | .ok r1 _ =>
        some (.ok (HttpRequest.cleanUp
          { q with events := q.events ++ HttpRequest.newEvents head r1,
                   _pendingResponses := rest }) ())
      | .thrown e r1 => some (.thrown e { q with _pendingResponses := r1 :: rest })
      | .aborted => some .aborted
      | .undefined => some .undefined := by
    unfold HttpRequest.processRequest
    rw [hq]
    simp only [hrecv]
    rw [if_neg hsel, if_neg (by rw [hrd]; decide), if_pos trivial]
  constructor
  · intro h
    have hc : ∃ r1, connectionClosed head = .ok r1 () := by
      unfold connectionClosed
      rcases h with h | h
      · rw [if_pos h]
        exact ⟨_, rfl⟩
      · by_cases hcomp : head._state = .Complete
        · rw [if_pos hcomp]
          exact ⟨_, rfl⟩
        · rw [if_neg hcomp, if_pos h]
          exact ⟨_, rfl⟩
    obtain ⟨r1, hr1⟩ := hc
    rw [hstep, hr1]
    exact ⟨_, r1, rfl, rfl, rfl, rfl, rfl, rfl⟩
  · intro h
    have hc : connectionClosed head = .thrown invalidStateError head := by
      unfold connectionClosed
      rw [if_neg (fun e => h (Or.inl e)), if_neg (fun e => h (Or.inr e))]
    rw [hstep, hc]
    refine ⟨?_, rfl⟩
    simp only [← hq]

/-- C18, witness: the end of the stream while the first response reads a body
that only the close ends: the step returns with the socket closed and no
response awaited. -/
theorem end_of_stream_teardown_witness :
    ∃ q1, HttpRequest.processRequest 8 64 workingNet endOfStream closeDelimitedPending =
        some (.ok q1 ()) ∧
      q1._socket = -1 ∧ q1._pendingResponses = [] ∧ q1.events = [Event.responseComplete] := by
  obtain ⟨q1, r1, h1, h2, h3, h4, -, h6⟩ :=
    (end_of_stream_teardown 8 64 workingNet endOfStream closeDelimitedPending
      closeDelimitedBody [freshGet] rfl (by decide) rfl rfl).1 (Or.inr ⟨rfl, rfl, rfl⟩)
  refine ⟨q1, h1, h3, h4, ?_⟩
  rw [h6]
  cases h2
  rfl

set_option maxRecDepth 100000 in
/-- C18, counterexample: the end of the stream while the first of three awaited
responses has not received its status line: the step ends with the
invalid-state exception, the socket is still 3 and the three responses are
still awaited. -/
theorem end_of_stream_before_status_line :
    HttpRequest.processRequest 8 64 workingNet endOfStream threePending =
        some (.thrown invalidStateError threePending) ∧
      threePending._socket = 3 ∧ threePending._pendingResponses.length = 3 ∧
      HttpRequest.responsesPending threePending = true :=
  ⟨rfl, rfl, rfl, rfl⟩

/-! ## C19: dispatch of one received buffer -/

/-- C19: a connection whose callbacks are registered and whose queue starts
with new responses for `m` requests, followed by any further responses, and a
buffer that is the concatenation of `m` well-formed messages, each with a
`Content-Length` body of at least one byte or a chunked body, in answer to those
requests.  With fuel for the turns of the loops, the dispatch loop returns
normally, the events recorded are those of the messages in the order of the
queue, and the queue that is left is the one of the further responses: the
first `m` responses have left it.  A `processRequest` step that receives the
buffer (which is not empty when `m >= 1`) on a readable socket is that
dispatch. -/
theorem fifo_dispatch (outer inner : Nat) (q : HttpRequest) (pairs : List (Str × Message))
    (others : List HttpResponse)
    (hcb : q._callbacks._headersReady = true ∧ q._callbacks._receiveData = true ∧
      q._callbacks._responseComplete = true)
    (hwf : ∀ p ∈ pairs, WellFormedMessage p.1 p.2 ∧ p.2.turns ≤ inner)
    (hq : q._pendingResponses =
      pairs.map (fun p => HttpResponse.new p.1 q._callbacks) ++ others)
    (houter : pairs.length + 1 ≤ outer) :
    HttpRequest.dispatchLoop inner (pairs.map (fun p => p.2.bytes)).flatten outer q 0 =
      some (.ok { q with events := q.events ++ (pairs.map (fun p => p.2.events)).flatten,
                         _pendingResponses := others } ()) ∧
    (∀ (net : Net) (io : SocketStep), pairs ≠ [] → ¬ io.selectResult < 0 →
      io.readable = true → io.received = some (pairs.map (fun p => p.2.bytes)).flatten →
      HttpRequest.processRequest outer inner net io q =
        some (.ok { q with events := q.events ++ (pairs.map (fun p => p.2.events)).flatten,
                           _pendingResponses := others } ())) ∧
    others.length + pairs.length = q._pendingResponses.length := by
  have hloop := HttpRequest.dispatchLoop_messages q._callbacks inner
    (pairs.map (fun p => p.2.bytes)).flatten hcb pairs outer q others [] hwf hq
    (List.nil_append _).symm houter
  have hloop0 : HttpRequest.dispatchLoop inner (pairs.map (fun p => p.2.bytes)).flatten outer q 0 =
      some (.ok { q with events := q.events ++ (pairs.map (fun p => p.2.events)).flatten,
                         _pendingResponses := others } ()) := hloop
  refine ⟨hloop0, ?_, ?_⟩
  · intro net io hne hsel hrd hrecv
    obtain ⟨p, ps, rfl⟩ := List.exists_cons_of_ne_nil hne
    have hdne : ¬ (p.2.bytes :: ps.map (fun p => p.2.bytes)).flatten = [] := by
      intro e
      have h1 := congrArg List.length e
      have h2 := message_bytes_pos p.2
      simp only [List.flatten_cons, List.length_append, List.length_nil] at h1
      omega
    unfold HttpRequest.processRequest
    rw [hq]
    simp only [List.map_cons, List.cons_append, hrecv]
    rw [if_neg hsel, if_neg (by rw [hrd]; decide), if_neg hdne]
    exact hloop0
  · rw [hq, List.length_append, List.length_map]
    omega

/-- C19, witness: three `GET` requests await their responses and one buffer
brings the message with the body `abc` and the chunked message `Wiki`, `pedia`:
the events of both messages are recorded in that order and the third response
is still awaited. -/
theorem fifo_dispatch_witness :
    HttpRequest.processRequest 3 12 workingNet
        ⟨1, true, some (abcMessage.bytes ++ (wikiMessage.bytes ++ []))⟩ threePending =
      some (.ok { threePending with
        events := [Event.headersReady, Event.receiveData "abc".toList 3, Event.responseComplete,
          Event.headersReady, Event.receiveData "Wiki".toList 4,
          Event.receiveData "pedia".toList 5, Event.responseComplete],
        _pendingResponses := [freshGet] } ()) :=
  (fifo_dispatch 3 12 threePending [("GET".toList, abcMessage), ("GET".toList, wikiMessage)]
    [freshGet] (by decide)
    (by
      intro p hp
      simp only [List.mem_cons, List.mem_singleton, List.not_mem_nil, or_false] at hp
      rcases hp with rfl | rfl
      · exact ⟨⟨by decide, by decide, by decide,
          fun h hh => absurd hh (List.not_mem_nil h),
          show 1 ≤ "abc".toList.length ∧ "abc".toList.length < 2 ^ 31 by decide⟩, by decide⟩
      · exact ⟨⟨by decide, by decide, by decide,
          fun h hh => absurd hh (List.not_mem_nil h),
          show ∀ c ∈ ["Wiki".toList, "pedia".toList], c ≠ [] ∧ c.length < 2 ^ 31 by decide⟩,
          by decide⟩)
    rfl (by decide)).2.1 workingNet _ (by simp) (by decide) rfl rfl

/-- The bytes of the two messages of the witness of C19. -/
theorem witness_message_bytes :
    abcMessage.bytes = "HTTP/1.1 200 OK\r\nContent-Length: 3\r\n\r\nabc".toList ∧
    wikiMessage.bytes =
      "HTTP/1.1 200 OK\r\nTransfer-Encoding: chunked\r\n\r\n4\r\nWiki\r\n5\r\npedia\r\n0\r\n\r\n".toList :=
  ⟨by decide, by decide⟩

/-! ## C20: the no-body rule and `Transfer-Encoding: chunked` -/

/-- Under a no-body rule `initBody()` sets `_contentLength` to 0 and nothing
else: with `Transfer-Encoding: chunked` the chunked flag stays set and the next
state is `ChunkLength`. -/
theorem initBody_noBody_chunked (r : HttpResponse) (hn : hasNoBody r)
    (hc : chunkedHeader r = true) :
    (initBody r)._contentLength = 0 ∧ (initBody r)._chunked = true ∧
      (initBody r)._state = .ChunkLength := by
  rw [initBody_eq]
  refine ⟨bodyLength_noBody r hn, hc, ?_⟩
  simp only [hc, if_true]

set_option maxRecDepth 100000 in
/-- C20 (code bug): a response to `HEAD` whose headers include
`Transfer-Encoding: chunked` has its length set to 0, but the chunk that
follows the header block is decoded and its five bytes are delivered to the
data callback. -/
theorem head_response_delivers_chunk :
    hasNoBody freshHead ∧
    ∃ r, processResponse 64 freshHead chunkedHello = some (.ok r 62) ∧
      r._contentLength = 0 ∧ r._chunked = true ∧
      r.trace = [Event.headersReady, Event.receiveData "hello".toList 5,
                 Event.responseComplete] ∧
      deliveredBytes r.trace = 5 :=
  ⟨by decide, _, rfl, rfl, rfl, rfl, rfl⟩

/-! ## C21: the blank line after the headers -/

/-- C21: on a response in state `Header` the empty line, fed as CRLF with fuel for
two turns of the loop, is handled by `processHeader`.  With status 100 the
response is the one `addHeader()` leaves (the pending header committed), moved
back to `StatusLine`, with the trace as it was: no callback is invoked.  With
any other status it is the one `initBody()` leaves after that commit: the trace
gains headers-ready, once, when that callback is registered, and the state is
`ChunkLength` or `Body`. -/
theorem continue_loop (fuel : Nat) (r : HttpResponse) (hs : r._state = .Header) :
    processResponse (fuel + 2) r CRLF = some (.ok (processHeader r []) 2) ∧
    (r._status = Continue →
      processHeader r [] = { addHeader r with _state := .StatusLine } ∧
      (processHeader r []).trace = r.trace) ∧
    (r._status ≠ Continue →
      processHeader r [] = initBody (addHeader r) ∧
      (processHeader r []).trace = r.trace ++ headersReadyEvents r._request ∧
      ((processHeader r [])._state = .ChunkLength ∨ (processHeader r [])._state = .Body)) := by
  refine ⟨?_, ?_, ?_⟩
  · have hcur : Cursor CRLF 0 (['\r'] ++ '\n' :: []) := Cursor.start _
    have hd : dispatchLine r (['\r'].filter (fun c => c != '\r')) =
        .ok (processHeader r []) () := by
      have hf : ['\r'].filter (fun c => c != '\r') = [] := by decide
      rw [hf]
      unfold dispatchLine
      rw [hs]
    unfold processResponse
    rw [mainLoop_line CRLF (fuel + 1) r _ 0 _ [] (by rw [hs]; rfl) hcur (by decide) hd]
    exact mainLoop_end CRLF fuel _ _ [] hcur.next_line
  · intro h
    have e : processHeader r [] = { addHeader r with _state := .StatusLine } := by
      unfold processHeader
      simp only [if_true]
      rw [if_pos (by rw [addHeader_status]; exact h)]
    rw [e]
    exact ⟨rfl, addHeader_trace r⟩
  · intro h
    have e : processHeader r [] = initBody (addHeader r) := by
      unfold processHeader
      simp only [if_true]
      rw [if_neg (by rw [addHeader_status]; exact h)]
    rw [e, initBody_eq]
    refine ⟨rfl, ?_, ?_⟩
    · show (if (addHeader r)._request._headersReady = true
          then (addHeader r).trace ++ [Event.headersReady] else (addHeader r).trace) = _
      rw [addHeader_request, addHeader_trace]
      unfold headersReadyEvents
      split
      · rfl
      · exact (List.append_nil _).symm
    · show (if chunkedHeader (addHeader r) = true then ResponseState.ChunkLength
          else ResponseState.Body) = .ChunkLength ∨ _
      split
      · exact Or.inl rfl
      · exact Or.inr rfl

/-- C21, witness: the blank line after the header `A: b` of a `100` response
commits the header, leads back to `StatusLine` and invokes no callback. -/
theorem continue_loop_witness :
    ∃ r, processResponse 2 continuePending CRLF = some (.ok r 2) ∧
      r._state = .StatusLine ∧ r.trace = [] ∧
      getHeader r "a".toList = some "b".toList := by
  obtain ⟨h1, h2, -⟩ := continue_loop 0 continuePending rfl
  exact ⟨_, h1, by rw [(h2 rfl).1], by rw [(h2 rfl).2]; rfl, by rfl⟩

/-! ## C22: the status and the reason of the last status line -/

/-- Whenever `processStatusLine` succeeds, the status is the second token of
the line as `atoi` reads it, and the reason is the reason held before the call
followed by the third token: it is appended, not assigned. -/
theorem processStatusLine_fields (r r1 : HttpResponse) (line : Str)
    (h : processStatusLine r line = .ok r1 ()) :
    getStatus r1 = atoi (statusTokens line).2.1 ∧
      r1._reason = r._reason ++ (statusTokens line).2.2 := by
  unfold processStatusLine at h
  simp only [] at h
  split at h
  · exact Outcome.noConfusion h
  · split at h
    · cases h
      exact ⟨rfl, rfl⟩
    · split at h
      · cases h
        exact ⟨rfl, rfl⟩
      · exact Outcome.noConfusion h

set_option maxRecDepth 100000 in
/-- C22 (code bug): after the block `HTTP/1.1 100 Continue` the status line
`HTTP/1.1 200 OK` succeeds and `getStatus()` is 200, but `getReason()` is
`ContinueOK`, not `OK`: the reason of the interim response is still there. -/
theorem reason_accumulates_after_continue :
    ∃ r, processResponse 64 freshGet continueThenOk = some (.ok r 42) ∧
      r._state = .Header ∧ getStatus r = 200 ∧
      getReason r = "ContinueOK".toList ∧ getReason r ≠ "OK".toList :=
  ⟨_, rfl, rfl, rfl, rfl, by decide⟩

/-! ## C23: the trailer -/

/-- C23: on a response in state `Trailer`, for every input that contains a line
feed and fuel for two turns of the loop, `processResponse` returns the number of
bytes up to and including the first line feed, whatever the line holds, and
leaves the response that `complete()` makes of it: the state is `Complete`, the
header map is unchanged, and the trace gains the complete event, once, when that
callback is registered. -/
theorem trailer_line (fuel : Nat) (r : HttpResponse) (data : Str)
    (hs : r._state = .Trailer) (hlf : '\n' ∈ data) :
    processResponse (fuel + 2) r data =
        some (.ok (complete r) ((data.takeWhile (fun c => c != '\n')).length + 1 : Nat)) ∧
      (complete r)._state = .Complete ∧ (complete r)._headers = r._headers ∧
      (complete r).trace = r.trace ++ completeEvents r._request ∧
      (data.takeWhile (fun c => c != '\n')).length + 1 ≤ data.length := by
  obtain ⟨line, hline⟩ : ∃ line, line = data.takeWhile (fun c => c != '\n') := ⟨_, rfl⟩
  have hnot : '\n' ∉ line := by
    rw [hline]
    intro hm
    have := List.mem_takeWhile_imp hm
    simp at this
  have hdrop : ∃ rest, data.dropWhile (fun c => c != '\n') = '\n' :: rest := by
    cases hd : data.dropWhile (fun c => c != '\n') with
    | nil =>
      rw [List.dropWhile_eq_nil_iff] at hd
      have := hd _ hlf
      simp at this
    | cons c rest =>
      have hc := List.head_dropWhile_not (fun c => c != '\n') data
        (by rw [hd]; exact List.cons_ne_nil _ _)
      simp only [hd, List.head_cons] at hc
      have : c = '\n' := by simpa using hc
      exact ⟨rest, by rw [this]⟩
  obtain ⟨rest, hrest⟩ := hdrop
  have hdata : data = line ++ '\n' :: rest := by
    rw [hline, ← hrest, List.takeWhile_append_dropWhile]
  rw [← hline]
  refine ⟨?_, rfl, rfl, ?_, ?_⟩
  · have hcur : Cursor data 0 (line ++ '\n' :: rest) := by
      rw [← hdata]
      exact Cursor.start _
    have hd : dispatchLine r (line.filter (fun c => c != '\r')) = .ok (complete r) () := by
      unfold dispatchLine
      rw [hs]
      rfl
    unfold processResponse
    rw [mainLoop_line data (fuel + 1) r _ 0 line rest (by rw [hs]; rfl) hcur hnot hd,
      mainLoop_complete data fuel _ _ [] rfl]
    congr 2
    simp
  · unfold complete completeEvents
    simp only []
    split
    · rfl
    · exact (List.append_nil _).symm
  · rw [hdata, List.length_append, List.length_cons]
    omega

/-- C23, witness: a trailer field followed by more bytes: the first line, twelve
bytes, completes the response and the header map is as before. -/
theorem trailer_line_witness :
    processResponse 2 trailerPhase "X-Foo: bar\r\nmore\r\n".toList =
        some (.ok (complete trailerPhase) 12) ∧
      (complete trailerPhase)._headers = [("transfer-encoding".toList, "chunked".toList)] ∧
      (complete trailerPhase).trace = [Event.responseComplete] :=
  ⟨(trailer_line 0 trailerPhase "X-Foo: bar\r\nmore\r\n".toList rfl (by decide)).1, rfl, rfl⟩

/-! ## C24: progress of the main loop -/

set_option maxRecDepth 100000 in
/-- C24 (code bug): on `negativeChunkMessage`, whose chunk-size line reads `-5`,
a new response never returns from `processResponse`: whatever the fuel, the
main loop has not ended.  After the chunk-size line the data turn takes -5 as
the number of bytes processed, which moves the read position back from 50 to
45, before the line end that it has already read; that line end and the
chunk-size line are then read again, without end. -/
theorem negative_chunk_size_never_returns :
    negativeChunkMessage.length = 51 ∧
    ∀ fuel : Nat, processResponse fuel freshGet negativeChunkMessage = none := by
  refine ⟨by decide, ?_⟩
  intro fuel
  unfold processResponse
  rcases fuel with _ | _ | _ | fuel
  · rfl
  · rfl
  · rfl
  · obtain ⟨r, hs, hc, h⟩ := negativeChunk_headers fuel
    rw [h]
    exact negativeChunk_loops fuel r hs hc

/-! ## C25: pieces of input that end at a line or inside the data -/

/-- C25, for bodies of at least one byte: a well-formed message (a
`Content-Length` body of 1 to 2^31 - 1 bytes, or non-empty chunks) in answer to
a request whose callbacks are registered, and a split of its bytes into pieces, given as lists of fragments:
whole lines, and non-empty parts of the data of the body or of a chunk, where a
part that is not the last of its data ends its piece (the cut is inside the
data) and every other piece ends after a line or after the data.  The pieces
are the bytes of the message.  With fuel for one turn of the loop per fragment,
one `processResponse` call on the message and successive calls on the pieces
both return, in total, the length of the message, and leave responses that are
equal in every field but the trace: same status, reason, header map and state
`Complete`.  The trace of the pieces has one headers-ready and one complete
event, as the one of the single call, and delivers the same data. -/
theorem fragmentation_invariance (method : Str) (cb : Callbacks) (m : Message)
    (groups : List (List Fragment)) (fuel : Nat)
    (hcb : cb._headersReady = true ∧ cb._receiveData = true ∧ cb._responseComplete = true)
    (hwf : WellFormedMessage method m)
    (href : Refines groups.flatten m.atoms) (hgr : ∀ g ∈ groups, Grouped g)
    (hfuel : groups.flatten.length + 1 ≤ fuel) :
    (groups.map wireOf).flatten = m.bytes ∧
    ∃ r rP,
      processResponse fuel (HttpResponse.new method cb) m.bytes =
        some (.ok r m.bytes.length) ∧
      feedPieces fuel (HttpResponse.new method cb) (groups.map wireOf) =
        some (rP, ((m.bytes.length : Nat) : Int)) ∧
      rP = { r with trace := rP.trace } ∧
      getStatus rP = getStatus r ∧ getReason rP = getReason r ∧ rP._headers = r._headers ∧
      rP._state = .Complete ∧ r._state = .Complete ∧
      r.trace = m.events ∧
      countHeadersReady rP.trace = 1 ∧ countComplete rP.trace = 1 ∧
      deliveredData rP.trace = deliveredData r.trace := by
  have hlen := refines_length href
  obtain ⟨rA, hA⟩ := runFragments_message method cb m hcb hwf
  have hone := processResponse_fragments m.atoms _ rA fuel hA (refines_grouped href)
    (by omega)
  rw [wireOf_atoms] at hone
  obtain ⟨r0, h0, ht0, hs0⟩ := processResponse_message method cb m [] fuel hcb hwf
    (by rw [← atoms_turns]; omega)
  rw [List.append_nil, hone] at h0
  have hr0 : rA = r0 := by
    have := Option.some.inj h0
    cases this
    rfl
  obtain ⟨rF, hF, hsame⟩ := runFragments_refines href _ rA hA
  have hfeed := feedPieces_groups fuel groups _ rF hF
    (fun g hg => ⟨hgr g hg, by have := length_le_flatten groups g hg; omega⟩)
  rw [refines_wire href, wireOf_atoms] at hfeed
  obtain ⟨e1, e2, e3, e4⟩ := hsame
  have hcount := events_counts m
  rw [hr0] at hone e1 e2 e3 e4
  refine ⟨by rw [wireOf_flatten, refines_wire href, wireOf_atoms], r0, rF, hone, hfeed, e1,
    ?_, ?_, ?_, ?_, hs0, ht0, ?_, ?_, e4⟩
  · rw [e1]; rfl
  · rw [e1]; rfl
  · rw [e1]; rfl
  · rw [e1]; exact hs0
  · rw [e2, ht0]; exact hcount.1
  · rw [e3, ht0]; exact hcount.2

set_option maxRecDepth 100000 in
/-- C25, bodies of at least one byte, at a concrete input: the message `200 OK` with the body `abc`, fed as the status
line, then the rest of the header block with the first byte of the body, then
the last two bytes: the calls return 41 in total, and the data delivered is
`abc`, with one headers-ready and one complete event. -/
theorem fragmentation_invariance_witness :
    abcSplit.map wireOf = ["HTTP/1.1 200 OK\r\n".toList,
      "Content-Length: 3\r\n\r\na".toList, "bc".toList] ∧
    ∃ rP, feedPieces 6 freshGet (abcSplit.map wireOf) = some (rP, 41) ∧
      rP._state = .Complete ∧ countHeadersReady rP.trace = 1 ∧ countComplete rP.trace = 1 ∧
      deliveredData rP.trace = "abc".toList := by
  refine ⟨by decide, ?_⟩
  obtain ⟨-, r, rP, -, h2, -, -, -, -, h3, -, h4, h5, h6, h7⟩ :=
    fragmentation_invariance "GET".toList allCallbacks abcMessage abcSplit 6 (by decide)
      ⟨by decide, by decide, by decide, fun h hh => absurd hh (List.not_mem_nil h),
        show 1 ≤ "abc".toList.length ∧ "abc".toList.length < 2 ^ 31 by decide⟩
      (Refines.line _ (Refines.line _ (Refines.line _
        (Refines.cut "a".toList "bc".toList (by decide) (by decide)
          (Refines.whole "bc".toList Refines.nil)))))
      (by
        intro g hg
        simp only [abcSplit, List.mem_cons, List.mem_singleton, List.not_mem_nil, or_false] at hg
        rcases hg with rfl | rfl | rfl
        · exact trivial
        · exact ⟨Or.inr rfl, trivial⟩
        · exact ⟨Or.inl rfl, trivial⟩)
      (by decide)
  refine ⟨rP, h2, h3, h5, h6, ?_⟩
  rw [h7, h4]
  rfl

set_option maxRecDepth 100000 in
/-- C25 (code bug): the message `200 OK` with `Content-Length: 0`, in one call
and cut after the status line.  Both ways consume the 38 bytes and leave the
same response, with one headers-ready event, but the state is `Body` and there
is no complete event: the response of a message with an empty body is not
completed by its own bytes. -/
theorem zero_length_pieces_never_complete :
    zeroLengthPieces.flatten = zeroLengthMessage ∧
    ∃ r, processResponse 64 freshGet zeroLengthMessage = some (.ok r 38) ∧
      feedPieces 64 freshGet zeroLengthPieces = some (r, 38) ∧
      r._state = .Body ∧ completed r = false ∧
      r.trace = [Event.headersReady] ∧
      countHeadersReady r.trace = 1 ∧ countComplete r.trace = 0 :=
  ⟨rfl, _, rfl, rfl, rfl, rfl, rfl, rfl, rfl⟩

end RpiHttp
